import Mathlib

/-!
# Block scanner of the VAS adapter: scanning and extraction engine

A shallow embedding of `vas/blockscaner.go`, `vas/models.go`,
`vas/manager.go` (fee estimation and `ListUnspent`), the minimum fee of
`vas/config.go` and `vas/vas.go`, and, of `vas/tx_decode.go`, the selection of
the unspent outputs and the reordering of the signing hashes.

* Go `string` is `String`; `uint32`/`uint64` are `Nat` with an explicit
  `% 2^32` / `% 2^64` wherever the source does arithmetic on them.
* A Go `error` result is an `Option`: `none` is the error.
* A run-time panic (index out of range) is the outer `Option` of the
  extraction functions: `none` is the crash.
* `map[string]*TxExtractData` is an association list in insertion order.
* The node, the ownership oracle and the observers are fields of the
  environment records `WalletManager` and `VASBlockScanner`.
* `int64` arithmetic wraps (`wrapInt64`); a `float64` is a sign, a significand
  and a binary exponent (`Float64`), rounded to nearest, ties to even.
-/

namespace Vas

/-! ## Decimal arithmetic (`github.com/shopspring/decimal`) -/

/-- A decimal number `value * 10 ^ exp`, as in `decimal.Decimal`. -/
structure Decimal where
  value : Int
  exp : Int
deriving DecidableEq, Repr

namespace Decimal

/-- The constant `decimal.Zero`, which is `New(0, 1)`. -/
def Zero : Decimal := ⟨0, 1⟩

/-- The number a decimal denotes. -/
def toRat (d : Decimal) : ℚ := (d.value : ℚ) * (10 : ℚ) ^ d.exp

/-- Go `Decimal.rescale`: the same number at exponent `exp`, truncated toward
zero when `exp` is larger than the current exponent. -/
def rescale (d : Decimal) (exp : Int) : Decimal :=
  if d.exp = exp then d
  else if exp > d.exp then ⟨Int.tdiv d.value (10 ^ (exp - d.exp).toNat), exp⟩
  else ⟨d.value * 10 ^ (d.exp - exp).toNat, exp⟩

/-- Go `Decimal.Add`: exact sum at the smaller exponent. -/
def Add (d d2 : Decimal) : Decimal :=
  let baseScale := min d.exp d2.exp
  ⟨(d.rescale baseScale).value + (d2.rescale baseScale).value, baseScale⟩

/-- Go `Decimal.Sub`: exact difference at the smaller exponent. -/
def Sub (d d2 : Decimal) : Decimal :=
  let baseScale := min d.exp d2.exp
  ⟨(d.rescale baseScale).value - (d2.rescale baseScale).value, baseScale⟩

/-- Go `Decimal.Round`: round half away from zero to `places` decimal places. -/
def Round (d : Decimal) (places : Int) : Decimal :=
  if d.exp = -places then d
  else
    let ret := d.rescale (-places - 1)
    let v := if ret.value < 0 then ret.value - 5 else ret.value + 5
    let q := Int.ediv v 10
    let m := Int.emod v 10
    ⟨if q < 0 ∧ m ≠ 0 then q + 1 else q, ret.exp + 1⟩

/-- Decimal digits of a natural number, most significant first
(`fuel` bounds the number of digits). -/
def digitsAux : Nat → Nat → List Char → List Char
  | 0, _, acc => acc
  | fuel + 1, n, acc =>
    let acc1 := Char.ofNat (48 + n % 10) :: acc
    if n / 10 = 0 then acc1 else digitsAux fuel (n / 10) acc1

/-- The text of a natural number in base 10, as `big.Int.String`. -/
def natString (n : Nat) : List Char := digitsAux (n + 1) n []

/-- The text of an integer in base 10. -/
def intString (i : Int) : List Char :=
  if i < 0 then '-' :: natString i.natAbs else natString i.natAbs

/-- Go `Decimal.string(false)`: the digits with the decimal point placed,
trailing zeros kept. -/
def string (d : Decimal) : String :=
  if d.exp ≥ 0 then String.mk (intString (d.rescale 0).value)
  else
    let str := natString d.value.natAbs
    let dExpInt := (-d.exp).toNat
    let intPart := if str.length > dExpInt then str.take (str.length - dExpInt) else ['0']
    let fractionalPart :=
      if str.length > dExpInt then str.drop (str.length - dExpInt)
      else List.replicate (dExpInt - str.length) '0' ++ str
    let number := if fractionalPart.length > 0 then intPart ++ '.' :: fractionalPart else intPart
    String.mk (if d.value < 0 then '-' :: number else number)

/-- Go `Decimal.StringFixed`: round to `places`, then print. -/
def StringFixed (d : Decimal) (places : Int) : String :=
  (d.Round places).string

/-- Value of a run of decimal digits; `none` when a character is not a digit
or the run is empty. -/
def parseDigits : List Char → Option Nat
  | [] => none
  | cs => cs.foldl (fun acc c =>
      match acc with
      | none => none
      | some n => if '0' ≤ c ∧ c ≤ '9' then some (n * 10 + (c.toNat - 48)) else none) (some 0)

/-- A signed decimal integer: an optional sign and at least one digit, as
`big.Int.SetString(s, 10)` and `strconv.ParseInt(s, 10, _)` accept it. -/
def parseInt : List Char → Option Int
  | '-' :: cs => (parseDigits cs).map fun n => -(n : Int)
  | '+' :: cs => (parseDigits cs).map fun n => (n : Int)
  | cs => (parseDigits cs).map fun n => (n : Int)

/-- The characters before the first `e` or `E`, and the characters after it
when there is one. -/
def splitExp : List Char → List Char × Option (List Char)
  | [] => ([], none)
  | c :: cs =>
    if c = 'e' ∨ c = 'E' then ([], some cs)
    else let r := splitExp cs; (c :: r.1, r.2)

/-- Go `strings.Split(s, ".")`. -/
def splitDot : List Char → List (List Char)
  | [] => [[]]
  | c :: cs =>
    match splitDot cs with
    | [] => [[c]]
    | p :: ps => if c = '.' then [] :: p :: ps else (c :: p) :: ps

/-- Go `strings.TrimRight(s, "0")`. -/
def trimRightZeros (cs : List Char) : List Char :=
  (cs.reverse.dropWhile (fun c => c = '0')).reverse

/-- Go `decimal.NewFromString`; `none` is the error result. -/
def NewFromString (s : String) : Option Decimal :=
  let sp := splitExp s.data
  let expPart : Option Int :=
    match sp.2 with
    | none => some 0
    | some es =>
      match parseInt es with
      | none => none
      | some e => if -(2 ^ 31 : Int) ≤ e ∧ e < 2 ^ 31 then some e else none
  match expPart with
  | none => none
  | some e0 =>
    match splitDot sp.1 with
    | [whole] =>
      (parseInt whole).bind fun v => some ⟨v, e0⟩
    | [ip, fp] =>
      let decimalPart := trimRightZeros fp
      let e := e0 - decimalPart.length
      (parseInt (ip ++ decimalPart)).bind fun v =>
        if -(2 ^ 31 : Int) ≤ e ∧ e < 2 ^ 31 then some ⟨v, e⟩ else none
    | _ => none

/-- The idiom `d, _ := decimal.NewFromString(s)`: the zero value `Decimal{}`
stands for a text that does not parse. -/
def parseOrZero (s : String) : Decimal :=
  match NewFromString s with
  | some d => d
  | none => ⟨0, 0⟩

end Decimal

/-! ## Data model (`manager.go`, `models.go`, `blockscaner.go`) -/

/-- An input of a node transaction (`Vin`). -/
structure Vin where
  Coinbase : String
  TxID : String
  Vout : Nat
  N : Nat
  Addr : String
  Value : String
deriving DecidableEq, Repr

/-- An output of a node transaction (`Vout`); `ScriptType` is the Go field
`Type`. -/
structure Vout where
  N : Nat
  Addr : String
  Value : String
  ScriptPubKey : String
  ScriptType : String
deriving DecidableEq, Repr

/-- A node transaction (`Transaction`). -/
structure Transaction where
  TxID : String
  Size : Nat
  Version : Nat
  LockTime : Int
  Hex : String
  BlockHash : String
  BlockHeight : Nat
  Confirmations : Nat
  Blocktime : Int
  IsCoinBase : Bool
  Fees : String
  Decimals : Int
  Vins : List Vin
  Vouts : List Vout
deriving DecidableEq, Repr

/-- A block (`Block`); `tx` is the ordered list of transaction ids. -/
structure Block where
  Hash : String
  Confirmations : Nat
  Merkleroot : String
  tx : List String
  Previousblockhash : String
  Height : Nat
  Version : Nat
  Time : Nat
  Fork : Bool
deriving DecidableEq, Repr

/-- The header handed to observers (`openwallet.BlockHeader`). -/
structure BlockHeader where
  Hash : String
  Confirmations : Nat
  Merkleroot : String
  Previousblockhash : String
  Height : Nat
  Version : Nat
  Time : Nat
  Fork : Bool
  Symbol : String
deriving DecidableEq, Repr

/-- The coin tag of a record (`openwallet.Coin`). -/
structure Coin where
  Symbol : String
  IsContract : Bool
deriving DecidableEq, Repr

/-- A classified input (`openwallet.TxInput`). -/
structure TxInput where
  SourceTxID : String
  SourceIndex : Nat
  TxID : String
  Address : String
  Amount : String
  Coin : Coin
  Index : Nat
  Sid : String
  CreateAt : Int
  BlockHeight : Nat
  BlockHash : String
  TxType : Nat
deriving DecidableEq, Repr

/-- A classified output (`openwallet.TxOutPut`). -/
structure TxOutPut where
  TxID : String
  Address : String
  Amount : String
  Coin : Coin
  Index : Nat
  Sid : String
  ExtParam : List (String × String)
  CreateAt : Int
  BlockHeight : Nat
  BlockHash : String
  Confirm : Int
  TxType : Nat
deriving DecidableEq, Repr

/-- The transaction summary of a record (`openwallet.Transaction`). -/
structure OWTransaction where
  WxID : String
  TxID : String
  From : List String
  To : List String
  Fees : String
  Coin : Coin
  BlockHash : String
  BlockHeight : Nat
  Decimal : Int
  ConfirmTime : Int
  Status : String
  TxType : Nat
deriving DecidableEq, Repr

/-- The per-owner extraction record (`openwallet.TxExtractData`). -/
structure TxExtractData where
  TxInputs : List TxInput
  TxOutputs : List TxOutPut
  Transaction : Option OWTransaction
deriving DecidableEq, Repr

/-- Go `openwallet.NewBlockExtractData`: an empty record. -/
def NewBlockExtractData : TxExtractData := ⟨[], [], none⟩

/-- The result of one extraction (`ExtractResult`). -/
structure ExtractResult where
  extractData : List (String × TxExtractData)
  TxID : String
  BlockHash : String
  BlockHeight : Nat
  BlockTime : Int
  Success : Bool
deriving DecidableEq, Repr

/-- A failed block or transaction kept for a later retry
(`openwallet.UnscanRecord`). -/
structure UnscanRecord where
  BlockHeight : Nat
  TxID : String
  Reason : String
  Symbol : String
deriving DecidableEq, Repr

/-- Go `openwallet.TxStatusSuccess`. -/
def TxStatusSuccess : String := "1"

/-- The wallet manager as the scanner reads it: the configuration, the node
calls and the identity functions of the `openwallet` library. The clock read
by `time.Now().Unix()` is the field `Now`. -/
structure WalletManager where
  Symbol : String
  Decimal : Int
  GetBlockHeight : Option Nat
  GetBlockByHeight : Nat → Option Block
  GetTransaction : String → Option Transaction
  Now : Int
  GenTxInputSID : String → String → String → Nat → String
  GenTxOutPutSID : String → String → String → Nat → String
  GenTransactionWxID : OWTransaction → String

/-- An ownership oracle (`openwallet.BlockScanAddressFunc`): the owner key of
an address and whether the address is tracked. -/
abbrev BlockScanAddressFunc := String → String × Bool

/-! ## Transaction extractor (`blockscaner.go`, lines 461-729) -/

/-- Go conversion `int(v)` of a `uint64` value on a 64-bit platform. -/
def toInt (v : Nat) : Int :=
  if v % 2 ^ 64 < 2 ^ 63 then ((v % 2 ^ 64 : Nat) : Int)
  else ((v % 2 ^ 64 : Nat) : Int) - 2 ^ 64

/-- The input completion loop of `extractTransaction` (lines 511-545), run
with the current value of `success`. It yields the inputs as the loop leaves
them (they are updated in place through their pointers) and the final
`success`; `none` is the index-out-of-range panic of `preVouts[vout]`. -/
def resolveInputs (wm : WalletManager) : List Vin → Bool → Option (List Vin × Bool)
  | [], success => some ([], success)
  | input :: rest, success =>
    if input.Coinbase.length > 0 then
      some (input :: rest, true)
    else if input.Addr.length = 0 then
      match wm.GetTransaction input.TxID with
      | none => some (input :: rest, false)
      | some preTx =>
        if (preTx.Vouts.length : Int) > toInt input.Vout then
          match preTx.Vouts[input.Vout]? with
          | none => none
          | some preOut =>
            (resolveInputs wm rest true).map fun r =>
              ({ input with Addr := preOut.Addr, Value := preOut.Value } :: r.1, r.2)
        else
          (resolveInputs wm rest success).map fun r => (input :: r.1, r.2)
    else
      (resolveInputs wm rest success).map fun r => (input :: r.1, r.2)

/-- The map update `ed := m[key]; if ed == nil { ed = NewBlockExtractData();
m[key] = ed }` followed by a change `f` of the record. -/
def upsert (f : TxExtractData → TxExtractData) (key : String) :
    List (String × TxExtractData) → List (String × TxExtractData)
  | [] => [(key, f NewBlockExtractData)]
  | (k, ed) :: rest =>
    if k = key then (k, f ed) :: rest else (k, ed) :: upsert f key rest

/-- The state of the loops of `extractTxInput` and `extractTxOutput`: the
record map, the address:amount descriptions and the running total. -/
structure ExtractAcc where
  extractData : List (String × TxExtractData)
  descr : List String
  totalAmount : Decimal
deriving DecidableEq, Repr

/-- One pass of the loop body of `extractTxInput` (lines 601-653) for the
input `output` at position `i`. -/
def extractTxInputStep (wm : WalletManager) (trx : Transaction) (resultTxID : String)
    (scanAddressFunc : BlockScanAddressFunc) (i : Nat) (output : Vin) (acc : ExtractAcc) :
    ExtractAcc :=
  let txid := output.TxID
  let vout := output.Vout
  let amount := output.Value
  let addr := output.Addr
  let data :=
    if (scanAddressFunc addr).2 then
      let input : TxInput :=
        { SourceTxID := txid, SourceIndex := vout, TxID := resultTxID, Address := addr,
          Amount := amount, Coin := ⟨wm.Symbol, false⟩, Index := output.N,
          Sid := wm.GenTxInputSID txid wm.Symbol "" i, CreateAt := wm.Now,
          BlockHeight := trx.BlockHeight, BlockHash := trx.BlockHash, TxType := 0 }
      upsert (fun ed => { ed with TxInputs := ed.TxInputs ++ [input] })
        (scanAddressFunc addr).1 acc.extractData
    else acc.extractData
  { extractData := data
    descr := acc.descr ++ [addr ++ ":" ++ amount]
    totalAmount := acc.totalAmount.Add (Decimal.parseOrZero amount) }

/-- The loop of `extractTxInput` over the inputs from position `i` on. -/
def extractTxInputLoop (wm : WalletManager) (trx : Transaction) (resultTxID : String)
    (scanAddressFunc : BlockScanAddressFunc) : Nat → List Vin → ExtractAcc → ExtractAcc
  | _, [], acc => acc
  | i, output :: rest, acc =>
    extractTxInputLoop wm trx resultTxID scanAddressFunc (i + 1) rest
      (extractTxInputStep wm trx resultTxID scanAddressFunc i output acc)

/-- Go `extractTxInput`: classify the inputs of `trx` into the record map of
`result`; the returned accumulator holds the new map, `from` and the total. -/
def extractTxInput (wm : WalletManager) (trx : Transaction) (result : ExtractResult)
    (scanAddressFunc : BlockScanAddressFunc) : ExtractAcc :=
  extractTxInputLoop wm trx result.TxID scanAddressFunc 0 trx.Vins
    ⟨result.extractData, [], Decimal.Zero⟩

/-- One pass of the loop body of `extractTxOutput` (lines 671-726). -/
def extractTxOutputStep (wm : WalletManager) (trx : Transaction)
    (scanAddressFunc : BlockScanAddressFunc) (output : Vout) (acc : ExtractAcc) : ExtractAcc :=
  if output.ScriptType = "OP_RETURN" then acc
  else
    let amount := output.Value
    let n := output.N
    let addr := output.Addr
    let data :=
      if (scanAddressFunc addr).2 then
        let outPut : TxOutPut :=
          { TxID := trx.TxID, Address := addr, Amount := amount, Coin := ⟨wm.Symbol, false⟩,
            Index := n, Sid := wm.GenTxOutPutSID trx.TxID wm.Symbol "" n,
            ExtParam := [("scriptPubKey", output.ScriptPubKey)], CreateAt := wm.Now,
            BlockHeight := trx.BlockHeight, BlockHash := trx.BlockHash,
            Confirm := (trx.Confirmations : Int), TxType := 0 }
        upsert (fun ed => { ed with TxOutputs := ed.TxOutputs ++ [outPut] })
          (scanAddressFunc addr).1 acc.extractData
      else acc.extractData
    { extractData := data
      descr := acc.descr ++ [addr ++ ":" ++ amount]
      totalAmount := acc.totalAmount.Add (Decimal.parseOrZero amount) }

/-- Go `extractTxOutput`: classify the outputs of `trx` into the record map
`data`; the returned accumulator holds the new map, `to` and the total. -/
def extractTxOutput (wm : WalletManager) (trx : Transaction)
    (data : List (String × TxExtractData)) (scanAddressFunc : BlockScanAddressFunc) :
    ExtractAcc :=
  trx.Vouts.foldl (fun acc output => extractTxOutputStep wm trx scanAddressFunc output acc)
    ⟨data, [], Decimal.Zero⟩

/-- The summary built in the loop of lines 557-579, before its `WxID` is
set. -/
def summaryTx (wm : WalletManager) (trx : Transaction) (fromList toList : List String)
    (totalSpent totalReceived : Decimal) : OWTransaction :=
  { WxID := "", TxID := trx.TxID, From := fromList, To := toList,
    Fees := (totalSpent.Sub totalReceived).StringFixed wm.Decimal,
    Coin := ⟨wm.Symbol, false⟩, BlockHash := trx.BlockHash, BlockHeight := trx.BlockHeight,
    Decimal := wm.Decimal, ConfirmTime := trx.Blocktime, Status := TxStatusSuccess,
    TxType := 0 }

/-- The summary with its `WxID` filled in by `GenTransactionWxID`. -/
def finalTx (wm : WalletManager) (tx : OWTransaction) : OWTransaction :=
  { tx with WxID := wm.GenTransactionWxID tx }

/-- Go `extractTransaction`: `trx = none` is the nil transaction; the updated
`result` is returned, `none` is a panic. -/
def extractTransaction (wm : WalletManager) (trx : Option Transaction)
    (result : ExtractResult) (scanAddressFunc : BlockScanAddressFunc) : Option ExtractResult :=
  match trx with
  | none => some { result with Success := false }
  | some trx =>
    match resolveInputs wm trx.Vins true with
    | none => none
    | some (vins, success) =>
      let trx1 := { trx with Vins := vins }
      let result1 :=
        if success then
          let accIn := extractTxInput wm trx1 result scanAddressFunc
          let accOut := extractTxOutput wm trx1 accIn.extractData scanAddressFunc
          let tx := finalTx wm
            (summaryTx wm trx1 accIn.descr accOut.descr accIn.totalAmount accOut.totalAmount)
          { result with
            extractData := accOut.extractData.map fun e =>
              (e.1, { e.2 with Transaction := some tx }) }
        else result
      some { result1 with Success := true }

/-- Go `ExtractTransaction`: fetch the transaction `txid` and extract it. -/
def ExtractTransaction (wm : WalletManager) (blockHeight : Nat) (blockHash txid : String)
    (scanAddressFunc : BlockScanAddressFunc) : Option ExtractResult :=
  let result : ExtractResult :=
    { extractData := [], TxID := txid, BlockHash := "", BlockHeight := blockHeight,
      BlockTime := 0, Success := false }
  match wm.GetTransaction txid with
  | none => some { result with Success := false }
  | some trx =>
    let trx1 :=
      if blockHeight > 0 ∧ trx.BlockHeight = 0 then
        { trx with BlockHeight := blockHeight, BlockHash := blockHash }
      else trx
    extractTransaction wm (some trx1) result scanAddressFunc

/-! ## Scanner state, cursor store and notifications -/

/-- An observer of the scanner: `BlockExtractDataNotify key data` is `true`
when the observer returns an error for that record. -/
structure Observer where
  BlockExtractDataNotify : String → TxExtractData → Bool

/-- The wiring of the scanner that an iteration only reads: the stop flag,
the registered observers and the ownership oracle (`bs.ScanAddressFunc`). -/
structure VASBlockScanner where
  Scanning : Bool
  Observers : List Observer
  ScanAddressFunc : BlockScanAddressFunc

/-- What the scanner writes: the persisted cursor, the cached blocks, the
unscanned records, and the log of the calls made to the observers (headers
passed to `NewBlockNotify`, and observer index, owner key and record of every
`BlockExtractDataNotify` call), oldest first. -/
structure ScannerState where
  localBlockHead : Nat × String
  localBlocks : List Block
  unscanRecords : List UnscanRecord
  blockNotified : List BlockHeader
  extractNotified : List (Nat × String × TxExtractData)
deriving DecidableEq, Repr

/-- Modelled from the spec: `SaveLocalBlockHead` of the scanner's store file,
which is not among the sources; it is `setCursor(symbol, height, hash)` of the
Cursor Store. -/
def SaveLocalBlockHead (st : ScannerState) (blockHeight : Nat) (blockHash : String) :
    ScannerState :=
  { st with localBlockHead := (blockHeight, blockHash) }

/-- Modelled from the spec: `GetLocalBlock` of the scanner's store file, which
is not among the sources; it is `getCachedBlock(height) -> Block | not-found`
of the Cursor Store, the lookup being by the `Height` field as in
`WalletManager.GetLocalBlock`. -/
def GetLocalBlock (st : ScannerState) (height : Nat) : Option Block :=
  st.localBlocks.find? fun b => b.Height = height

/-- Modelled from the spec: `SaveLocalBlock` of the scanner's store file, which
is not among the sources; it is `putCachedBlock(Block)` of the Cursor Store,
the block replacing a cached block of the same height (`Height` is the storm
id). -/
def SaveLocalBlock (st : ScannerState) (block : Block) : ScannerState :=
  { st with localBlocks := (st.localBlocks.filter fun b => b.Height ≠ block.Height) ++ [block] }

/-- Modelled from the spec: `SaveUnscanRecord` of the scanner's store file,
which is not among the sources; inserting a task is a no-op when a task with
the same (height, txID) is stored. -/
def SaveUnscanRecord (st : ScannerState) (r : UnscanRecord) : ScannerState :=
  if st.unscanRecords.any (fun q => q.BlockHeight = r.BlockHeight ∧ q.TxID = r.TxID) then st
  else { st with unscanRecords := st.unscanRecords ++ [r] }

/-- Modelled from the spec: `DeleteUnscanRecord` of the scanner's store file,
which is not among the sources; it deletes every pending task of the
height. -/
def DeleteUnscanRecord (st : ScannerState) (height : Nat) : ScannerState :=
  { st with unscanRecords := st.unscanRecords.filter fun q => q.BlockHeight ≠ height }

/-- Go `openwallet.NewUnscanRecord(height, txID, reason, symbol)`. -/
def NewUnscanRecord (height : Nat) (txID reason symbol : String) : UnscanRecord :=
  ⟨height, txID, reason, symbol⟩

/-- Go `ParseHeader` (`models.go`); `Symbol` is the package constant
`"VAS"`. -/
def ParseHeader (b : Block) : BlockHeader :=
  { Hash := b.Hash, Confirmations := 0, Merkleroot := b.Merkleroot,
    Previousblockhash := b.Previousblockhash, Height := b.Height, Version := 0,
    Time := b.Time, Fork := false, Symbol := "VAS" }

/-- Go `BlockScannerBase.NewBlockNotify`: the header is handed to the
observers. -/
def NewBlockNotify (st : ScannerState) (header : BlockHeader) : ScannerState :=
  { st with blockNotified := st.blockNotified ++ [header] }

/-- Go `forkBlockNotify`: the header of the block with `Fork` set. -/
def forkBlockNotify (st : ScannerState) (block : Block) : ScannerState :=
  NewBlockNotify st { ParseHeader block with Fork := true }

/-- Go `newBlockNotify`: the header of the block as parsed. -/
def newBlockNotify (st : ScannerState) (block : Block) : ScannerState :=
  NewBlockNotify st (ParseHeader block)

/-- One call `o.BlockExtractDataNotify(key, data)` of `newExtractDataNotify`
for the observer at position `oi`, with the unscanned record saved on
error. -/
def notifyOne (wm : WalletManager) (height : Nat) (oi : Nat) (o : Observer)
    (st : ScannerState) (e : String × TxExtractData) : ScannerState :=
  let st1 := { st with extractNotified := st.extractNotified ++ [(oi, e.1, e.2)] }
  if o.BlockExtractDataNotify e.1 e.2 then
    SaveUnscanRecord st1 (NewUnscanRecord height "" "ExtractData Notify failed." wm.Symbol)
  else st1

/-- The loop of `newExtractDataNotify` over the observers from position `oi`
on. -/
def notifyObservers (wm : WalletManager) (height : Nat)
    (extractData : List (String × TxExtractData)) : Nat → List Observer → ScannerState →
    ScannerState
  | _, [], st => st
  | oi, o :: os, st =>
    notifyObservers wm height extractData (oi + 1) os
      (extractData.foldl (notifyOne wm height oi o) st)

/-- Go `newExtractDataNotify`, its effect on the state (its result is in
`newExtractDataNotifyE`). -/
def newExtractDataNotify (wm : WalletManager) (bs : VASBlockScanner) (height : Nat)
    (extractData : List (String × TxExtractData)) (st : ScannerState) : ScannerState :=
  notifyObservers wm height extractData 0 bs.Observers st

/-! ## Extraction pipeline, sequential view (`BatchExtractTransaction`) -/

/-- Go `newExtractDataNotify` with its result: the state after the
notifications, and whether the error it returns is non-nil. The only `return`
of the function is `return nil` (line 750). -/
def newExtractDataNotifyE (wm : WalletManager) (bs : VASBlockScanner) (height : Nat)
    (extractData : List (String × TxExtractData)) (st : ScannerState) : ScannerState × Bool :=
  (newExtractDataNotify wm bs height extractData st, false)

/-- The body of the `saveWork` loop (lines 362-386) for one result `gets`,
on the state and the `failed` counter. -/
def saveWork (wm : WalletManager) (bs : VASBlockScanner) (height : Nat)
    (acc : ScannerState × Nat) (gets : ExtractResult) : ScannerState × Nat :=
  if gets.Success then
    let notified := newExtractDataNotifyE wm bs height gets.extractData acc.1
    (notified.1, if notified.2 then acc.2 + 1 else acc.2)
  else
    (SaveUnscanRecord acc.1 (NewUnscanRecord height "" "" wm.Symbol), acc.2 + 1)

/-- The loop `for gets := range result` of `saveWork` (lines 362-386) on the
results in the order `arrived` in which they come out of the channel: the
state and the counter `failed` after the last of them. -/
def saveWorkLoop (wm : WalletManager) (bs : VASBlockScanner) (height : Nat)
    (arrived : List ExtractResult) (st : ScannerState) : ScannerState × Nat :=
  arrived.foldl (saveWork wm bs height) (st, 0)

/-- The extractions of a batch, one `ExtractTransaction` per id; `none` when
one of them panics. -/
def extractAll (wm : WalletManager) (bs : VASBlockScanner) (blockHeight : Nat)
    (blockHash : String) : List String → Option (List ExtractResult)
  | [] => some []
  | txid :: rest =>
    match ExtractTransaction wm blockHeight blockHash txid bs.ScanAddressFunc with
    | none => none
    | some r => (extractAll wm bs blockHeight blockHash rest).map fun rs => r :: rs

/-- Go `BatchExtractTransaction`, with the results reaching the aggregator in
the order of the ids (the interleavings of the pipeline are the transition
function `Pipeline.step` below). The `Bool` is `true` when a non-nil error is
returned; `none` is a panic. -/
def BatchExtractTransaction (wm : WalletManager) (bs : VASBlockScanner) (blockHeight : Nat)
    (blockHash : String) (txs : List String) (st : ScannerState) :
    Option (ScannerState × Bool) :=
  if txs.length = 0 then some (st, true)
  else
    match extractAll wm bs blockHeight blockHash txs with
    | none => none
    | some results =>
      let r := results.foldl (saveWork wm bs blockHeight) (st, 0)
      some (r.1, decide (r.2 > 0))

/-! ## Scan loop (`ScanBlockTask`, lines 110-191) -/

/-- How one pass of the `for` loop of `ScanBlockTask` ends: `ret` is the
`return` at the stop check, `brk` a `break` toward the retry phase, `next`
the start of the following pass; each carries the local `currentHeight`
and `currentHash` where they are still live, and the state. -/
inductive LoopStep where
  | ret (st : ScannerState)
  | brk (currentHeight : Nat) (currentHash : String) (st : ScannerState)
  | next (currentHeight : Nat) (currentHash : String) (st : ScannerState)
deriving DecidableEq, Repr

/-- The end of the fork branch (lines 168-176): persist the rewound cursor,
then notify the observers of the forked block when there is one. -/
def finishFork (st : ScannerState) (forkBlock : Option Block) (currentHeight : Nat)
    (currentHash : String) : LoopStep :=
  let st1 := SaveLocalBlockHead st currentHeight currentHash
  match forkBlock with
  | some fb => .next currentHeight currentHash (forkBlockNotify st1 fb)
  | none => .next currentHeight currentHash st1

/-- The fork branch of `ScanBlockTask` (lines 139-177), entered with
`currentHeight` already advanced to the height of the fetched block. -/
def forkBranch (wm : WalletManager) (currentHeight : Nat) (currentHash : String)
    (st : ScannerState) : LoopStep :=
  let forkBlock := GetLocalBlock st ((currentHeight + 2 ^ 32 - 1) % 2 ^ 32)
  let st1 := DeleteUnscanRecord st ((currentHeight + 2 ^ 32 - 1) % 2 ^ 32)
  let back := (currentHeight + 2 ^ 32 - 2) % 2 ^ 32
  let currentHeight1 := if back ≤ 0 then 1 else back
  match GetLocalBlock st1 currentHeight1 with
  | none =>
    match wm.GetBlockByHeight currentHeight1 with
    | none => .brk currentHeight1 currentHash st1
    | some curBlock => finishFork st1 forkBlock currentHeight1 curBlock.Hash
  | some localBlock => finishFork st1 forkBlock currentHeight1 localBlock.Hash

/-- One pass of the `for` loop of `ScanBlockTask`, from the local variables
`currentHeight` (a `uint32`) and `currentHash`; `none` is a panic inside the
extraction. -/
def scanIteration (wm : WalletManager) (bs : VASBlockScanner) (currentHeight : Nat)
    (currentHash : String) (st : ScannerState) : Option LoopStep :=
  if bs.Scanning = false then some (.ret st)
  else
    match wm.GetBlockHeight with
    | none => some (.brk currentHeight currentHash st)
    | some maxBlockHeight =>
      if currentHeight = (maxBlockHeight + 2 ^ 64 - 1) % 2 ^ 64 then
        some (.brk currentHeight currentHash st)
      else
        let currentHeight1 := (currentHeight + 1) % 2 ^ 32
        match wm.GetBlockByHeight currentHeight1 with
        | none => some (.brk currentHeight1 currentHash st)
        | some block =>
          if currentHash ≠ block.Previousblockhash then
            some (forkBranch wm currentHeight1 currentHash st)
          else
            match BatchExtractTransaction wm bs currentHeight1 block.Hash block.tx st with
            | none => none
            | some r =>
              let st2 := SaveLocalBlockHead r.1 currentHeight1 block.Hash
              let st3 := SaveLocalBlock st2 block
              some (.next currentHeight1 block.Hash (newBlockNotify st3 block))

/-! ## Retry of failed records (`RescanFailedRecord`, lines 269-321) -/

/-- Modelled from the spec: `GetUnscanRecords` of the blockchain data access
interface, which is not among the sources; it lists the pending tasks. -/
def GetUnscanRecords (st : ScannerState) : List UnscanRecord :=
  st.unscanRecords

/-- The body of the grouping loop (lines 281-293) for one record: the height
gets an entry in `blockMap` when it has none, and a non-empty `TxID` is
appended to the ids of that height. -/
def addToBlockMap (blockMap : List (Nat × List String)) (r : UnscanRecord) :
    List (Nat × List String) :=
  let m1 :=
    if blockMap.any (fun e => e.1 = r.BlockHeight) then blockMap
    else blockMap ++ [(r.BlockHeight, [])]
  if r.TxID.length > 0 then
    m1.map fun e => if e.1 = r.BlockHeight then (e.1, e.2 ++ [r.TxID]) else e
  else m1

/-- The map `blockMap` after the grouping loop, its heights in the order of
their first record. -/
def buildBlockMap (list : List UnscanRecord) : List (Nat × List String) :=
  list.foldl addToBlockMap []

/-- The body of the loop `for height, _ := range blockMap` (lines 295-320) for
one height; the ids grouped under the height are not read. `none` is a
panic inside the extraction. -/
def rescanHeight (wm : WalletManager) (bs : VASBlockScanner) (st : ScannerState)
    (height : Nat) : Option ScannerState :=
  if height = 0 then some st
  else
    match wm.GetBlockByHeight (height % 2 ^ 32) with
    | none => some st
    | some block =>
      match BatchExtractTransaction wm bs height "" block.tx st with
      | none => none
      | some r => if r.2 then some r.1 else some (DeleteUnscanRecord r.1 (height % 2 ^ 32))

/-- The loop over the heights of `blockMap`, taken in the order of the
list. -/
def rescanHeights (wm : WalletManager) (bs : VASBlockScanner) :
    List (Nat × List String) → ScannerState → Option ScannerState
  | [], st => some st
  | e :: rest, st =>
    match rescanHeight wm bs st e.1 with
    | none => none
    | some st1 => rescanHeights wm bs rest st1

/-- Go `RescanFailedRecord`; `none` is a panic inside an extraction. -/
def RescanFailedRecord (wm : WalletManager) (bs : VASBlockScanner) (st : ScannerState) :
    Option ScannerState :=
  rescanHeights wm bs (buildBlockMap (GetUnscanRecords st)) st

/-! ## The whole of `ScanBlockTask` (lines 84-196) -/

/-- Modelled from the spec: `GetLocalBlockHead` of the scanner's store file,
which is not among the sources; it is `getCursor(symbol) -> (height, hash)` of
the Cursor Store. -/
def GetLocalBlockHead (st : ScannerState) : Nat × String :=
  st.localBlockHead

/-- Go `GetGlobalMaxBlockHeight`: the node's block count, 0 when the call
fails. -/
def GetGlobalMaxBlockHeight (wm : WalletManager) : Nat :=
  match wm.GetBlockHeight with
  | none => 0
  | some maxHeight => maxHeight

/-- Go `GetGlobalHeadBlock`: the block at height `uint32(headBlockNum) - 1`;
`none` is the error result, with which the returned block is nil. -/
def GetGlobalHeadBlock (wm : WalletManager) : Option Block :=
  wm.GetBlockByHeight ((GetGlobalMaxBlockHeight wm % 2 ^ 32 + 2 ^ 32 - 1) % 2 ^ 32)

/-- The start of `ScanBlockTask` (lines 91-108): the local variables
`currentHeight` and `currentHash` with which the loop is entered. `none` is
the panic of `headBlock.Previousblockhash` on a nil `headBlock`, the error of
`GetGlobalHeadBlock` being only logged. -/
def bootstrap (wm : WalletManager) (st : ScannerState) : Option (Nat × String) :=
  let head := GetLocalBlockHead st
  if head.1 = 0 then
    match GetGlobalHeadBlock wm with
    | none => none
    | some headBlock =>
      some (((headBlock.Height + 2 ^ 64 - 1) % 2 ^ 64) % 2 ^ 32, headBlock.Previousblockhash)
  else some head

/-- How a run of `ScanBlockTask` ends: with a panic, without an end within
the given number of passes, at the stop check, or after the retry phase. -/
inductive Outcome where
  | panic
  | outOfFuel
  | stopped (st : ScannerState)
  | retried (st : ScannerState)
deriving DecidableEq, Repr

/-- The `for` loop of `ScanBlockTask` followed by `RescanFailedRecord`, for at
most `fuel` passes. -/
def scanLoop (wm : WalletManager) (bs : VASBlockScanner) :
    Nat → Nat → String → ScannerState → Outcome
  | 0, _, _, _ => .outOfFuel
  | fuel + 1, currentHeight, currentHash, st =>
    match scanIteration wm bs currentHeight currentHash st with
    | none => .panic
    | some (.ret st1) => .stopped st1
    | some (.brk _ _ st1) =>
      match RescanFailedRecord wm bs st1 with
      | none => .panic
      | some st2 => .retried st2
    | some (.next currentHeight1 currentHash1 st1) =>
      scanLoop wm bs fuel currentHeight1 currentHash1 st1

/-- Go `ScanBlockTask`, for at most `fuel` passes of its loop. -/
def ScanBlockTask (wm : WalletManager) (bs : VASBlockScanner) (fuel : Nat)
    (st : ScannerState) : Outcome :=
  match bootstrap wm st with
  | none => .panic
  | some start => scanLoop wm bs fuel start.1 start.2 st

/-! ## Unscanned records of `models.go` -/

namespace Models

/-- The record `UnscanRecord` of `models.go`; `ID` is the storm id. -/
structure UnscanRecord where
  ID : String
  BlockHeight : Nat
  TxID : String
  Reason : String
deriving DecidableEq, Repr

/-- The text `fmt.Sprintf("%d_%s", height, txID)`. -/
def idText (height : Nat) (txID : String) : String :=
  String.mk (Decimal.natString height) ++ "_" ++ txID

/-- Go `NewUnscanRecord` of `models.go`; `sha256Hex` stands for
`common.Bytes2Hex(crypto.SHA256([]byte(s)))`. -/
def NewUnscanRecord (sha256Hex : String → String) (height : Nat) (txID reason : String) :
    UnscanRecord :=
  { ID := sha256Hex (idText height txID), BlockHeight := height, TxID := txID,
    Reason := reason }

/-- Modelled from the spec: saving a record into a store keyed by `ID` (the
save of the storm database is not among the sources); a stored record with
the same `ID` is replaced. -/
def save (store : List UnscanRecord) (r : UnscanRecord) : List UnscanRecord :=
  (store.filter fun q => q.ID ≠ r.ID) ++ [r]

end Models

/-! ## Extraction pipeline, concurrent view (`BatchExtractTransaction`, `extractRuntime`) -/

/-- Go constant `maxExtractingSize`: the capacity of `bs.extractingCH`. -/
def maxExtractingSize : Nat := 6

namespace Pipeline

/-- The state of one call of `BatchExtractTransaction` on a batch of `N` ids,
the results being named by the position of their id in `txs`.

* `next`: the position the loop of `extractWork` has reached;
* `tokens`: the number of tokens in `bs.extractingCH`;
* `running`: goroutines started by `extractWork` that have not yet called
  `ExtractTransaction`;
* `ready`: goroutines whose `ExtractTransaction` has returned and that wait to
  send the result on `producer`;
* `holding`: goroutines that have sent their result and not yet released
  their token;
* `invoked`: the log of the calls of `ExtractTransaction`;
* `values`: the buffer of `extractRuntime`;
* `inHand`: the result `saveWork` has received from `worker` and not finished;
* `processed`: the results `saveWork` has finished, in order;
* `done`: the counter `done`;
* `quitCloses`: how many times `close(quit)` has run;
* `returned`: whether `extractRuntime` has returned. -/
structure State where
  next : Nat
  tokens : Nat
  running : List Nat
  ready : List Nat
  holding : List Nat
  invoked : List Nat
  values : List Nat
  inHand : Option Nat
  processed : List Nat
  done : Nat
  quitCloses : Nat
  returned : Bool
deriving DecidableEq, Repr

/-- The state at the call of `extractRuntime`: nothing dispatched, every
counter zero, `quit` open, and `bs.extractingCH` empty (no token of an earlier
batch is left in it). -/
def init : State :=
  { next := 0, tokens := 0, running := [], ready := [], holding := [], invoked := [],
    values := [], inHand := none, processed := [], done := 0, quitCloses := 0,
    returned := false }

/-- The atomic actions of the goroutines of a batch. -/
inductive Action where
  | dispatch
  | invoke (i : Nat)
  | produce (i : Nat)
  | release (i : Nat)
  | handover
  | process
  | quit
deriving DecidableEq, Repr

/-- The effect of an action on the state of a batch of `N` ids; `none` when
the action is not enabled.

* `dispatch` (lines 391-401): `extractWork` puts a token into
  `bs.extractingCH`, which blocks while it holds `maxExtractingSize` tokens,
  and starts the goroutine of the next id;
* `invoke i` (line 397): goroutine `i` calls `ExtractTransaction`;
* `produce i` (lines 397 and 447-448): goroutine `i` sends its result on
  `producer` and the `select` of `extractRuntime` receives it and appends it
  to `values`;
* `release i` (line 399): goroutine `i` takes a token out of
  `bs.extractingCH`;
* `handover` (lines 438-441, 453-455 and 362): the `select` of
  `extractRuntime` sends `values[0]` on `worker`, `saveWork` receives it;
* `process` (lines 364-385): `saveWork` finishes the result in hand,
  increments `done` and closes `quit` when `done == shouldDone`;
* `quit` (lines 449-452): the `select` of `extractRuntime` receives from the
  closed `quit` and returns. -/
def step (N : Nat) : Action → State → Option State
  | .dispatch, s =>
    if s.next < N ∧ s.tokens < maxExtractingSize then
      some { s with next := s.next + 1, tokens := s.tokens + 1,
                    running := s.running ++ [s.next] }
    else none
  | .invoke i, s =>
    if i ∈ s.running then
      some { s with running := s.running.erase i, ready := s.ready ++ [i],
                    invoked := s.invoked ++ [i] }
    else none
  | .produce i, s =>
    if i ∈ s.ready ∧ s.returned = false then
      some { s with ready := s.ready.erase i, holding := s.holding ++ [i],
                    values := s.values ++ [i] }
    else none
  | .release i, s =>
    if i ∈ s.holding then
      some { s with holding := s.holding.erase i, tokens := s.tokens - 1 }
    else none
  | .handover, s =>
    if s.returned = false ∧ s.inHand = none then
      match s.values with
      | [] => none
      | v :: rest => some { s with values := rest, inHand := some v }
    else none
  | .process, s =>
    match s.inHand with
    | none => none
    | some v =>
      some { s with inHand := none, processed := s.processed ++ [v], done := s.done + 1,
                    quitCloses := if s.done + 1 = N then s.quitCloses + 1 else s.quitCloses }
  | .quit, s =>
    if s.returned = false ∧ s.quitCloses > 0 then some { s with returned := true }
    else none

/-- The state after a sequence of actions; `none` when one of them is not
enabled. -/
def run (N : Nat) : List Action → State → Option State
  | [], s => some s
  | a :: rest, s =>
    match step N a s with
    | none => none
    | some s1 => run N rest s1

/-- A bound on the number of actions still to come: six per id not yet
dispatched, and what is left of the course of each dispatched id and of
`extractRuntime`. -/
def stepsLeft (N : Nat) (s : State) : Nat :=
  6 * (N - s.next) + 5 * s.running.length + 4 * s.ready.length + s.holding.length +
    2 * s.values.length + s.inHand.toList.length + (if s.returned then 0 else 1)

/-- The invariant of the pipeline. -/
structure Inv (N : Nat) (s : State) : Prop where
  next_le : s.next ≤ N
  dispatched : (s.running ++ s.invoked).Perm (List.range s.next)
  results : s.invoked.Perm (s.ready ++ (s.processed ++ (s.inHand.toList ++ s.values)))
  tokens_eq : s.tokens = s.running.length + s.ready.length + s.holding.length
  done_eq : s.done = s.processed.length
  quit_eq : s.quitCloses = if s.processed.length = N then 1 else 0
  returned_quit : s.returned = true → s.quitCloses = 1

/-- A complete course of a batch of two ids, the second result arriving
first. -/
def courseOfTwo : List Action :=
  [.dispatch, .dispatch, .invoke 1, .invoke 0, .produce 1, .release 1, .produce 0,
   .handover, .process, .handover, .release 0, .process, .quit]

/-- The state at the end of `courseOfTwo`. -/
def finalOfTwo : State :=
  { next := 2, tokens := 0, running := [], ready := [], holding := [], invoked := [1, 0],
    values := [], inHand := none, processed := [1, 0], done := 2, quitCloses := 1,
    returned := true }

end Pipeline

/-! ## Well-formed node answers -/

/-- Every output index that an input of a node transaction refers to is in
the range of a Go `int` (the node's indices are 32-bit). -/
def IndicesInRange (wm : WalletManager) : Prop :=
  ∀ txid trx, wm.GetTransaction txid = some trx → ∀ v ∈ trx.Vins, v.Vout < 2 ^ 63

/-! ## Fixed nodes and scenarios -/

/-- A block with the given height, hash, previous hash and transaction ids. -/
def mkBlock (height : Nat) (hash prev : String) (tx : List String) : Block :=
  { Hash := hash, Confirmations := 0, Merkleroot := "", tx := tx, Previousblockhash := prev,
    Height := height, Version := 0, Time := 0, Fork := false }

/-- A node with a fixed chain: `getblockcount` answers `head`, a block or a
transaction is found when it is in the list. -/
def fixedNode (head : Nat) (blocks : List Block) (txs : List Transaction) : WalletManager :=
  { Symbol := "VAS", Decimal := 8, GetBlockHeight := some head,
    GetBlockByHeight := fun h => blocks.find? fun b => b.Height = h,
    GetTransaction := fun txid => txs.find? fun t => t.TxID = txid,
    Now := 0,
    GenTxInputSID := fun txid _ _ i => txid ++ ":in:" ++ String.mk (Decimal.natString i),
    GenTxOutPutSID := fun txid _ _ n => txid ++ ":out:" ++ String.mk (Decimal.natString n),
    GenTransactionWxID := fun tx => "wx:" ++ tx.TxID }

/-- A running scanner without observers whose oracle owns no address. -/
def plainScanner : VASBlockScanner :=
  { Scanning := true, Observers := [], ScanAddressFunc := fun _ => ("", false) }

/-- A store holding the cursor and the cached blocks, nothing else. -/
def storeOf (height : Nat) (hash : String) (blocks : List Block) : ScannerState :=
  { localBlockHead := (height, hash), localBlocks := blocks, unscanRecords := [],
    blockNotified := [], extractNotified := [] }

/-- A node whose blocks 1 and 2 are `"G1"` and `"G2"`. -/
def nodeLow : WalletManager :=
  fixedNode 50 [mkBlock 1 "G1" "G0" [], mkBlock 2 "G2" "G1" []] []

/-- A node whose blocks 9, 10 and 11 are `"G9"`, `"G10"` and `"G11"`. -/
def nodeReorg : WalletManager :=
  fixedNode 50 [mkBlock 9 "G9" "G8" [], mkBlock 10 "G10" "G9" [], mkBlock 11 "G11" "G10" []] []

/-- A node whose block 1 follows `"G0"` and which also answers for the height
`2 ^ 32 - 1`. -/
def nodeWrap : WalletManager :=
  fixedNode 50 [mkBlock 1 "G1" "G0" [], mkBlock 4294967295 "GX" "GY" []] []

/-- The block recorded locally at height 10 before the reorganisation. -/
def staleBlock10 : Block :=
  { Hash := "L10", Confirmations := 0, Merkleroot := "M10", tx := [], Previousblockhash := "G9",
    Height := 10, Version := 0, Time := 1573722270, Fork := false }

/-- A running scanner with one observer, which accepts every record, and an
oracle that owns no address. -/
def watchedScanner : VASBlockScanner :=
  { Scanning := true, Observers := [⟨fun _ _ => false⟩], ScanAddressFunc := fun _ => ("", false) }

/-- An input as `newTxVinByCore` builds it from the node's answer: no address
and no amount. -/
def mkVin (txid : String) (vout n : Nat) : Vin :=
  { Coinbase := "", TxID := txid, Vout := vout, N := n, Addr := "", Value := "" }

/-- An output with the given index, address, amount and script type. -/
def mkVout (n : Nat) (addr value scriptType : String) : Vout :=
  { N := n, Addr := addr, Value := value, ScriptPubKey := "", ScriptType := scriptType }

/-- A transaction with the given id, inputs and outputs, not yet placed in a
block. -/
def mkTx (txid : String) (vins : List Vin) (vouts : List Vout) : Transaction :=
  { TxID := txid, Size := 0, Version := 0, LockTime := 0, Hex := "", BlockHash := "",
    BlockHeight := 0, Confirmations := 0, Blocktime := 0, IsCoinBase := false, Fees := "",
    Decimals := 8, Vins := vins, Vouts := vouts }

/-- The oracle that owns the address `"A"`, under the key `"ownerA"`, and no
other address. -/
def ownsA : BlockScanAddressFunc :=
  fun a => if a = "A" then ("ownerA", true) else ("", false)

/-- The transaction `T1`: one input spending output 0 of `T0`, one output
paying 9.9 to `"B"`. -/
def txT1 : Transaction :=
  mkTx "T1" [mkVin "T0" 0 0] [mkVout 0 "B" "9.9" "pubkeyhash"]

/-- The transaction `T0`: one output paying 10.0 to `"A"`. -/
def txT0 : Transaction :=
  mkTx "T0" [] [mkVout 0 "A" "10.0" "pubkeyhash"]

/-- A node that knows `T1` but cannot return the transaction `T0` that the
input of `T1` refers to. -/
def nodeMissingPrev : WalletManager :=
  fixedNode 200 [mkBlock 100 "H100" "P" ["T1"]] [txT1]

/-- A node that knows `T1` and a transaction `T0` without any output, so the
input of `T1` refers to an output that does not exist. -/
def nodeShortPrev : WalletManager :=
  fixedNode 200 [mkBlock 100 "H100" "P" ["T1"]] [txT1, mkTx "T0" [] []]

/-! ## Notions used in the statements -/

/-- The input `input` as the completion loop leaves it when the loop does not
stop early: an input without address takes the address and the amount of the
output it refers to, when the previous transaction is returned and has that
output. -/
def fillInput (wm : WalletManager) (input : Vin) : Vin :=
  if input.Addr.length = 0 then
    match wm.GetTransaction input.TxID with
    | none => input
    | some preTx =>
      match preTx.Vouts[input.Vout]? with
      | none => input
      | some preOut => { input with Addr := preOut.Addr, Value := preOut.Value }
  else input

/-- The total the extraction loops compute for a list of amounts: each amount
is parsed and added to `decimal.Zero`, in order. -/
def sumAmounts (amounts : List String) : Decimal :=
  amounts.foldl (fun t a => t.Add (Decimal.parseOrZero a)) Decimal.Zero

/-- The outputs that `extractTxOutput` does not skip: those whose script type
is not `OP_RETURN`. -/
def payingOutputs (vouts : List Vout) : List Vout :=
  vouts.filter fun o => o.ScriptType ≠ "OP_RETURN"

/-- The fee text as the specification words it: the total of the amounts of
all inputs minus the total of the amounts of all outputs, printed with the
configured number of decimal places. -/
def specFees (wm : WalletManager) (vins : List Vin) (vouts : List Vout) : String :=
  ((sumAmounts (vins.map fun v => v.Value)).Sub
    (sumAmounts (vouts.map fun o => o.Value))).StringFixed wm.Decimal

/-- The fee text of the code: the total of the amounts of the inputs minus the
total of the amounts of the outputs that are not skipped, printed with the
configured number of decimal places. -/
def codeFees (wm : WalletManager) (vins : List Vin) (vouts : List Vout) : String :=
  ((sumAmounts (vins.map fun v => v.Value)).Sub
    (sumAmounts ((payingOutputs vouts).map fun o => o.Value))).StringFixed wm.Decimal

/-- Every record of the map is justified by the oracle: its key is the owner
key of an owned address among `inAddrs` or `outAddrs`, each of its input
records carries an address of `inAddrs` owned under that key, and each of its
output records an address of `outAddrs` owned under that key. -/
def OwnedOnly (scan : BlockScanAddressFunc) (inAddrs outAddrs : List String)
    (data : List (String × TxExtractData)) : Prop :=
  ∀ e ∈ data,
    ((∃ a ∈ inAddrs, scan a = (e.1, true)) ∨ (∃ a ∈ outAddrs, scan a = (e.1, true))) ∧
    (∀ inp ∈ e.2.TxInputs, inp.Address ∈ inAddrs ∧ scan inp.Address = (e.1, true)) ∧
    (∀ out ∈ e.2.TxOutputs, out.Address ∈ outAddrs ∧ scan out.Address = (e.1, true))

/-- The node of the end-to-end scenario: head 200, block 100 follows `"P"`
and holds `T1`, whose input spends the output of `T0`. -/
def nodeScenario : WalletManager :=
  fixedNode 200 [mkBlock 100 "H100" "P" ["T1"]] [txT1, txT0]

/-- The transaction `T2`: one input spending output 0 of `T0`, one output
paying 9 to `"B"` and one `OP_RETURN` output carrying 0.5. -/
def txT2 : Transaction :=
  mkTx "T2" [mkVin "T0" 0 0] [mkVout 0 "B" "9" "pubkeyhash", mkVout 1 "" "0.5" "OP_RETURN"]

/-- A node that knows `T2` and `T0`. -/
def nodeBurn : WalletManager :=
  fixedNode 200 [mkBlock 100 "H100" "P" ["T2"]] [txT2, txT0]

/-- The result `ExtractTransaction` starts from. -/
def freshResult (blockHeight : Nat) (txid : String) : ExtractResult :=
  { extractData := [], TxID := txid, BlockHash := "", BlockHeight := blockHeight,
    BlockTime := 0, Success := false }

/-- A running scanner with one observer, which accepts every record, and the
oracle `ownsA`. -/
def scannerA : VASBlockScanner :=
  { Scanning := true, Observers := [⟨fun _ _ => false⟩], ScanAddressFunc := ownsA }

/-- A task for the height `height` with an empty transaction id is
pending. -/
def HasBlockTask (st : ScannerState) (height : Nat) : Prop :=
  ∃ q ∈ st.unscanRecords, q.BlockHeight = height ∧ q.TxID = ""

/-- The calls `BlockExtractDataNotify` that `newExtractDataNotify` makes for the
record map `data`, for the observers at the positions `oi`, `oi + 1`, ... up to
`oi + n - 1`. -/
def deliveries (data : List (String × TxExtractData)) (oi n : Nat) :
    List (Nat × String × TxExtractData) :=
  (List.range' oi n).flatMap fun i => data.map fun e => (i, e.1, e.2)

/-- The calls `BlockExtractDataNotify` that the aggregator makes for a list of
results: those of the results with `Success = true`, in order. -/
def batchDeliveries (bs : VASBlockScanner) (results : List ExtractResult) :
    List (Nat × String × TxExtractData) :=
  results.flatMap fun r =>
    if r.Success then deliveries r.extractData 0 bs.Observers.length else []

/-- An input record with its creation time cleared. -/
def TxInput.clearCreateAt (i : TxInput) : TxInput :=
  { i with CreateAt := 0 }

/-- An output record with its creation time cleared. -/
def TxOutPut.clearCreateAt (o : TxOutPut) : TxOutPut :=
  { o with CreateAt := 0 }

/-- A record with the creation times of its inputs and outputs cleared. -/
def TxExtractData.clearCreateAt (ed : TxExtractData) : TxExtractData :=
  { TxInputs := ed.TxInputs.map TxInput.clearCreateAt,
    TxOutputs := ed.TxOutputs.map TxOutPut.clearCreateAt,
    Transaction := ed.Transaction }

/-- A record map with the creation times cleared. -/
def clearData (data : List (String × TxExtractData)) : List (String × TxExtractData) :=
  data.map fun e => (e.1, e.2.clearCreateAt)

/-- An extraction result with the creation times of its records cleared. -/
def ExtractResult.clearCreateAt (r : ExtractResult) : ExtractResult :=
  { r with extractData := clearData r.extractData }

/-- The state of an extraction loop with the creation times of its records
cleared. -/
def clearAcc (acc : ExtractAcc) : ExtractAcc :=
  { acc with extractData := clearData acc.extractData }

/-- The owner keys of an extraction result, in the order of the map. -/
def ExtractResult.keys (r : ExtractResult) : List String :=
  r.extractData.map fun e => e.1

/-- The transaction summaries (with the fee) of the records of an extraction
result. -/
def ExtractResult.summaries (r : ExtractResult) : List (Option OWTransaction) :=
  r.extractData.map fun e => e.2.Transaction

/-- The wallet manager reading the clock value `now`. -/
def WalletManager.atTime (wm : WalletManager) (now : Int) : WalletManager :=
  { wm with Now := now }

/-- A running scanner with one observer, which returns an error for every
record, and the oracle `ownsA`. -/
def scannerFailing : VASBlockScanner :=
  { Scanning := true, Observers := [⟨fun _ _ => true⟩], ScanAddressFunc := ownsA }

/-- A node whose block 100 holds `T9`, which it cannot return, and `T1`. -/
def nodeOneMissing : WalletManager :=
  fixedNode 200 [mkBlock 100 "H100" "P" ["T9", "T1"]] [txT1, txT0]

/-- A store with the cursor `(199, "H199")` and the given pending tasks. -/
def storeWithTasks (tasks : List UnscanRecord) : ScannerState :=
  { localBlockHead := (199, "H199"), localBlocks := [], unscanRecords := tasks,
    blockNotified := [], extractNotified := [] }

/-- A node that answers `getblockcount` with 50 and returns no block. -/
def nodeNoBlocks : WalletManager :=
  fixedNode 50 [] []

/-- A node that answers `getblockcount` with 50 and whose block 49 follows
`"G48"`. -/
def nodeTip : WalletManager :=
  fixedNode 50 [mkBlock 49 "G49" "G48" []] []

/-- A transaction whose input refers to the output index `2 ^ 63` of `T0`. -/
def txBadIndex : Transaction :=
  mkTx "T4" [mkVin "T0" (2 ^ 63) 0] []

/-- A node whose block 100 follows `"P"` and holds `T4`. -/
def nodeBadIndex : WalletManager :=
  fixedNode 200 [mkBlock 100 "H100" "P" ["T4"]] [txBadIndex, txT0]

/-- A running scanner with two observers, of which the first returns an error
for every record and the second accepts every record. -/
def scannerTwoObservers : VASBlockScanner :=
  { Scanning := true, Observers := [⟨fun _ _ => true⟩, ⟨fun _ _ => false⟩],
    ScanAddressFunc := ownsA }

/-- A record map with the two owner keys `"k1"` and `"k2"`. -/
def twoRecords : List (String × TxExtractData) :=
  [("k1", NewBlockExtractData), ("k2", ⟨[], [], none⟩)]

/-- The state in which a run of `ScanBlockTask` ends after its retry phase. -/
def Outcome.retriedState : Outcome → Option ScannerState
  | .retried st => some st
  | _ => none

/-- The `BlockHeight` and `BlockHash` carried by what has been delivered to the
observers: for each delivered record, those of its input records, of its
output records and of its transaction summary, in this order. -/
def deliveredBlocks (st : ScannerState) : List (Nat × String) :=
  st.extractNotified.flatMap fun c =>
    c.2.2.TxInputs.map (fun i => (i.BlockHeight, i.BlockHash)) ++
      (c.2.2.TxOutputs.map (fun o => (o.BlockHeight, o.BlockHash)) ++
        c.2.2.Transaction.toList.map (fun t => (t.BlockHeight, t.BlockHash)))

/-- The record stored under the owner key `key` of a record map (`m[key]`), the
empty record when the key is absent. -/
def recordOf (data : List (String × TxExtractData)) (key : String) : TxExtractData :=
  match data.find? (fun e => e.1 = key) with
  | some e => e.2
  | none => NewBlockExtractData

/-- The input record that the loop of `extractTxInput` builds for the input
`output` at position `i` (lines 609-621). -/
def newTxInput (wm : WalletManager) (trx : Transaction) (resultTxID : String) (i : Nat)
    (output : Vin) : TxInput :=
  { SourceTxID := output.TxID, SourceIndex := output.Vout, TxID := resultTxID,
    Address := output.Addr, Amount := output.Value, Coin := ⟨wm.Symbol, false⟩,
    Index := output.N, Sid := wm.GenTxInputSID output.TxID wm.Symbol "" i, CreateAt := wm.Now,
    BlockHeight := trx.BlockHeight, BlockHash := trx.BlockHash, TxType := 0 }

/-- The output record that the loop of `extractTxOutput` builds for the output
`output` (lines 686-702). -/
def newTxOutPut (wm : WalletManager) (trx : Transaction) (output : Vout) : TxOutPut :=
  { TxID := trx.TxID, Address := output.Addr, Amount := output.Value,
    Coin := ⟨wm.Symbol, false⟩, Index := output.N,
    Sid := wm.GenTxOutPutSID trx.TxID wm.Symbol "" output.N,
    ExtParam := [("scriptPubKey", output.ScriptPubKey)], CreateAt := wm.Now,
    BlockHeight := trx.BlockHeight, BlockHash := trx.BlockHash,
    Confirm := (trx.Confirmations : Int), TxType := 0 }

/-- The inputs, with their positions counted from `i`, whose address the
oracle owns under the key `key`, in the order of the transaction. -/
def ownedInputs (scan : BlockScanAddressFunc) (key : String) (i : Nat) (vins : List Vin) :
    List (Nat × Vin) :=
  (vins.enumFrom i).filter fun p => scan p.2.Addr = (key, true)

/-- The outputs whose script type is not `OP_RETURN` and whose address the
oracle owns under the key `key`, in the order of the transaction. -/
def ownedOutputs (scan : BlockScanAddressFunc) (key : String) (vouts : List Vout) :
    List Vout :=
  vouts.filter fun o => o.ScriptType ≠ "OP_RETURN" ∧ scan o.Addr = (key, true)

/-- The oracle that owns `"A"` under the key `"ownerA"` and `"B"` under the key
`"ownerB"`. -/
def ownsAB : BlockScanAddressFunc :=
  fun a => if a = "A" then ("ownerA", true) else if a = "B" then ("ownerB", true) else ("", false)

/-- The transaction `T5`: two inputs spending output 0 of `T0` (paying `"A"`),
and three outputs: one to `"B"`, one `OP_RETURN` output with the address `"A"`,
and one to `"A"`. -/
def txT5 : Transaction :=
  mkTx "T5" [mkVin "T0" 0 0, mkVin "T0" 0 1]
    [mkVout 0 "B" "9" "pubkeyhash", mkVout 1 "A" "0" "OP_RETURN", mkVout 2 "A" "1" "pubkeyhash"]

/-- A node that knows `T5` and `T0`. -/
def nodeT5 : WalletManager :=
  fixedNode 200 [mkBlock 100 "H100" "P" ["T5"]] [txT5, txT0]

/-- The number that a run of decimal digits denotes, most significant digit
first. -/
def digitsValue (cs : List Char) : Nat :=
  cs.foldl (fun a c => a * 10 + (c.toNat - 48)) 0

/-! ## The loop of `extractRuntime` (lines 426-459) -/

namespace Runtime

/-- The state of `extractRuntime`: the local buffer `values`, whether the
function has returned, and two histories kept for the statements: the results
received from `producer` and the results sent on `worker`, oldest first. -/
structure State where
  received : List ExtractResult
  values : List ExtractResult
  handed : List ExtractResult
  returned : Bool
deriving DecidableEq, Repr

/-- The state at the entry of `extractRuntime`: `values` is empty. -/
def init : State :=
  { received := [], values := [], handed := [], returned := false }

/-- The case of the `select` that a pass of the loop takes. -/
inductive Event where
  | produce (pa : ExtractResult)
  | quit
  | send
deriving DecidableEq, Repr

/-- One pass of the loop of `extractRuntime`; `none` when the case cannot be
taken: nothing runs after the `return`, and the case `activeWorker <-
activeValue` is never ready while `values` is empty, `activeWorker` being a nil
channel then.

* `produce pa` (lines 447-448): `pa` is received from `producer` and appended
  to `values`;
* `quit` (lines 449-452): the function returns;
* `send` (lines 438-441 and 453-455): `values[0]` is sent on `worker` and
  `values` becomes `values[1:]`. -/
def step : Event → State → Option State
  | .produce pa, s =>
    if s.returned then none
    else some { s with received := s.received ++ [pa], values := s.values ++ [pa] }
  | .quit, s =>
    if s.returned then none else some { s with returned := true }
  | .send, s =>
    if s.returned then none
    else
      match s.values with
      | [] => none
      | activeValue :: rest => some { s with values := rest, handed := s.handed ++ [activeValue] }

/-- The state after a sequence of passes; `none` when one of them cannot be
taken. -/
def run : List Event → State → Option State
  | [], s => some s
  | e :: rest, s =>
    match step e s with
    | none => none
    | some s1 => run rest s1

end Runtime

/-- The state `st'` has the cursor and the log of block notifications of
`st`. -/
def SameScan (st st' : ScannerState) : Prop :=
  st'.localBlockHead = st.localBlockHead ∧ st'.blockNotified = st.blockNotified

/-- A signing hash of a transaction input (`omniTransaction.TxHash`), as
`resetTransHashFunc` reads it: `Address` is the value that
`GetNormalTxAddress()` returns. -/
structure TxHash where
  Hash : String
  Address : String
deriving DecidableEq, Repr

/-- Go slice expression `s[low:high]` on a slice whose capacity is its
length; `none` is the panic "slice bounds out of range". -/
def sliceOf {α : Type} (s : List α) (low high : Nat) : Option (List α) :=
  if low ≤ high ∧ high ≤ s.length then some ((s.take high).drop low) else none

/-- The search loop of `resetTransHashFunc` (lines 1331-1338), entered at the
index `i` with the hashes `origins[i:]`: what it appends to `newHashs`, and the
value of `end` when it is left (`end` keeps its initial value 0 when no hash
has the address). -/
def resetSearch (addr : String) : Nat → List TxHash → List TxHash × Nat
  | _, [] => ([], 0)
  | i, h :: rest => if h.Address = addr then ([h], i) else resetSearch addr (i + 1) rest

/-- Go `resetTransHashFunc`; `none` is a panic. -/
def resetTransHashFunc (origins : List TxHash) (addr : String) (start : Nat) :
    Option (List TxHash) :=
  match sliceOf origins 0 start with
  | none => none
  | some copied =>
    let found := resetSearch addr start (origins.drop start)
    match sliceOf origins start found.2 with
    | none => none
    | some middle =>
      match sliceOf origins (found.2 + 1) origins.length with
      | none => none
      | some rest => some (copied ++ found.1 ++ middle ++ rest)

/-! ## Fee estimation (`manager.go`, lines 269-306) -/

/-- Go `decimal.New(value, exp)`. -/
def Decimal.New (value : Int) (exp : Int) : Decimal := ⟨value, exp⟩

/-- Go `big.Int.Cmp`: -1, 0 or 1. -/
def bigCmp (a b : Int) : Int :=
  if a < b then -1 else if a = b then 0 else 1

/-- Go `Decimal.Cmp`: the two values are compared at the smaller exponent. -/
def Decimal.Cmp (d d2 : Decimal) : Int :=
  if d.exp = d2.exp then bigCmp d.value d2.value
  else
    let baseExp := min d.exp d2.exp
    bigCmp (d.rescale baseExp).value (d2.rescale baseExp).value

/-- Go `Decimal.LessThan`. -/
def Decimal.LessThan (d d2 : Decimal) : Bool := decide (d.Cmp d2 = -1)

/-- Go `Decimal.GreaterThan`. -/
def Decimal.GreaterThan (d d2 : Decimal) : Bool := decide (d.Cmp d2 = 1)

/-- Go `Decimal.GreaterThanOrEqual`. -/
def Decimal.GreaterThanOrEqual (d d2 : Decimal) : Bool :=
  decide (d.Cmp d2 = 1 ∨ d.Cmp d2 = 0)

/-- Go `Decimal.Abs`. -/
def Decimal.Abs (d : Decimal) : Decimal := ⟨(d.value.natAbs : Int), d.exp⟩

/-- Go `Decimal.Mul`: the exact product; `none` is the panic on an exponent
that overflows an `int32`. -/
def Decimal.Mul (d d2 : Decimal) : Option Decimal :=
  let expInt64 := d.exp + d2.exp
  if expInt64 > 2 ^ 31 - 1 ∨ expInt64 < -(2 ^ 31) then none
  else some ⟨d.value * d2.value, expInt64⟩

/-- Go `Decimal.QuoRem`: the quotient truncated to a multiple of
`10 ^ (-precision)` and the remainder; `none` is the panic on a zero divisor
or on an exponent that overflows an `int32`. -/
def Decimal.QuoRem (d d2 : Decimal) (precision : Int) : Option (Decimal × Decimal) :=
  if d2.value = 0 then none
  else
    let scale := -precision
    let e := d.exp - d2.exp - scale
    if e > 2 ^ 31 - 1 ∨ e < -(2 ^ 31) then none
    else
      let aa := if e < 0 then d.value else d.value * 10 ^ e.toNat
      let bb := if e < 0 then d2.value * 10 ^ (-e).toNat else d2.value
      let scalerest := if e < 0 then d.exp else scale + d2.exp
      some (⟨Int.tdiv aa bb, scale⟩, ⟨Int.tmod aa bb, scalerest⟩)

/-- Go `Decimal.DivRound`: the quotient rounded half away from zero to a
multiple of `10 ^ (-precision)`. -/
def Decimal.DivRound (d d2 : Decimal) (precision : Int) : Option Decimal :=
  match d.QuoRem d2 precision with
  | none => none
  | some (q, r) =>
    let r2 : Decimal := ⟨(r.value.natAbs : Int) * 2, r.exp + precision⟩
    if r2.Cmp d2.Abs < 0 then some q
    else if Int.sign d.value * Int.sign d2.value < 0 then
      some (q.Sub (Decimal.New 1 (-precision)))
    else some (q.Add (Decimal.New 1 (-precision)))

/-- Go variable `decimal.DivisionPrecision`, at its initial value. -/
def DivisionPrecision : Int := 16

/-- Go `Decimal.Div`. -/
def Decimal.Div (d d2 : Decimal) : Option Decimal :=
  d.DivRound d2 DivisionPrecision

/-- A value of the Go type `float64`: a NaN, an infinity, or the finite number
`(-1) ^ neg * m * 2 ^ e`. -/
inductive Float64 where
  | nan
  | inf (neg : Bool)
  | fin (neg : Bool) (m : Nat) (e : Int)
deriving DecidableEq, Repr

/-- The number of binary digits of `n` (`fuel` bounds their number). -/
def bitLength : Nat → Nat → Nat
  | 0, _ => 0
  | fuel + 1, n => if n = 0 then 0 else bitLength fuel (n / 2) + 1

/-- The integer nearest to `a / d`, the even one of the two when `a / d` lies
half way between them. -/
def roundHalfEven (a d : Nat) : Nat :=
  let q := a / d
  let r := a % d
  if 2 * r < d then q else if d < 2 * r then q + 1 else if q % 2 = 0 then q else q + 1

/-- The `float64` nearest to the positive number `num / den` (round to
nearest, ties to even, 53 binary digits), as a pair `(m, e)` standing for
`m * 2 ^ e`. The numbers rounded here are integers of 64 binary digits and
their quotients, which are in the range of the normal `float64` values. -/
def Float64.nearest (num den : Nat) : Nat × Int :=
  let k := 53 + bitLength den den
  let q0 := num * 2 ^ k / den
  let s := bitLength q0 q0 - 53
  (roundHalfEven (num * 2 ^ k) (den * 2 ^ s), (s : Int) - (k : Int))

/-- Go conversion `float64(x)` of an `int64` value; the integers below
`2 ^ 53` in absolute value are `float64` values. -/
def Float64.ofInt (x : Int) : Float64 :=
  if x.natAbs < 2 ^ 53 then .fin (decide (x < 0)) x.natAbs 0
  else .fin (decide (x < 0)) (Float64.nearest x.natAbs 1).1 (Float64.nearest x.natAbs 1).2

/-- Go `x / y` on `float64` values. -/
def Float64.div : Float64 → Float64 → Float64
  | .fin n1 m1 e1, .fin n2 m2 e2 =>
    if m2 = 0 then (if m1 = 0 then .nan else .inf (xor n1 n2))
    else if m1 = 0 then .fin (xor n1 n2) 0 0
    else .fin (xor n1 n2) (Float64.nearest m1 m2).1 ((Float64.nearest m1 m2).2 + e1 - e2)
  | .fin n1 _ _, .inf n2 => .fin (xor n1 n2) 0 0
  | .inf n1, .fin n2 _ _ => .inf (xor n1 n2)
  | _, _ => .nan

/-- Go `math.Ceil`. -/
def Float64.Ceil : Float64 → Float64
  | .fin neg m e =>
    if e ≥ 0 then .fin neg m e
    else if neg then .fin true (m / 2 ^ (-e).toNat) 0
    else .fin false ((m + 2 ^ (-e).toNat - 1) / 2 ^ (-e).toNat) 0
  | x => x

/-- Go conversion `int64(x)` of a `float64` value: the value truncated toward
zero; a value that is not in the range of `int64` gives `-2 ^ 63`, as on
amd64. -/
def Float64.toInt64 : Float64 → Int
  | .fin neg m e =>
    let mag : Nat := if e ≥ 0 then m * 2 ^ e.toNat else m / 2 ^ (-e).toNat
    let v : Int := if neg then -(mag : Int) else (mag : Int)
    if -(2 ^ 63) ≤ v ∧ v < 2 ^ 63 then v else -(2 ^ 63)
  | _ => -(2 ^ 63)

/-- The value of an `int64` expression whose exact value is `x`: the
arithmetic wraps modulo `2 ^ 64`. -/
def wrapInt64 (x : Int) : Int :=
  (x + 2 ^ 63) % 2 ^ 64 - 2 ^ 63

/-- The fields of `WalletConfig` that the fee estimation reads; `Decimals` is
what `wm.Decimal()` returns. -/
structure WalletConfig where
  MaxTxInputs : Int
  MinFees : Decimal
  Decimals : Int
deriving DecidableEq, Repr

/-- Go `EstimateFeeRate`: the configured minimum fee. -/
def EstimateFeeRate (cfg : WalletConfig) : Decimal :=
  cfg.MinFees

/-- Go `EstimateFee`, for `int64` values `inputs` and `outputs`; `none` is a
panic of the decimal library. The sum `inputs*180+outputs*34+piece*10` is
`int64` arithmetic, and wrapping the exact sum gives the value of wrapping at
each operation. -/
def EstimateFee (cfg : WalletConfig) (inputs outputs : Int) (feeRate : Decimal) :
    Option Decimal :=
  let piece : Int :=
    if inputs > cfg.MaxTxInputs then
      ((Float64.ofInt inputs).div (Float64.ofInt cfg.MaxTxInputs)).Ceil.toInt64
    else 1
  let trx_bytes := Decimal.New (wrapInt64 (inputs * 180 + outputs * 34 + piece * 10)) 0
  match trx_bytes.Div (Decimal.New 1000 0) with
  | none => none
  | some quotient =>
    match quotient.Mul feeRate with
    | none => none
    | some product =>
      let trx_fee := product.Round cfg.Decimals
      if trx_fee.LessThan cfg.MinFees then some cfg.MinFees else some trx_fee

/-- The configuration that `NewConfig` builds: at most 50 inputs, no minimum
fee, 8 decimal places. -/
def defaultConfig : WalletConfig :=
  { MaxTxInputs := 50, MinFees := Decimal.Zero, Decimals := 8 }

/-- Go `LoadAssetsConfig` (`vas.go`), its effect on the fields above: `MinFees`
becomes the text `minFees` of the configuration file, the error of
`decimal.NewFromString` being dropped, rounded to `wm.Decimal()` places. -/
def LoadAssetsConfig (cfg : WalletConfig) (minFees : String) : WalletConfig :=
  { cfg with MinFees := (Decimal.parseOrZero minFees).Round cfg.Decimals }

/-- The configurations that the program builds: the one of `NewConfig`, and
the one that `LoadAssetsConfig` makes of it from the text `minFees` of a
configuration file. -/
def configOf : Option String → WalletConfig
  | none => defaultConfig
  | some minFees => LoadAssetsConfig defaultConfig minFees

/-! ## Building a transaction (`CreateBTCRawTransaction`, `tx_decode.go`, lines 138-298) -/

/-- An unspent output of the wallet (`Unspent`), with the fields that the
selection reads. -/
structure Unspent where
  TxID : String
  Vout : Nat
  Address : String
  Amount : String
  Spendable : Bool
deriving DecidableEq, Repr

/-- An element of the array that the node returns for `listunspent`: the
fields of which `NewUnspent` makes the fields of `Unspent` above (`gjson`
gives the text of `amount` as it stands in the answer), and the field
`spendable`, which `NewUnspent` does not read. -/
structure UnspentJSON where
  txid : String
  vout : Nat
  address : String
  amount : String
  spendable : Bool
deriving DecidableEq, Repr

/-- Go `NewUnspent` (`models.go`, lines 100-115): `Spendable` is set to
`true`, the line that reads it from the answer being commented out. -/
def NewUnspent (json : UnspentJSON) : Unspent :=
  { TxID := json.txid, Vout := json.vout, Address := json.address, Amount := json.amount,
    Spendable := true }

/-- Go `getListUnspentByCore` (`manager.go`): the call `listunspent` of the
node for the addresses (`none` is an error of the call), and one `NewUnspent`
for each element of the answer. -/
def getListUnspentByCore (listunspent : Nat → List String → Option (List UnspentJSON))
    (min : Nat) (addresses : List String) : Option (List Unspent) :=
  match listunspent min addresses with
  | none => none
  | some array => some (array.map NewUnspent)

/-- The loop `for i := 0; i <= step; i++` of `ListUnspent` from the index `i`
on, with `n` passes left: the addresses are taken in pages of `limit = 100`,
an empty page is skipped, and an error of a page is the error of the whole. -/
def listUnspentPages (listunspent : Nat → List String → Option (List UnspentJSON))
    (min : Nat) (addresses : List String) : Nat → Nat → List Unspent → Option (List Unspent)
  | 0, _, utxo => some utxo
  | n + 1, i, utxo =>
    let limit := 100
    let max := addresses.length
    let begin := i * limit
    let stop := if (i + 1) * limit > max then max else (i + 1) * limit
    let searchAddrs := (addresses.drop begin).take (stop - begin)
    if searchAddrs.length = 0 then listUnspentPages listunspent min addresses n (i + 1) utxo
    else
      match getListUnspentByCore listunspent min searchAddrs with
      | none => none
      | some pice => listUnspentPages listunspent min addresses n (i + 1) (utxo ++ pice)

/-- Go `ListUnspent` (`manager.go`, lines 107-141): the passes `i = 0`, ...,
`step` with `step = len(addresses) / 100`. -/
def ListUnspent (listunspent : Nat → List String → Option (List UnspentJSON))
    (min : Nat) (addresses : List String) : Option (List Unspent) :=
  listUnspentPages listunspent min addresses (addresses.length / 100 + 1) 0 []

/-- The method `Less` of `UnspentSort` with the comparator of lines 211-219:
the comparator returns 1 when the amount of `a` is greater than the amount of
`b` and -1 otherwise, and `Less` is `Comparator(a, b) < 0`. -/
def unspentLess (a b : Unspent) : Bool :=
  !((Decimal.parseOrZero a.Amount).GreaterThan (Decimal.parseOrZero b.Amount))

/-- Go `sort.Sort`, which is library code: it is given `Less` and reorders the
slice through `Swap` alone, so that what it leaves is a permutation of the
slice. The order it gives to outputs of equal amounts, for which `Less` holds
both ways, is the library's own. -/
structure SortRoutine where
  sort : (Unspent → Unspent → Bool) → List Unspent → List Unspent
  perm : ∀ less l, (sort less l).Perm l

/-- A sorting routine: sorting by insertion. -/
def sortByInsertion : SortRoutine :=
  { sort := fun less l => l.insertionSort fun a b => less a b = true,
    perm := fun _ l => List.perm_insertionSort _ l }

/-- The fields of `openwallet.RawTransaction` that `CreateBTCRawTransaction`
reads and writes before it calls `createVASRawTransaction`; the map `To` is an
association list in the order in which `range` visits it. -/
structure RawTransaction where
  To : List (String × String)
  FeeRate : String
  Fees : String
deriving DecidableEq, Repr

/-- Go `appendOutput`: the amount is added to the entry of the address when
there is one, and stored under the address otherwise. -/
def appendOutput (output : List (String × Decimal)) (address : String) (amount : Decimal) :
    List (String × Decimal) :=
  match output with
  | [] => [(address, amount)]
  | (a, origin) :: rest =>
    if a = address then (a, origin.Add amount) :: rest
    else (a, origin) :: appendOutput rest address amount

/-- The inner loop of the selection (lines 229-239), from the current
`balance` and `usedUTXO`: the spendable outputs are taken in order until the
balance reaches `computeTotalSend`. -/
def pickUnspents (computeTotalSend : Decimal) :
    List Unspent → Decimal → List Unspent → List Unspent × Decimal
  | [], balance, usedUTXO => (usedUTXO, balance)
  | u :: rest, balance, usedUTXO =>
    if u.Spendable then
      if (balance.Add (Decimal.parseOrZero u.Amount)).GreaterThanOrEqual computeTotalSend then
        (usedUTXO ++ [u], balance.Add (Decimal.parseOrZero u.Amount))
      else
        pickUnspents computeTotalSend rest (balance.Add (Decimal.parseOrZero u.Amount))
          (usedUTXO ++ [u])
    else pickUnspents computeTotalSend rest balance usedUTXO

/-- How the selection of `CreateBTCRawTransaction` (lines 153-260) ends: with
a panic of the decimal library, without an end within the given number of
passes of the loop, with an error before the loop, with the error of the loop
that the balance is not enough, or with the selected outputs, their balance
and the fee. -/
inductive Selection where
  | panic
  | outOfFuel
  | error
  | notEnough
  | selected (usedUTXO : List Unspent) (balance actualFees : Decimal)
deriving DecidableEq, Repr

/-- The selection loop (lines 223-260) for at most `fuel` passes, entered with
the current value of `computeTotalSend`; `destinations` is
`len(destinations)`. -/
def selectLoop (cfg : WalletConfig) (unspents : List Unspent) (totalSend feesRate : Decimal)
    (destinations : Nat) : Nat → Decimal → Selection
  | 0, _ => .outOfFuel
  | fuel + 1, computeTotalSend =>
    let picked := pickUnspents computeTotalSend unspents (Decimal.New 0 0) []
    if picked.2.LessThan computeTotalSend then .notEnough
    else
      match EstimateFee cfg (picked.1.length : Int) ((destinations : Int) + 1) feesRate with
      | none => .panic
      | some fees =>
        if (totalSend.Add fees).GreaterThan picked.2 then
          selectLoop cfg unspents totalSend feesRate destinations fuel (totalSend.Add fees)
        else .selected picked.1 picked.2 fees

/-- How `CreateBTCRawTransaction` ends before or at the call of
`createVASRawTransaction`: with a panic, without an end of the selection
within the given number of passes, with an error, or with the call, to which
it hands the transaction, the selected outputs and the output amounts. -/
inductive CreateOutcome where
  | panic
  | outOfFuel
  | error
  | handed (rawTx : RawTransaction) (usedUTXO : List Unspent)
      (outputAddrs : List (String × Decimal))
deriving DecidableEq, Repr

/-- The total `totalSend` of the amounts of `rawTx.To` (lines 198-208). -/
def totalOfTo (toMap : List (String × String)) : Decimal :=
  toMap.foldl (fun totalSend e => totalSend.Add (Decimal.parseOrZero e.2)) (Decimal.New 0 0)

/-- The output amounts assembled from `rawTx.To` (lines 286-290). -/
def outputsOfTo (toMap : List (String × String)) : List (String × Decimal) :=
  toMap.foldl (fun outputAddrs e => appendOutput outputAddrs e.1 (Decimal.parseOrZero e.2)) []

/-- The fee rate of lines 222-230: `EstimateFeeRate` when `rawTx.FeeRate` is
empty, and the number `rawTx.FeeRate` otherwise. -/
def feesRateOf (cfg : WalletConfig) (rawTx : RawTransaction) : Decimal :=
  if rawTx.FeeRate.length = 0 then EstimateFeeRate cfg
  else Decimal.parseOrZero rawTx.FeeRate

/-- Go `CreateBTCRawTransaction` up to the end of the selection loop (lines
153-260), for at most `fuel` passes of the loop. `addressList` is the result
of `wrapper.GetAddressList` (the addresses of the account, `none` for an
error), `listunspent` is the call `listunspent` of the node, and `sorter` is
`sort.Sort`. -/
def selectUnspents (cfg : WalletConfig) (sorter : SortRoutine)
    (addressList : Option (List String))
    (listunspent : Nat → List String → Option (List UnspentJSON))
    (rawTx : RawTransaction) (fuel : Nat) : Selection :=
  match addressList with
  | none => .error
  | some address =>
    if address.length = 0 then .error
    else
      match ListUnspent listunspent 0 address with
      | none => .error
      | some unspents0 =>
        if unspents0.length = 0 then .error
        else if rawTx.To.length = 0 then .error
        else
          let totalSend := totalOfTo rawTx.To
          let destinations := rawTx.To.map fun e => e.1
          let unspents := sorter.sort unspentLess unspents0
          selectLoop cfg unspents totalSend (feesRateOf cfg rawTx) destinations.length fuel
            totalSend

/-- Go `CreateBTCRawTransaction` up to the call of `createVASRawTransaction`
(lines 138-295): the selection, the test of the number of selected outputs
against `MaxTxInputs`, the change, the texts of the fee rate and of the fee,
and the output amounts. `usedUTXO[0]` panics when nothing is selected. -/
def CreateBTCRawTransaction (cfg : WalletConfig) (sorter : SortRoutine)
    (addressList : Option (List String))
    (listunspent : Nat → List String → Option (List UnspentJSON))
    (rawTx : RawTransaction) (fuel : Nat) : CreateOutcome :=
  match selectUnspents cfg sorter addressList listunspent rawTx fuel with
  | .panic => .panic
  | .outOfFuel => .outOfFuel
  | .error => .error
  | .notEnough => .error
  | .selected usedUTXO balance actualFees =>
    if (usedUTXO.length : Int) > cfg.MaxTxInputs then .error
    else
      match usedUTXO with
      | [] => .panic
      | first :: _ =>
        let changeAddress := first.Address
        let changeAmount := (balance.Sub (totalOfTo rawTx.To)).Sub actualFees
        let rawTx1 :=
          { rawTx with
            FeeRate := (feesRateOf cfg rawTx).StringFixed cfg.Decimals
            Fees := actualFees.StringFixed cfg.Decimals }
        let outputAddrs := outputsOfTo rawTx.To
        let outputAddrs1 :=
          if changeAmount.GreaterThan (Decimal.New 0 0) then
            appendOutput outputAddrs changeAddress changeAmount
          else outputAddrs
        .handed rawTx1 usedUTXO outputAddrs1

/-- The answer of a node to `listunspent`: two outputs of the address `"A"`,
of 0.6 and of 0.5, the second of which the node reports as not spendable. -/
def listunspentTwo : Nat → List String → Option (List UnspentJSON) :=
  fun _ _ => some [⟨"U2", 0, "A", "0.6", true⟩, ⟨"U1", 1, "A", "0.5", false⟩]

/-- The sum of the amounts of a list of unspent outputs, each amount read as
the selection reads it. -/
def unspentTotal (us : List Unspent) : ℚ :=
  (us.map fun u => (Decimal.parseOrZero u.Amount).toRat).sum

/-- The sum of the output amounts handed to `createVASRawTransaction`. -/
def outputTotal (outputAddrs : List (String × Decimal)) : ℚ :=
  (outputAddrs.map fun e => e.2.toRat).sum

/-- The transaction `T1` as the node returns it once it is in block 100: the
answer carries the hash of the block, and no height. -/
def txT1Confirmed : Transaction :=
  { txT1 with BlockHash := "H100", Confirmations := 101 }

/-- The node of the scenario with `T1` confirmed in block 100. -/
def nodeConfirmed : WalletManager :=
  fixedNode 200 [mkBlock 100 "H100" "P" ["T1"]] [txT1Confirmed, txT0]

/-- The characters of the list are decimal digits. -/
def AllDigits (cs : List Char) : Prop :=
  ∀ c ∈ cs, ∃ k, k < 10 ∧ c = Char.ofNat (48 + k)

/-! # Theorems -/

/-! ## Absence of panics -/

theorem toInt_of_lt {v : Nat} (h : v < 2 ^ 63) : toInt v = (v : Int) := by
  have h1 : v % 2 ^ 64 = v := Nat.mod_eq_of_lt (by omega)
  unfold toInt
  rw [h1, if_pos h]

theorem resolveInputs_isSome (wm : WalletManager) (vins : List Vin)
    (h : ∀ v ∈ vins, v.Vout < 2 ^ 63) (s : Bool) :
    ∃ r, resolveInputs wm vins s = some r := by
  induction vins generalizing s with
  | nil => exact ⟨_, rfl⟩
  | cons input rest ih =>
    have hin : input.Vout < 2 ^ 63 := h input (List.mem_cons_self _ _)
    have hrest : ∀ v ∈ rest, v.Vout < 2 ^ 63 := fun v hv => h v (List.mem_cons_of_mem _ hv)
    unfold resolveInputs
    split
    · exact ⟨_, rfl⟩
    · split
      · cases hg : wm.GetTransaction input.TxID with
        | none => exact ⟨_, rfl⟩
        | some preTx =>
          simp only []
          split
          · rename_i hlen
            rw [toInt_of_lt hin] at hlen
            have hlt : input.Vout < preTx.Vouts.length := by exact_mod_cast hlen
            obtain ⟨o, ho⟩ : ∃ o, preTx.Vouts[input.Vout]? = some o :=
              ⟨_, List.getElem?_eq_getElem hlt⟩
            obtain ⟨r, hr⟩ := ih hrest true
            simp [ho, hr]
          · obtain ⟨r, hr⟩ := ih hrest s
            simp [hr]
      · obtain ⟨r, hr⟩ := ih hrest s
        simp [hr]

theorem extractTransaction_isSome (wm : WalletManager) (trx : Transaction)
    (result : ExtractResult) (scan : BlockScanAddressFunc)
    (h : ∀ v ∈ trx.Vins, v.Vout < 2 ^ 63) :
    ∃ r, extractTransaction wm (some trx) result scan = some r := by
  obtain ⟨⟨vins, s⟩, hr⟩ := resolveInputs_isSome wm trx.Vins h true
  simp only [extractTransaction, hr]
  exact ⟨_, rfl⟩

theorem ExtractTransaction_isSome (wm : WalletManager) (hwf : IndicesInRange wm)
    (blockHeight : Nat) (blockHash txid : String) (scan : BlockScanAddressFunc) :
    ∃ r, ExtractTransaction wm blockHeight blockHash txid scan = some r := by
  unfold ExtractTransaction
  cases hg : wm.GetTransaction txid with
  | none => exact ⟨_, rfl⟩
  | some trx =>
    simp only []
    apply extractTransaction_isSome
    intro v hv
    apply hwf txid trx hg v
    split at hv <;> exact hv

theorem extractAll_isSome (wm : WalletManager) (hwf : IndicesInRange wm)
    (bs : VASBlockScanner) (blockHeight : Nat) (blockHash : String) (txs : List String) :
    ∃ rs, extractAll wm bs blockHeight blockHash txs = some rs := by
  induction txs with
  | nil => exact ⟨_, rfl⟩
  | cons txid rest ih =>
    obtain ⟨r, hr⟩ := ExtractTransaction_isSome wm hwf blockHeight blockHash txid
      bs.ScanAddressFunc
    obtain ⟨rs, hrs⟩ := ih
    exact ⟨r :: rs, by simp [extractAll, hr, hrs]⟩

theorem scanIteration_advance (wm : WalletManager) (bs : VASBlockScanner) (st : ScannerState)
    (H : Nat) (currentHash : String) (maxBlockHeight : Nat) (block : Block)
    (r : ScannerState × Bool)
    (hscan : bs.Scanning = true) (hmax : wm.GetBlockHeight = some maxBlockHeight)
    (hne : H ≠ (maxBlockHeight + 2 ^ 64 - 1) % 2 ^ 64)
    (hblk : wm.GetBlockByHeight ((H + 1) % 2 ^ 32) = some block)
    (hprev : block.Previousblockhash = currentHash)
    (hbatch : BatchExtractTransaction wm bs ((H + 1) % 2 ^ 32) block.Hash block.tx st = some r) :
    scanIteration wm bs H currentHash st =
      some (.next ((H + 1) % 2 ^ 32) block.Hash
        (newBlockNotify
          (SaveLocalBlock (SaveLocalBlockHead r.1 ((H + 1) % 2 ^ 32) block.Hash) block) block)) := by
  unfold scanIteration
  rw [if_neg (by simp [hscan])]
  simp only [hmax]
  rw [if_neg hne]
  simp only [hblk]
  rw [if_neg (not_not.mpr hprev.symm)]
  simp only [hbatch]

theorem scanIteration_fork (wm : WalletManager) (bs : VASBlockScanner) (st : ScannerState)
    (H : Nat) (currentHash : String) (maxBlockHeight : Nat) (block : Block)
    (hscan : bs.Scanning = true) (hmax : wm.GetBlockHeight = some maxBlockHeight)
    (hne : H ≠ (maxBlockHeight + 2 ^ 64 - 1) % 2 ^ 64)
    (hblk : wm.GetBlockByHeight ((H + 1) % 2 ^ 32) = some block)
    (hfork : currentHash ≠ block.Previousblockhash) :
    scanIteration wm bs H currentHash st =
      some (forkBranch wm ((H + 1) % 2 ^ 32) currentHash st) := by
  unfold scanIteration
  rw [if_neg (by simp [hscan])]
  simp only [hmax]
  rw [if_neg hne]
  simp only [hblk]
  rw [if_pos hfork]

/-- The height the fork branch rewinds to, for a local height `H` of at least
one: one block below `H`, but not below 1. -/
theorem rewind_height (H : Nat) (h1 : 1 ≤ H) (h2 : H < 2 ^ 32) :
    (if ((H + 1) % 2 ^ 32 + 2 ^ 32 - 2) % 2 ^ 32 ≤ 0 then 1
      else ((H + 1) % 2 ^ 32 + 2 ^ 32 - 2) % 2 ^ 32) = max 1 (H - 1) := by
  have h3 : ((H + 1) % 2 ^ 32 + 2 ^ 32 - 2) % 2 ^ 32 = H - 1 := by omega
  rw [h3]
  split <;> omega

theorem forked_height (H : Nat) (h2 : H < 2 ^ 32) :
    ((H + 1) % 2 ^ 32 + 2 ^ 32 - 1) % 2 ^ 32 = H := by omega


/-! ## Scan loop: the fork branch -/

theorem finishFork_head (st : ScannerState) (forkBlock : Option Block) (h : Nat)
    (hash : String) :
    ∃ st', finishFork st forkBlock h hash = .next h hash st' ∧
      st'.localBlockHead = (h, hash) ∧
      st'.blockNotified = st.blockNotified ++
        (match forkBlock with
          | some fb => [{ ParseHeader fb with Fork := true }]
          | none => []) := by
  cases forkBlock with
  | none => exact ⟨_, rfl, rfl, by simp [SaveLocalBlockHead]⟩
  | some fb => exact ⟨_, rfl, rfl, rfl⟩

/-- The fork branch at a local height `H` of at least one: the forked block
is looked up in the cache at `H`, the cursor is rewound to `max 1 (H - 1)`. -/
theorem forkBranch_eq (wm : WalletManager) (st : ScannerState) (H : Nat) (currentHash : String)
    (h1 : 1 ≤ H) (h2 : H < 2 ^ 32) :
    forkBranch wm ((H + 1) % 2 ^ 32) currentHash st =
      match GetLocalBlock st (max 1 (H - 1)) with
      | none =>
        match wm.GetBlockByHeight (max 1 (H - 1)) with
        | none => .brk (max 1 (H - 1)) currentHash (DeleteUnscanRecord st H)
        | some curBlock =>
          finishFork (DeleteUnscanRecord st H) (GetLocalBlock st H) (max 1 (H - 1)) curBlock.Hash
      | some localBlock =>
        finishFork (DeleteUnscanRecord st H) (GetLocalBlock st H) (max 1 (H - 1))
          localBlock.Hash := by
  unfold forkBranch
  simp only [rewind_height H h1 h2, forked_height H h2]
  rfl

theorem forkBranch_outcome (wm : WalletManager) (st : ScannerState) (c : Nat)
    (currentHash : String) (h' : Nat) (hash' : String) (st' : ScannerState)
    (hstep : forkBranch wm c currentHash st = .next h' hash' st') :
    st'.localBlockHead = (h', hash') ∧
      st'.blockNotified = st.blockNotified ++
        (match GetLocalBlock st ((c + 2 ^ 32 - 1) % 2 ^ 32) with
          | some fb => [{ ParseHeader fb with Fork := true }]
          | none => []) := by
  unfold forkBranch at hstep
  simp only [] at hstep
  split at hstep
  · split at hstep
    · exact absurd hstep (by simp)
    · obtain ⟨st2, h2, h3, h4⟩ := finishFork_head
        (DeleteUnscanRecord st ((c + 2 ^ 32 - 1) % 2 ^ 32))
        (GetLocalBlock st ((c + 2 ^ 32 - 1) % 2 ^ 32))
        (if (c + 2 ^ 32 - 2) % 2 ^ 32 ≤ 0 then 1 else (c + 2 ^ 32 - 2) % 2 ^ 32) _
      rw [h2] at hstep
      injection hstep with e1 e2 e3
      subst e1 e2 e3
      exact ⟨h3, h4⟩
  · obtain ⟨st2, h2, h3, h4⟩ := finishFork_head
      (DeleteUnscanRecord st ((c + 2 ^ 32 - 1) % 2 ^ 32))
      (GetLocalBlock st ((c + 2 ^ 32 - 1) % 2 ^ 32))
      (if (c + 2 ^ 32 - 2) % 2 ^ 32 ≤ 0 then 1 else (c + 2 ^ 32 - 2) % 2 ^ 32) _
    rw [h2] at hstep
    injection hstep with e1 e2 e3
    subst e1 e2 e3
    exact ⟨h3, h4⟩

theorem forkBranch_height (wm : WalletManager) (st : ScannerState) (H : Nat)
    (currentHash : String) (h1 : 1 ≤ H) (h2 : H < 2 ^ 32) (h' : Nat) (hash' : String)
    (st' : ScannerState)
    (hstep : forkBranch wm ((H + 1) % 2 ^ 32) currentHash st = .next h' hash' st') :
    h' = max 1 (H - 1) := by
  rw [forkBranch_eq wm st H currentHash h1 h2] at hstep
  split at hstep
  · split at hstep
    · exact absurd hstep (by simp)
    · obtain ⟨st2, e, -, -⟩ := finishFork_head (DeleteUnscanRecord st H) (GetLocalBlock st H)
        (max 1 (H - 1)) _
      rw [e] at hstep
      injection hstep with e1 e2 e3
      exact e1.symm
  · obtain ⟨st2, e, -, -⟩ := finishFork_head (DeleteUnscanRecord st H) (GetLocalBlock st H)
      (max 1 (H - 1)) _
    rw [e] at hstep
    injection hstep with e1 e2 e3
    exact e1.symm

/-! ## Claims on the scan loop -/

/-- C2, refuted as stated: at local height 1 a fork is detected (block 2 of
the node follows `"G1"`, the cursor hash is `"L1"`) and the rewound cursor
height that is persisted is 1, which is not strictly less than 1. -/
theorem fork_rewind_not_below_at_one :
    ∃ st', scanIteration nodeLow plainScanner 1 "L1" (storeOf 1 "L1" []) =
        some (.next 1 "G1" st') ∧
      st'.localBlockHead = (1, "G1") ∧ ¬ st'.localBlockHead.1 < 1 :=
  ⟨SaveLocalBlockHead (DeleteUnscanRecord (storeOf 1 "L1" []) 1) 1 "G1", by decide, rfl,
    by decide⟩

/-- C2, amended: when a pass of `ScanBlockTask` detects a fork at a local
height `H` with `1 ≤ H < 2 ^ 32` and persists a rewound cursor, the persisted
height is `H - 1`, strictly less than `H`, when `2 ≤ H`, and it is exactly 1
(the clamp) when `H = 1`, where the computed height is 0. -/
theorem fork_rewind_height_lt (wm : WalletManager) (bs : VASBlockScanner)
    (st : ScannerState) (H : Nat) (currentHash : String) (maxBlockHeight : Nat) (block : Block)
    (h' : Nat) (hash' : String) (st' : ScannerState)
    (hscan : bs.Scanning = true) (hmax : wm.GetBlockHeight = some maxBlockHeight)
    (hne : H ≠ (maxBlockHeight + 2 ^ 64 - 1) % 2 ^ 64)
    (h1 : 1 ≤ H) (h2 : H < 2 ^ 32)
    (hblk : wm.GetBlockByHeight ((H + 1) % 2 ^ 32) = some block)
    (hfork : currentHash ≠ block.Previousblockhash)
    (hstep : scanIteration wm bs H currentHash st = some (.next h' hash' st')) :
    st'.localBlockHead.1 = h' ∧ (2 ≤ H → h' = H - 1 ∧ h' < H) ∧ (H = 1 → h' = 1) := by
  rw [scanIteration_fork wm bs st H currentHash maxBlockHeight block hscan hmax hne hblk hfork]
    at hstep
  have hstep' := Option.some.inj hstep
  have hh := forkBranch_height wm st H currentHash h1 h2 h' hash' st' hstep'
  have hc := (forkBranch_outcome wm st _ currentHash h' hash' st' hstep').1
  refine ⟨by rw [hc], ?_, ?_⟩
  · intro h; omega
  · intro h; omega

/-- At local height 0 the `uint32` subtraction `currentHeight - 2` wraps: the
test `currentHeight <= 0` does not hold and the rewound height is
`2 ^ 32 - 1`. -/
theorem fork_rewind_wraps_at_zero :
    ∃ st', scanIteration nodeWrap plainScanner 0 "L0" (storeOf 0 "L0" []) =
        some (.next 4294967295 "GX" st') ∧
      st'.localBlockHead = (4294967295, "GX") :=
  ⟨SaveLocalBlockHead (DeleteUnscanRecord (storeOf 0 "L0" []) 0) 4294967295 "GX", by decide,
    rfl⟩

/-- Witness of the amended C2: a fork at local height 10 rewinds to 9. -/
theorem fork_rewind_height_lt_witness :
    scanIteration nodeReorg plainScanner 10 "L10" (storeOf 10 "L10" [staleBlock10]) =
        some (.next 9 "G9" (forkBlockNotify
          (SaveLocalBlockHead (DeleteUnscanRecord (storeOf 10 "L10" [staleBlock10]) 10) 9 "G9")
          staleBlock10)) ∧
      (forkBlockNotify
          (SaveLocalBlockHead (DeleteUnscanRecord (storeOf 10 "L10" [staleBlock10]) 10) 9 "G9")
          staleBlock10).localBlockHead.1 = 9 ∧
      (2 ≤ 10 → 9 = 10 - 1 ∧ 9 < 10) ∧ (10 = 1 → 9 = 1) :=
  ⟨by decide, fork_rewind_height_lt nodeReorg plainScanner (storeOf 10 "L10" [staleBlock10]) 10
    "L10" 50 (mkBlock 11 "G11" "G10" []) 9 "G9" _ rfl rfl (by decide) (by decide) (by decide)
    (by decide) (by decide) (by decide)⟩

/-- C3, refuted as stated: a fork detected at local height 10 persists the
rewound cursor `(9, "G9")`; its height is not `max 1 (10 - 2) = 8`. -/
theorem fork_rewind_not_two_back :
    ∃ st', scanIteration nodeReorg plainScanner 10 "L10" (storeOf 10 "L10" []) =
        some (.next 9 "G9" st') ∧
      st'.localBlockHead = (9, "G9") ∧ st'.localBlockHead.1 ≠ max 1 (10 - 2) :=
  ⟨SaveLocalBlockHead (DeleteUnscanRecord (storeOf 10 "L10" []) 10) 9 "G9", by decide, rfl,
    by decide⟩

/-- C3, amended: on a fork detected at a local height `H` with
`1 ≤ H < 2 ^ 32` the rewound height is `max 1 (H - 1)`, one block back from
the local height. When a block is cached at that height the pass persists the
cursor with the cached block's hash; otherwise, when the node returns a block
for that height, with the hash of the node's block; when neither is there the
pass breaks and leaves the persisted cursor as it was. -/
theorem fork_rewind_cursor (wm : WalletManager) (bs : VASBlockScanner)
    (st : ScannerState) (H : Nat) (currentHash : String) (maxBlockHeight : Nat) (block : Block)
    (hscan : bs.Scanning = true) (hmax : wm.GetBlockHeight = some maxBlockHeight)
    (hne : H ≠ (maxBlockHeight + 2 ^ 64 - 1) % 2 ^ 64)
    (h1 : 1 ≤ H) (h2 : H < 2 ^ 32)
    (hblk : wm.GetBlockByHeight ((H + 1) % 2 ^ 32) = some block)
    (hfork : currentHash ≠ block.Previousblockhash) :
    (∀ localBlock, GetLocalBlock st (max 1 (H - 1)) = some localBlock →
      ∃ st', scanIteration wm bs H currentHash st =
          some (.next (max 1 (H - 1)) localBlock.Hash st') ∧
        st'.localBlockHead = (max 1 (H - 1), localBlock.Hash)) ∧
    (GetLocalBlock st (max 1 (H - 1)) = none →
      ∀ curBlock, wm.GetBlockByHeight (max 1 (H - 1)) = some curBlock →
      ∃ st', scanIteration wm bs H currentHash st =
          some (.next (max 1 (H - 1)) curBlock.Hash st') ∧
        st'.localBlockHead = (max 1 (H - 1), curBlock.Hash)) ∧
    (GetLocalBlock st (max 1 (H - 1)) = none → wm.GetBlockByHeight (max 1 (H - 1)) = none →
      ∃ st', scanIteration wm bs H currentHash st =
          some (.brk (max 1 (H - 1)) currentHash st') ∧
        st'.localBlockHead = st.localBlockHead) := by
  rw [scanIteration_fork wm bs st H currentHash maxBlockHeight block hscan hmax hne hblk hfork,
    forkBranch_eq wm st H currentHash h1 h2]
  refine ⟨?_, ?_, ?_⟩
  · intro localBlock hl
    obtain ⟨st2, e, hc, -⟩ := finishFork_head (DeleteUnscanRecord st H) (GetLocalBlock st H)
      (max 1 (H - 1)) localBlock.Hash
    exact ⟨st2, by simp only [hl, e], hc⟩
  · intro hl curBlock hn
    obtain ⟨st2, e, hc, -⟩ := finishFork_head (DeleteUnscanRecord st H) (GetLocalBlock st H)
      (max 1 (H - 1)) curBlock.Hash
    exact ⟨st2, by simp only [hl, hn, e], hc⟩
  · intro hl hn
    exact ⟨DeleteUnscanRecord st H, by simp only [hl, hn], rfl⟩

/-- Witness of the amended C3: a fork at local height 10 on a node holding
block 9, with an empty cache. -/
theorem fork_rewind_cursor_witness :
    ∃ st', scanIteration nodeReorg plainScanner 10 "L10" (storeOf 10 "L10" []) =
        some (.next (max 1 (10 - 1)) (mkBlock 9 "G9" "G8" []).Hash st') ∧
      st'.localBlockHead = (max 1 (10 - 1), (mkBlock 9 "G9" "G8" []).Hash) :=
  (fork_rewind_cursor nodeReorg plainScanner (storeOf 10 "L10" []) 10 "L10" 50
    (mkBlock 11 "G11" "G10" []) rfl rfl (by decide) (by decide) (by decide) (by decide)
    (by decide)).2.1 (by decide) (mkBlock 9 "G9" "G8" []) (by decide)

/-- C4, refuted as stated: a fork is detected at local height 10 and the
rewound cursor is persisted, but the block recorded at height 10 is not in the
local cache; it is not fetched, and no observer is notified of it. -/
theorem fork_uncached_not_notified :
    ∃ st', scanIteration nodeReorg watchedScanner 10 "L10" (storeOf 10 "L10" []) =
        some (.next 9 "G9" st') ∧
      GetLocalBlock (storeOf 10 "L10" []) 10 = none ∧ st'.blockNotified = [] :=
  ⟨SaveLocalBlockHead (DeleteUnscanRecord (storeOf 10 "L10" []) 10) 9 "G9", by decide,
    by decide, rfl⟩

/-- C4, amended: when a pass of `ScanBlockTask` detects a fork at local
height `H` and persists the rewound cursor, the observers are notified of the
block recorded at `H` exactly when it is in the local cache: the one header
notified then has its fork flag set, height `H`, and the hash, previous hash,
merkle root and time of the cached block. When the block is not cached, it is
not fetched and no header is notified. -/
theorem fork_notifies_cached_block (wm : WalletManager) (bs : VASBlockScanner)
    (st : ScannerState) (H : Nat) (currentHash : String) (maxBlockHeight : Nat) (block : Block)
    (h' : Nat) (hash' : String) (st' : ScannerState)
    (hscan : bs.Scanning = true) (hmax : wm.GetBlockHeight = some maxBlockHeight)
    (hne : H ≠ (maxBlockHeight + 2 ^ 64 - 1) % 2 ^ 64)
    (h2 : H < 2 ^ 32)
    (hblk : wm.GetBlockByHeight ((H + 1) % 2 ^ 32) = some block)
    (hfork : currentHash ≠ block.Previousblockhash)
    (hstep : scanIteration wm bs H currentHash st = some (.next h' hash' st')) :
    (∀ fb, GetLocalBlock st H = some fb →
      ∃ header, st'.blockNotified = st.blockNotified ++ [header] ∧ header.Fork = true ∧
        header.Hash = fb.Hash ∧ header.Previousblockhash = fb.Previousblockhash ∧
        header.Height = fb.Height ∧ header.Height = H ∧
        header.Merkleroot = fb.Merkleroot ∧ header.Time = fb.Time) ∧
    (GetLocalBlock st H = none → st'.blockNotified = st.blockNotified) := by
  rw [scanIteration_fork wm bs st H currentHash maxBlockHeight block hscan hmax hne hblk hfork]
    at hstep
  have hn := (forkBranch_outcome wm st _ currentHash h' hash' st' (Option.some.inj hstep)).2
  rw [forked_height H h2] at hn
  refine ⟨?_, ?_⟩
  · intro fb hfb
    rw [hfb] at hn
    have hH : fb.Height = H := by
      have := List.find?_some hfb
      simpa using this
    exact ⟨_, hn, rfl, rfl, rfl, rfl, hH, rfl, rfl⟩
  · intro hfb
    rw [hfb] at hn
    simpa using hn

/-- Witness of the amended C4: the block recorded at height 10 is cached, and
its header is notified with the fork flag set. -/
theorem fork_notifies_cached_block_witness :
    scanIteration nodeReorg watchedScanner 10 "L10" (storeOf 10 "L10" [staleBlock10]) =
        some (.next 9 "G9" (forkBlockNotify
          (SaveLocalBlockHead (DeleteUnscanRecord (storeOf 10 "L10" [staleBlock10]) 10) 9 "G9")
          staleBlock10)) ∧
      ∃ header, (forkBlockNotify
          (SaveLocalBlockHead (DeleteUnscanRecord (storeOf 10 "L10" [staleBlock10]) 10) 9 "G9")
          staleBlock10).blockNotified =
            (storeOf 10 "L10" [staleBlock10]).blockNotified ++ [header] ∧
        header.Fork = true ∧ header.Hash = staleBlock10.Hash ∧
        header.Previousblockhash = staleBlock10.Previousblockhash ∧
        header.Height = staleBlock10.Height ∧ header.Height = 10 ∧
        header.Merkleroot = staleBlock10.Merkleroot ∧ header.Time = staleBlock10.Time :=
  ⟨by decide, (fork_notifies_cached_block nodeReorg watchedScanner
    (storeOf 10 "L10" [staleBlock10]) 10 "L10" 50 (mkBlock 11 "G11" "G10" []) 9 "G9" _ rfl rfl
    (by decide) (by decide) (by decide) (by decide) (by decide)).1 staleBlock10 (by decide)⟩

/-! ## Claims on the transaction extractor -/

/-- C5, code at the failing input: the only input of `T1` has no address and
is not a coinbase input. When the node cannot return the previous transaction
`T0`, the input loop ends with `success = false`, yet the extraction result has
`Success = true` and no record; the same when `T0` has no output at the
referenced index. -/
theorem unresolved_input_reported_as_success :
    nodeMissingPrev.GetTransaction "T0" = none ∧
      resolveInputs nodeMissingPrev txT1.Vins true = some (txT1.Vins, false) ∧
      ExtractTransaction nodeMissingPrev 100 "H100" "T1" ownsA =
        some { extractData := [], TxID := "T1", BlockHash := "", BlockHeight := 100,
               BlockTime := 0, Success := true } ∧
      (nodeShortPrev.GetTransaction "T0").map (fun t => t.Vouts) = some [] ∧
      (ExtractTransaction nodeShortPrev 100 "H100" "T1" ownsA).map (fun r => r.Success) =
        some true := by
  decide

/-! ### Input completion -/

theorem length_eq_zero_of_empty {s : String} (h : s = "") : s.length = 0 := by
  subst h; rfl

theorem resolveInputs_complete (wm : WalletManager) (vins : List Vin)
    (hcb : ∀ v ∈ vins, v.Coinbase = "")
    (hfetch : ∀ v ∈ vins, v.Addr = "" → ∃ preTx, wm.GetTransaction v.TxID = some preTx)
    (hidx : ∀ v ∈ vins, v.Vout < 2 ^ 63) :
    resolveInputs wm vins true = some (vins.map (fillInput wm), true) := by
  induction vins with
  | nil => rfl
  | cons input rest ih =>
    have hrest := ih (fun v hv => hcb v (List.mem_cons_of_mem _ hv))
      (fun v hv => hfetch v (List.mem_cons_of_mem _ hv))
      (fun v hv => hidx v (List.mem_cons_of_mem _ hv))
    have hc : ¬ input.Coinbase.length > 0 := by
      rw [length_eq_zero_of_empty (hcb input (List.mem_cons_self _ _))]; decide
    have hin : input.Vout < 2 ^ 63 := hidx input (List.mem_cons_self _ _)
    unfold resolveInputs
    rw [if_neg hc]
    by_cases ha : input.Addr.length = 0
    · rw [if_pos ha]
      have hae : input.Addr = "" := by
        have : input.Addr.data = [] := List.length_eq_zero.mp ha
        exact String.ext this
      obtain ⟨preTx, hp⟩ := hfetch input (List.mem_cons_self _ _) hae
      simp only [hp, hrest, List.map_cons, fillInput, if_pos ha]
      by_cases hlen : (preTx.Vouts.length : Int) > toInt input.Vout
      · rw [if_pos hlen]
        rw [toInt_of_lt hin] at hlen
        have hlt : input.Vout < preTx.Vouts.length := by exact_mod_cast hlen
        rw [List.getElem?_eq_getElem hlt]
        rfl
      · rw [if_neg hlen]
        rw [toInt_of_lt hin] at hlen
        have hge : preTx.Vouts.length ≤ input.Vout := by
          by_contra hcon
          exact hlen (by exact_mod_cast Nat.lt_of_not_le hcon)
        rw [List.getElem?_eq_none hge]
        rfl
    · rw [if_neg ha]
      simp only [hrest, List.map_cons, fillInput, if_neg ha]
      rfl

/-! ### The record map -/

theorem upsert_mem_inv (f : TxExtractData → TxExtractData) (key : String)
    (m : List (String × TxExtractData)) (e : String × TxExtractData)
    (h : e ∈ upsert f key m) :
    e ∈ m ∨ (e.1 = key ∧ (e.2 = f NewBlockExtractData ∨ ∃ ed0, (key, ed0) ∈ m ∧ e.2 = f ed0)) := by
  induction m with
  | nil =>
    simp only [upsert, List.mem_singleton] at h
    subst h
    exact Or.inr ⟨rfl, Or.inl rfl⟩
  | cons e0 rest ih =>
    obtain ⟨k0, ed0⟩ := e0
    unfold upsert at h
    by_cases hk : k0 = key
    · rw [if_pos hk] at h
      rcases List.mem_cons.mp h with h | h
      · subst h
        subst hk
        exact Or.inr ⟨rfl, Or.inr ⟨ed0, by simp, rfl⟩⟩
      · exact Or.inl (List.mem_cons_of_mem _ h)
    · rw [if_neg hk] at h
      rcases List.mem_cons.mp h with h | h
      · subst h
        exact Or.inl (by simp)
      · rcases ih h with h1 | ⟨h1, h2⟩
        · exact Or.inl (List.mem_cons_of_mem _ h1)
        · refine Or.inr ⟨h1, ?_⟩
          rcases h2 with h2 | ⟨ed1, h3, h4⟩
          · exact Or.inl h2
          · exact Or.inr ⟨ed1, List.mem_cons_of_mem _ h3, h4⟩

/-- The result of `extractTransaction` when the input loop ends with the
inputs `vins` and `success = true`. -/
theorem extractTransaction_eq (wm : WalletManager) (trx : Transaction)
    (result : ExtractResult) (scan : BlockScanAddressFunc) (vins : List Vin)
    (h : resolveInputs wm trx.Vins true = some (vins, true)) :
    extractTransaction wm (some trx) result scan =
      some { result with
        extractData :=
          (extractTxOutput wm { trx with Vins := vins }
            (extractTxInput wm { trx with Vins := vins } result scan).extractData
            scan).extractData.map fun e =>
              (e.1, { e.2 with Transaction := some (finalTx wm
                (summaryTx wm { trx with Vins := vins }
                  (extractTxInput wm { trx with Vins := vins } result scan).descr
                  (extractTxOutput wm { trx with Vins := vins }
                    (extractTxInput wm { trx with Vins := vins } result scan).extractData
                    scan).descr
                  (extractTxInput wm { trx with Vins := vins } result scan).totalAmount
                  (extractTxOutput wm { trx with Vins := vins }
                    (extractTxInput wm { trx with Vins := vins } result scan).extractData
                    scan).totalAmount)) })
        Success := true } := by
  simp only [extractTransaction, h, if_true]

/-- The decimal model on sample texts: parsing, an amount that does not
parse, and printing with rounding half away from zero. -/
theorem Decimal.samples :
    Decimal.NewFromString "10.0" = some ⟨10, 0⟩ ∧
    Decimal.NewFromString "9.9" = some ⟨99, -1⟩ ∧
    Decimal.NewFromString "-0.50" = some ⟨-5, -1⟩ ∧
    Decimal.NewFromString "1e-8" = some ⟨1, -8⟩ ∧
    Decimal.NewFromString "" = none ∧
    Decimal.NewFromString "1.2.3" = none ∧
    Decimal.parseOrZero "" = ⟨0, 0⟩ ∧
    (Decimal.parseOrZero "10.0").Sub (Decimal.parseOrZero "9.9") = ⟨1, -1⟩ ∧
    Decimal.StringFixed ⟨1, -1⟩ 8 = "0.10000000" ∧
    Decimal.StringFixed ⟨-15, -1⟩ 0 = "-2" ∧
    Decimal.StringFixed ⟨123456, -3⟩ 1 = "123.5" ∧
    Decimal.StringFixed ⟨5, 2⟩ 2 = "500.00" := by
  decide

theorem Decimal.rescale_exp (d : Decimal) (e : Int) : (d.rescale e).exp = e := by
  unfold Decimal.rescale
  split
  · assumption
  · split <;> rfl

theorem Decimal.toRat_rescale (d : Decimal) (e : Int) (h : e ≤ d.exp) :
    (d.rescale e).toRat = d.toRat := by
  unfold Decimal.rescale
  by_cases h1 : d.exp = e
  · rw [if_pos h1]
  · rw [if_neg h1, if_neg (by omega)]
    unfold Decimal.toRat
    have hn : ((d.exp - e).toNat : Int) = d.exp - e := Int.toNat_of_nonneg (by omega)
    have h10 : (10 : ℚ) ≠ 0 := by norm_num
    have hp : ((10 : ℚ) ^ (d.exp - e).toNat) * (10 : ℚ) ^ e = (10 : ℚ) ^ d.exp := by
      rw [← zpow_natCast, hn, ← zpow_add₀ h10]
      congr 1; ring
    push_cast
    rw [mul_assoc, hp]

theorem Decimal.toRat_eq_rescaled (d : Decimal) (e : Int) (h : e ≤ d.exp) :
    ((d.rescale e).value : ℚ) * (10 : ℚ) ^ e = d.toRat := by
  have := Decimal.toRat_rescale d e h
  unfold Decimal.toRat at this
  rw [Decimal.rescale_exp] at this
  exact this

theorem Decimal.toRat_Add (a b : Decimal) : (a.Add b).toRat = a.toRat + b.toRat := by
  have ha := Decimal.toRat_eq_rescaled a (min a.exp b.exp) (min_le_left _ _)
  have hb := Decimal.toRat_eq_rescaled b (min a.exp b.exp) (min_le_right _ _)
  unfold Decimal.Add
  simp only [Decimal.toRat] at *
  push_cast
  rw [add_mul, ha, hb]

theorem Decimal.toRat_Sub (a b : Decimal) : (a.Sub b).toRat = a.toRat - b.toRat := by
  have ha := Decimal.toRat_eq_rescaled a (min a.exp b.exp) (min_le_left _ _)
  have hb := Decimal.toRat_eq_rescaled b (min a.exp b.exp) (min_le_right _ _)
  unfold Decimal.Sub
  simp only [Decimal.toRat] at *
  push_cast
  rw [sub_mul, ha, hb]

theorem Decimal.toRat_Zero : Decimal.Zero.toRat = 0 := by
  simp [Decimal.toRat, Decimal.Zero]

theorem toRat_foldl_Add (f : String → Decimal) (l : List String) (init : Decimal) :
    (l.foldl (fun t a => t.Add (f a)) init).toRat =
      init.toRat + (l.map fun a => (f a).toRat).sum := by
  induction l generalizing init with
  | nil => simp
  | cons a rest ih =>
    simp only [List.foldl_cons, List.map_cons, List.sum_cons]
    rw [ih, Decimal.toRat_Add]
    ring

theorem toRat_sumAmounts (amounts : List String) :
    (sumAmounts amounts).toRat = (amounts.map fun a => (Decimal.parseOrZero a).toRat).sum := by
  unfold sumAmounts
  rw [toRat_foldl_Add, Decimal.toRat_Zero, zero_add]

/-! ### Totals of the extraction loops -/

theorem extractTxInputLoop_total (wm : WalletManager) (trx : Transaction) (txid : String)
    (scan : BlockScanAddressFunc) (vins : List Vin) (i : Nat) (acc : ExtractAcc) :
    (extractTxInputLoop wm trx txid scan i vins acc).totalAmount =
      (vins.map fun v => v.Value).foldl (fun t a => t.Add (Decimal.parseOrZero a))
        acc.totalAmount := by
  induction vins generalizing i acc with
  | nil => rfl
  | cons v rest ih =>
    unfold extractTxInputLoop
    rw [ih]
    rfl

theorem extractTxOutput_fold_total (wm : WalletManager) (trx : Transaction)
    (scan : BlockScanAddressFunc) (vouts : List Vout) (acc : ExtractAcc) :
    (vouts.foldl (fun acc output => extractTxOutputStep wm trx scan output acc) acc).totalAmount =
      ((payingOutputs vouts).map fun o => o.Value).foldl
        (fun t a => t.Add (Decimal.parseOrZero a)) acc.totalAmount := by
  induction vouts generalizing acc with
  | nil => rfl
  | cons o rest ih =>
    simp only [List.foldl_cons]
    rw [ih]
    by_cases ht : o.ScriptType = "OP_RETURN"
    · simp [payingOutputs, extractTxOutputStep, ht]
    · simp [payingOutputs, extractTxOutputStep, ht]

theorem extractTransaction_fees (wm : WalletManager) (trx : Transaction)
    (result : ExtractResult) (scan : BlockScanAddressFunc) (vins : List Vin) :
    (finalTx wm
      (summaryTx wm { trx with Vins := vins }
        (extractTxInput wm { trx with Vins := vins } result scan).descr
        (extractTxOutput wm { trx with Vins := vins }
          (extractTxInput wm { trx with Vins := vins } result scan).extractData scan).descr
        (extractTxInput wm { trx with Vins := vins } result scan).totalAmount
        (extractTxOutput wm { trx with Vins := vins }
          (extractTxInput wm { trx with Vins := vins } result scan).extractData
          scan).totalAmount)).Fees = codeFees wm vins trx.Vouts := by
  simp only [finalTx, summaryTx, codeFees, extractTxInput, extractTxOutput,
    extractTxInputLoop_total, extractTxOutput_fold_total, sumAmounts]

/-- C7, refuted as stated: `T2` spends 10.0 and has the outputs 9 and, on an
`OP_RETURN` script, 0.5. The record produced for `"ownerA"` carries the fee
`1.00000000`, while inputs minus all outputs is `0.50000000`. -/
theorem fees_skip_op_return_amount :
    (ExtractTransaction nodeBurn 100 "H100" "T2" ownsA).map
        (fun r => r.extractData.map fun e => (e.1, e.2.Transaction.map fun t => t.Fees)) =
      some [("ownerA", some "1.00000000")] ∧
    resolveInputs nodeBurn txT2.Vins true =
      some ([{ mkVin "T0" 0 0 with Addr := "A", Value := "10.0" }], true) ∧
    specFees nodeBurn [{ mkVin "T0" 0 0 with Addr := "A", Value := "10.0" }] txT2.Vouts =
      "0.50000000" := by
  decide

/-- C7, amended: when the extraction of a transaction, started from an empty
record map, produces records, the input loop has ended with some inputs `vins`
and `success = true`, and every record carries the same fee text: the total of the
amounts of `vins` minus the total of the amounts of the outputs whose script type
is not `OP_RETURN`, printed with `wm.Decimal` places. That difference is exact:
as a number it is the sum of the parsed input amounts minus the sum of the
parsed amounts of those outputs (an amount that does not parse counts as
zero). -/
theorem fees_of_records (wm : WalletManager) (trx : Transaction) (result r : ExtractResult)
    (scan : BlockScanAddressFunc) (hempty : result.extractData = [])
    (hr : extractTransaction wm (some trx) result scan = some r)
    (hne : r.extractData ≠ []) :
    ∃ vins, resolveInputs wm trx.Vins true = some (vins, true) ∧
      (∀ e ∈ r.extractData, ∃ tx, e.2.Transaction = some tx ∧
        tx.Fees = codeFees wm vins trx.Vouts) ∧
      codeFees wm vins trx.Vouts =
        ((sumAmounts (vins.map fun v => v.Value)).Sub
          (sumAmounts ((payingOutputs trx.Vouts).map fun o => o.Value))).StringFixed
            wm.Decimal ∧
      ((sumAmounts (vins.map fun v => v.Value)).Sub
          (sumAmounts ((payingOutputs trx.Vouts).map fun o => o.Value))).toRat =
        (vins.map fun v => (Decimal.parseOrZero v.Value).toRat).sum -
          ((payingOutputs trx.Vouts).map fun o => (Decimal.parseOrZero o.Value).toRat).sum := by
  cases hres : resolveInputs wm trx.Vins true with
  | none => simp [extractTransaction, hres] at hr
  | some p =>
    obtain ⟨vins, success⟩ := p
    cases success with
    | false =>
      simp only [extractTransaction, hres] at hr
      injection hr with hr
      subst hr
      exact absurd hempty hne
    | true =>
      rw [extractTransaction_eq wm trx result scan vins hres] at hr
      injection hr with hr
      refine ⟨vins, rfl, ?_, rfl, ?_⟩
      · intro e he
        rw [← hr] at he
        obtain ⟨e0, -, he0⟩ := List.mem_map.mp he
        rw [← he0]
        exact ⟨_, rfl, extractTransaction_fees wm trx result scan vins⟩
      · rw [Decimal.toRat_Sub, toRat_sumAmounts, toRat_sumAmounts, List.map_map, List.map_map]
        rfl

/-- Witness of the amended C7: the extraction of `T2` produces a record. -/
theorem fees_of_records_witness :
    ∃ r, extractTransaction nodeBurn (some txT2) (freshResult 0 "T2") ownsA = some r ∧
      r.extractData ≠ [] ∧
      ∃ vins, resolveInputs nodeBurn txT2.Vins true = some (vins, true) ∧
        (∀ e ∈ r.extractData, ∃ tx, e.2.Transaction = some tx ∧
          tx.Fees = codeFees nodeBurn vins txT2.Vouts) ∧
        codeFees nodeBurn vins txT2.Vouts =
          ((sumAmounts (vins.map fun v => v.Value)).Sub
            (sumAmounts ((payingOutputs txT2.Vouts).map fun o => o.Value))).StringFixed
              nodeBurn.Decimal ∧
        ((sumAmounts (vins.map fun v => v.Value)).Sub
            (sumAmounts ((payingOutputs txT2.Vouts).map fun o => o.Value))).toRat =
          (vins.map fun v => (Decimal.parseOrZero v.Value).toRat).sum -
            ((payingOutputs txT2.Vouts).map fun o =>
              (Decimal.parseOrZero o.Value).toRat).sum := by
  obtain ⟨r, hr⟩ := extractTransaction_isSome nodeBurn txT2 (freshResult 0 "T2") ownsA
    (by decide)
  have hlen : (extractTransaction nodeBurn (some txT2) (freshResult 0 "T2") ownsA).map
      (fun r => r.extractData.length) = some 1 := by decide
  have hne : r.extractData ≠ [] := by
    rw [hr] at hlen
    intro h
    rw [Option.map_some', h] at hlen
    exact absurd hlen (by decide)
  exact ⟨r, hr, hne, fees_of_records nodeBurn txT2 (freshResult 0 "T2") r ownsA rfl hr hne⟩

/-! ### Only owned addresses are recorded -/

theorem OwnedOnly_upsert (scan : BlockScanAddressFunc) (inAddrs outAddrs : List String)
    (f : TxExtractData → TxExtractData) (key : String) (m : List (String × TxExtractData))
    (hm : OwnedOnly scan inAddrs outAddrs m)
    (hkey : (∃ a ∈ inAddrs, scan a = (key, true)) ∨ (∃ a ∈ outAddrs, scan a = (key, true)))
    (hin : ∀ ed, (∀ inp ∈ ed.TxInputs, inp.Address ∈ inAddrs ∧ scan inp.Address = (key, true)) →
      ∀ inp ∈ (f ed).TxInputs, inp.Address ∈ inAddrs ∧ scan inp.Address = (key, true))
    (hout : ∀ ed,
      (∀ out ∈ ed.TxOutputs, out.Address ∈ outAddrs ∧ scan out.Address = (key, true)) →
      ∀ out ∈ (f ed).TxOutputs, out.Address ∈ outAddrs ∧ scan out.Address = (key, true)) :
    OwnedOnly scan inAddrs outAddrs (upsert f key m) := by
  intro e he
  rcases upsert_mem_inv f key m e he with h | ⟨h1, h2⟩
  · exact hm e h
  · rcases h2 with h2 | ⟨ed0, h3, h4⟩
    · rw [h1, h2]
      refine ⟨hkey, hin _ ?_, hout _ ?_⟩
      · intro inp hinp; exact absurd hinp (by simp [NewBlockExtractData])
      · intro out ho; exact absurd ho (by simp [NewBlockExtractData])
    · rw [h1, h4]
      have h0 := hm (key, ed0) h3
      exact ⟨hkey, hin _ h0.2.1, hout _ h0.2.2⟩

theorem OwnedOnly_inputStep (wm : WalletManager) (trx : Transaction) (txid : String)
    (scan : BlockScanAddressFunc) (inAddrs outAddrs : List String) (i : Nat) (v : Vin)
    (acc : ExtractAcc) (hv : v.Addr ∈ inAddrs)
    (h : OwnedOnly scan inAddrs outAddrs acc.extractData) :
    OwnedOnly scan inAddrs outAddrs (extractTxInputStep wm trx txid scan i v acc).extractData := by
  unfold extractTxInputStep
  simp only []
  split
  · rename_i hown
    have hs : scan v.Addr = ((scan v.Addr).1, true) := by rw [← hown]
    apply OwnedOnly_upsert scan inAddrs outAddrs _ _ _ h (Or.inl ⟨v.Addr, hv, hs⟩)
    · intro ed hed inp hinp
      rcases List.mem_append.mp hinp with hi | hi
      · exact hed inp hi
      · rw [List.mem_singleton.mp hi]
        exact ⟨hv, hs⟩
    · intro ed hed out ho
      exact hed out ho
  · exact h

theorem OwnedOnly_inputLoop (wm : WalletManager) (trx : Transaction) (txid : String)
    (scan : BlockScanAddressFunc) (inAddrs outAddrs : List String) (vins : List Vin) (i : Nat)
    (acc : ExtractAcc) (hv : ∀ v ∈ vins, v.Addr ∈ inAddrs)
    (h : OwnedOnly scan inAddrs outAddrs acc.extractData) :
    OwnedOnly scan inAddrs outAddrs
      (extractTxInputLoop wm trx txid scan i vins acc).extractData := by
  induction vins generalizing i acc with
  | nil => exact h
  | cons v rest ih =>
    unfold extractTxInputLoop
    exact ih _ _ (fun w hw => hv w (List.mem_cons_of_mem _ hw))
      (OwnedOnly_inputStep wm trx txid scan inAddrs outAddrs i v acc
        (hv v (List.mem_cons_self _ _)) h)

theorem OwnedOnly_outputStep (wm : WalletManager) (trx : Transaction)
    (scan : BlockScanAddressFunc) (inAddrs outAddrs : List String) (o : Vout)
    (acc : ExtractAcc) (ho : o.Addr ∈ outAddrs)
    (h : OwnedOnly scan inAddrs outAddrs acc.extractData) :
    OwnedOnly scan inAddrs outAddrs (extractTxOutputStep wm trx scan o acc).extractData := by
  unfold extractTxOutputStep
  split
  · exact h
  · simp only []
    split
    · rename_i hown
      have hs : scan o.Addr = ((scan o.Addr).1, true) := by rw [← hown]
      apply OwnedOnly_upsert scan inAddrs outAddrs _ _ _ h (Or.inr ⟨o.Addr, ho, hs⟩)
      · intro ed hed inp hinp
        exact hed inp hinp
      · intro ed hed out hout
        rcases List.mem_append.mp hout with hi | hi
        · exact hed out hi
        · rw [List.mem_singleton.mp hi]
          exact ⟨ho, hs⟩
    · exact h

theorem OwnedOnly_outputFold (wm : WalletManager) (trx : Transaction)
    (scan : BlockScanAddressFunc) (inAddrs outAddrs : List String) (vouts : List Vout)
    (acc : ExtractAcc) (ho : ∀ o ∈ vouts, o.Addr ∈ outAddrs)
    (h : OwnedOnly scan inAddrs outAddrs acc.extractData) :
    OwnedOnly scan inAddrs outAddrs
      (vouts.foldl (fun acc output => extractTxOutputStep wm trx scan output acc)
        acc).extractData := by
  induction vouts generalizing acc with
  | nil => exact h
  | cons o rest ih =>
    simp only [List.foldl_cons]
    exact ih _ (fun w hw => ho w (List.mem_cons_of_mem _ hw))
      (OwnedOnly_outputStep wm trx scan inAddrs outAddrs o acc (ho o (List.mem_cons_self _ _)) h)

theorem OwnedOnly_setTransaction (scan : BlockScanAddressFunc)
    (inAddrs outAddrs : List String) (tx : OWTransaction)
    (data : List (String × TxExtractData)) (h : OwnedOnly scan inAddrs outAddrs data) :
    OwnedOnly scan inAddrs outAddrs
      (data.map fun e => (e.1, { e.2 with Transaction := some tx })) := by
  intro e he
  obtain ⟨e0, he0, heq⟩ := List.mem_map.mp he
  rw [← heq]
  exact h e0 he0

theorem OwnedOnly_extractTransaction (wm : WalletManager) (trx : Transaction)
    (result r : ExtractResult) (scan : BlockScanAddressFunc) (vins : List Vin) (s : Bool)
    (hempty : result.extractData = [])
    (hres : resolveInputs wm trx.Vins true = some (vins, s))
    (hr : extractTransaction wm (some trx) result scan = some r) :
    OwnedOnly scan (vins.map fun v => v.Addr) (trx.Vouts.map fun o => o.Addr)
      r.extractData := by
  have h0 : OwnedOnly scan (vins.map fun v => v.Addr) (trx.Vouts.map fun o => o.Addr)
      result.extractData := by
    rw [hempty]; intro e he; exact absurd he (by simp)
  cases s with
  | false =>
    simp only [extractTransaction, hres] at hr
    injection hr with hr
    subst hr
    exact h0
  | true =>
    rw [extractTransaction_eq wm trx result scan vins hres] at hr
    injection hr with hr
    rw [← hr]
    apply OwnedOnly_setTransaction
    apply OwnedOnly_outputFold
    · intro o ho
      exact List.mem_map_of_mem (fun o => o.Addr) ho
    · apply OwnedOnly_inputLoop
      · intro v hv
        exact List.mem_map_of_mem (fun v => v.Addr) hv
      · exact h0

/-- C8: for every transaction and every oracle `scan`, when the extraction,
started from an empty record map, returns `r` and `vins` are the inputs as the
completion loop leaves them: every key of `r.extractData` is the owner key the
oracle returns, with owned = true, for the address of some input or output of
the transaction; every input record under a key carries the address of an
input that the oracle owns under that key, and every output record the address
of an output that the oracle owns under that key. -/
theorem records_only_for_owned (wm : WalletManager) (trx : Transaction)
    (result r : ExtractResult) (scan : BlockScanAddressFunc) (vins : List Vin) (s : Bool)
    (hempty : result.extractData = [])
    (hres : resolveInputs wm trx.Vins true = some (vins, s))
    (hr : extractTransaction wm (some trx) result scan = some r) :
    ∀ e ∈ r.extractData,
      ((∃ v ∈ vins, scan v.Addr = (e.1, true)) ∨ (∃ o ∈ trx.Vouts, scan o.Addr = (e.1, true))) ∧
      (∀ inp ∈ e.2.TxInputs,
        (∃ v ∈ vins, v.Addr = inp.Address) ∧ scan inp.Address = (e.1, true)) ∧
      (∀ out ∈ e.2.TxOutputs,
        (∃ o ∈ trx.Vouts, o.Addr = out.Address) ∧ scan out.Address = (e.1, true)) := by
  intro e he
  obtain ⟨h1, h2, h3⟩ := OwnedOnly_extractTransaction wm trx result r scan vins s hempty hres hr
    e he
  refine ⟨?_, ?_, ?_⟩
  · rcases h1 with ⟨a, ha, hs⟩ | ⟨a, ha, hs⟩
    · obtain ⟨v, hv, rfl⟩ := List.mem_map.mp ha
      exact Or.inl ⟨v, hv, hs⟩
    · obtain ⟨o, ho, rfl⟩ := List.mem_map.mp ha
      exact Or.inr ⟨o, ho, hs⟩
  · intro inp hinp
    obtain ⟨ha, hs⟩ := h2 inp hinp
    obtain ⟨v, hv, hva⟩ := List.mem_map.mp ha
    exact ⟨⟨v, hv, hva⟩, hs⟩
  · intro out ho
    obtain ⟨ha, hs⟩ := h3 out ho
    obtain ⟨o, ho', hoa⟩ := List.mem_map.mp ha
    exact ⟨⟨o, ho', hoa⟩, hs⟩

/-- Witness of C8: the extraction of `T1`, whose only record is keyed by
`"ownerA"`. -/
theorem records_only_for_owned_witness :
    ∃ r, extractTransaction nodeScenario (some txT1) (freshResult 100 "T1") ownsA = some r ∧
      r.extractData.map (fun e => e.1) = ["ownerA"] ∧
      ∀ e ∈ r.extractData,
        ((∃ v ∈ [{ mkVin "T0" 0 0 with Addr := "A", Value := "10.0" }],
            ownsA v.Addr = (e.1, true)) ∨
          (∃ o ∈ txT1.Vouts, ownsA o.Addr = (e.1, true))) ∧
        (∀ inp ∈ e.2.TxInputs,
          (∃ v ∈ [{ mkVin "T0" 0 0 with Addr := "A", Value := "10.0" }],
            v.Addr = inp.Address) ∧ ownsA inp.Address = (e.1, true)) ∧
        (∀ out ∈ e.2.TxOutputs,
          (∃ o ∈ txT1.Vouts, o.Addr = out.Address) ∧ ownsA out.Address = (e.1, true)) := by
  obtain ⟨r, hr⟩ := extractTransaction_isSome nodeScenario txT1 (freshResult 100 "T1") ownsA
    (by decide)
  have hkeys : (extractTransaction nodeScenario (some txT1) (freshResult 100 "T1") ownsA).map
      (fun r => r.extractData.map fun e => e.1) = some ["ownerA"] := by decide
  rw [hr] at hkeys
  exact ⟨r, hr, Option.some.inj hkeys,
    records_only_for_owned nodeScenario txT1 (freshResult 100 "T1") r ownsA
      [{ mkVin "T0" 0 0 with Addr := "A", Value := "10.0" }] true rfl (by decide) hr⟩

/-! ## End-to-end scenario -/

theorem toInt_le (v : Nat) : toInt v ≤ (v : Int) := by
  unfold toInt
  have h := Nat.mod_le v (2 ^ 64)
  split <;> omega

theorem resolveInputs_single (wm : WalletManager) (vin : Vin) (pre : Transaction)
    (pout : Vout) (hcb : vin.Coinbase = "") (hva : vin.Addr = "")
    (hpre : wm.GetTransaction vin.TxID = some pre) (hpout : pre.Vouts[vin.Vout]? = some pout) :
    resolveInputs wm [vin] true =
      some ([{ vin with Addr := pout.Addr, Value := pout.Value }], true) := by
  have hlt : vin.Vout < pre.Vouts.length := by
    by_contra hcon
    rw [List.getElem?_eq_none (Nat.le_of_not_lt hcon)] at hpout
    exact absurd hpout (by simp)
  have hguard : (pre.Vouts.length : Int) > toInt vin.Vout := by
    have := toInt_le vin.Vout
    omega
  unfold resolveInputs
  rw [if_neg (by rw [length_eq_zero_of_empty hcb]; decide),
    if_pos (length_eq_zero_of_empty hva)]
  simp only [hpre, if_pos hguard, hpout, resolveInputs, Option.map_some']

theorem SaveUnscanRecord_extractNotified (st : ScannerState) (r : UnscanRecord) :
    (SaveUnscanRecord st r).extractNotified = st.extractNotified := by
  unfold SaveUnscanRecord
  split <;> rfl

theorem notifyOne_log (wm : WalletManager) (height oi : Nat) (o : Observer)
    (st : ScannerState) (e : String × TxExtractData) :
    (notifyOne wm height oi o st e).extractNotified =
      st.extractNotified ++ [(oi, e.1, e.2)] := by
  unfold notifyOne
  simp only []
  split
  · rw [SaveUnscanRecord_extractNotified]
  · rfl

theorem notifyObservers_single_log (wm : WalletManager) (height : Nat)
    (e : String × TxExtractData) (os : List Observer) (oi : Nat) (st : ScannerState) :
    (notifyObservers wm height [e] oi os st).extractNotified =
      st.extractNotified ++ (List.range' oi os.length).map fun i => (i, e.1, e.2) := by
  induction os generalizing oi st with
  | nil => simp [notifyObservers]
  | cons o rest ih =>
    unfold notifyObservers
    rw [ih]
    simp only [List.foldl_cons, List.foldl_nil, notifyOne_log, List.length_cons,
      List.range'_succ, List.map_cons, List.append_assoc, List.singleton_append]

theorem BatchExtractTransaction_single (wm : WalletManager) (bs : VASBlockScanner)
    (blockHeight : Nat) (blockHash txid : String) (st : ScannerState) (r : ExtractResult)
    (hr : ExtractTransaction wm blockHeight blockHash txid bs.ScanAddressFunc = some r)
    (hs : r.Success = true) :
    BatchExtractTransaction wm bs blockHeight blockHash [txid] st =
      some (newExtractDataNotify wm bs blockHeight r.extractData st, false) := by
  simp [BatchExtractTransaction, extractAll, hr, saveWork, newExtractDataNotifyE, hs]

/-- The extraction of a transaction with one input, which has no address and
takes the owned address `A` with amount `"10.0"` from its previous output, and
one output paying `"9.9"` to an address that is not owned. -/
theorem extractTransaction_scenario (wm : WalletManager) (scan : BlockScanAddressFunc)
    (trx pre : Transaction) (result : ExtractResult) (vin : Vin) (pout out : Vout)
    (A keyA : String)
    (hempty : result.extractData = [])
    (hvins : trx.Vins = [vin]) (hcb : vin.Coinbase = "") (hva : vin.Addr = "")
    (hpre : wm.GetTransaction vin.TxID = some pre) (hpout : pre.Vouts[vin.Vout]? = some pout)
    (hpa : pout.Addr = A) (hpv : pout.Value = "10.0")
    (hvouts : trx.Vouts = [out]) (hov : out.Value = "9.9")
    (hot : out.ScriptType ≠ "OP_RETURN")
    (hownA : scan A = (keyA, true)) (hownB : (scan out.Addr).2 = false)
    (hdec : wm.Decimal = 8) :
    ∃ inp tx, extractTransaction wm (some trx) result scan =
        some { result with extractData := [(keyA, ⟨[inp], [], some tx⟩)], Success := true } ∧
      inp.Address = A ∧ inp.Amount = "10.0" ∧ tx.Fees = "0.10000000" := by
  have hres : resolveInputs wm trx.Vins true =
      some ([{ vin with Addr := A, Value := "10.0" }], true) := by
    rw [hvins, resolveInputs_single wm vin pre pout hcb hva hpre hpout, hpa, hpv]
  have hfee := extractTransaction_fees wm trx result scan
    [{ vin with Addr := A, Value := "10.0" }]
  have hcode : codeFees wm [{ vin with Addr := A, Value := "10.0" }] trx.Vouts =
      "0.10000000" := by
    simp only [codeFees, payingOutputs, hvouts, hdec, List.filter_cons, hot, List.map_cons,
      List.map_nil, hov, List.filter_nil, ne_eq, not_false_eq_true, decide_True, if_true]
    decide
  rw [hcode] at hfee
  have hdata : (extractTxOutput wm { trx with Vins := [{ vin with Addr := A, Value := "10.0" }] }
      (extractTxInput wm { trx with Vins := [{ vin with Addr := A, Value := "10.0" }] }
        result scan).extractData scan).extractData =
      [(keyA, ⟨[
        { SourceTxID := vin.TxID, SourceIndex := vin.Vout, TxID := result.TxID,
          Address := A, Amount := "10.0", Coin := ⟨wm.Symbol, false⟩, Index := vin.N,
          Sid := wm.GenTxInputSID vin.TxID wm.Symbol "" 0, CreateAt := wm.Now,
          BlockHeight := trx.BlockHeight, BlockHash := trx.BlockHash, TxType := 0 }],
        [], none⟩)] := by
    simp only [extractTxInput, extractTxInputLoop, extractTxInputStep, hownA, hempty, upsert,
      extractTxOutput, hvouts, List.foldl_cons, List.foldl_nil, extractTxOutputStep, hot,
      hownB, if_true, if_false, NewBlockExtractData, List.nil_append]
    rfl
  rw [extractTransaction_eq wm trx result scan _ hres, hdata]
  exact ⟨_, _, rfl, rfl, rfl, hfee⟩

/-- C9: the local cursor is `(99, P)`; the node's block 100 has previous hash
`P` and the single transaction `T1`; the only input of `T1` has no address, is
not a coinbase input, and its previous output has the owned address `A` and the
amount `10.0`; the only output of `T1` pays `9.9` to the address `B`, which is
not owned. Then one pass of the scan loop extracts `T1` into exactly one record,
keyed by the owner key of `A`, with exactly one input (address `A`, amount
`10.0`) and no output, and with the fee `0.10000000`, which is the number 1/10;
that record is handed once to every observer, and the cursor becomes
`(100, block.Hash)`. -/
theorem end_to_end_scenario (wm : WalletManager) (bs : VASBlockScanner) (st : ScannerState)
    (P A B T1 keyA : String) (maxBlockHeight : Nat) (block : Block) (trx pre : Transaction)
    (vin : Vin) (pout out : Vout)
    (hscan : bs.Scanning = true) (hmax : wm.GetBlockHeight = some maxBlockHeight)
    (hne : 99 ≠ (maxBlockHeight + 2 ^ 64 - 1) % 2 ^ 64)
    (hblk : wm.GetBlockByHeight 100 = some block) (hprev : block.Previousblockhash = P)
    (htx : block.tx = [T1]) (hT1 : wm.GetTransaction T1 = some trx)
    (hvins : trx.Vins = [vin]) (hcb : vin.Coinbase = "") (hva : vin.Addr = "")
    (hpre : wm.GetTransaction vin.TxID = some pre) (hpout : pre.Vouts[vin.Vout]? = some pout)
    (hpa : pout.Addr = A) (hpv : pout.Value = "10.0")
    (hvouts : trx.Vouts = [out]) (hoa : out.Addr = B) (hov : out.Value = "9.9")
    (hot : out.ScriptType ≠ "OP_RETURN")
    (hownA : bs.ScanAddressFunc A = (keyA, true)) (hownB : (bs.ScanAddressFunc B).2 = false)
    (hdec : wm.Decimal = 8) :
    ∃ r inp tx st',
      ExtractTransaction wm 100 block.Hash T1 bs.ScanAddressFunc = some r ∧
      r.Success = true ∧ r.extractData = [(keyA, ⟨[inp], [], some tx⟩)] ∧
      inp.Address = A ∧ inp.Amount = "10.0" ∧
      tx.Fees = "0.10000000" ∧ (Decimal.parseOrZero tx.Fees).toRat = 1 / 10 ∧
      scanIteration wm bs 99 P st = some (.next 100 block.Hash st') ∧
      st'.localBlockHead = (100, block.Hash) ∧
      st'.extractNotified = st.extractNotified ++
        (List.range' 0 bs.Observers.length).map fun i => (i, keyA, ⟨[inp], [], some tx⟩) := by
  obtain ⟨inp, tx, hex, hia, hiv, hfee⟩ := extractTransaction_scenario wm bs.ScanAddressFunc
    (if 100 > 0 ∧ trx.BlockHeight = 0 then
      { trx with BlockHeight := 100, BlockHash := block.Hash } else trx)
    pre (freshResult 100 T1) vin pout out A keyA rfl
    (by split <;> exact hvins) hcb hva hpre hpout hpa hpv
    (by split <;> exact hvouts) hov hot hownA (by rw [hoa]; exact hownB) hdec
  have hET : ExtractTransaction wm 100 block.Hash T1 bs.ScanAddressFunc =
      some { freshResult 100 T1 with
        extractData := [(keyA, ⟨[inp], [], some tx⟩)], Success := true } := by
    unfold ExtractTransaction
    simp only [hT1]
    exact hex
  have hbatch := BatchExtractTransaction_single wm bs 100 block.Hash T1 st _ hET rfl
  have hstep := scanIteration_advance wm bs st 99 P maxBlockHeight block _ hscan hmax hne
    hblk hprev (by rw [htx]; exact hbatch)
  refine ⟨_, inp, tx, _, hET, rfl, rfl, hia, hiv, hfee, ?_, hstep, rfl, ?_⟩
  · rw [hfee]
    have hparse : Decimal.parseOrZero "0.10000000" = ⟨1, -1⟩ := by decide
    rw [hparse]
    norm_num [Decimal.toRat]
  · exact notifyObservers_single_log wm 100 (keyA, ⟨[inp], [], some tx⟩) bs.Observers 0 st

/-- Witness of C9: the scenario on the node `nodeScenario`, with one observer
and the oracle that owns `"A"`. -/
theorem end_to_end_scenario_witness :
    ∃ r inp tx st',
      ExtractTransaction nodeScenario 100 (mkBlock 100 "H100" "P" ["T1"]).Hash "T1"
        scannerA.ScanAddressFunc = some r ∧
      r.Success = true ∧ r.extractData = [("ownerA", ⟨[inp], [], some tx⟩)] ∧
      inp.Address = "A" ∧ inp.Amount = "10.0" ∧
      tx.Fees = "0.10000000" ∧ (Decimal.parseOrZero tx.Fees).toRat = 1 / 10 ∧
      scanIteration nodeScenario scannerA 99 "P" (storeOf 99 "P" []) =
        some (.next 100 (mkBlock 100 "H100" "P" ["T1"]).Hash st') ∧
      st'.localBlockHead = (100, (mkBlock 100 "H100" "P" ["T1"]).Hash) ∧
      st'.extractNotified = (storeOf 99 "P" []).extractNotified ++
        (List.range' 0 scannerA.Observers.length).map
          fun i => (i, "ownerA", ⟨[inp], [], some tx⟩) :=
  end_to_end_scenario nodeScenario scannerA (storeOf 99 "P" []) "P" "A" "B" "T1" "ownerA" 200
    (mkBlock 100 "H100" "P" ["T1"]) txT1 txT0 (mkVin "T0" 0 0)
    (mkVout 0 "A" "10.0" "pubkeyhash") (mkVout 0 "B" "9.9" "pubkeyhash")
    rfl rfl (by decide) (by decide) rfl rfl (by decide) rfl rfl rfl (by decide) (by decide)
    rfl rfl rfl rfl rfl (by decide) (by decide) (by decide) rfl

/-! ## Extraction pipeline: invariant, progress and termination -/

namespace Pipeline

theorem inv_init (N : Nat) (hN : 0 < N) : Inv N init := by
  refine ⟨Nat.zero_le _, ?_, ?_, rfl, rfl, ?_, ?_⟩
  · simp [init]
  · simp [init]
  · have : ¬ (0 = N) := by omega
    simp [init, this]
  · intro h; simp [init] at h

theorem results_length {N : Nat} {s : State} (h : Inv N s) :
    s.invoked.length =
      s.ready.length + (s.processed.length + (s.inHand.toList.length + s.values.length)) := by
  have := h.results.length_eq
  simpa using this

theorem dispatched_length {N : Nat} {s : State} (h : Inv N s) :
    s.running.length + s.invoked.length = s.next := by
  have := h.dispatched.length_eq
  simpa using this

theorem inv_step (N : Nat) (a : Action) (s s1 : State) (h : Inv N s)
    (hs : step N a s = some s1) : Inv N s1 := by
  have hlen := results_length h
  have hdis := dispatched_length h
  have hnext := h.next_le
  cases a with
  | dispatch =>
    simp only [step] at hs
    split at hs
    · rename_i hc
      injection hs with hs
      subst hs
      refine ⟨by simp only []; omega, ?_, h.results, ?_, h.done_eq, h.quit_eq, h.returned_quit⟩
      · simp only []
        rw [List.range_succ]
        have h1 : (s.running ++ [s.next] ++ s.invoked).Perm (s.running ++ s.invoked ++ [s.next]) := by
          rw [List.append_assoc, List.append_assoc]
          exact List.Perm.append_left _ List.perm_append_comm
        exact h1.trans (List.Perm.append_right _ h.dispatched)
      · simp only [List.length_append, List.length_singleton]
        have := h.tokens_eq
        omega
    · exact absurd hs (by simp)
  | invoke i =>
    simp only [step] at hs
    split at hs
    · rename_i hc
      injection hs with hs
      subst hs
      have hp : s.running.Perm (i :: s.running.erase i) := List.perm_cons_erase hc
      have hl : s.running.length = (s.running.erase i).length + 1 := by
        have := hp.length_eq
        simpa using this
      refine ⟨h.next_le, ?_, ?_, ?_, h.done_eq, h.quit_eq, h.returned_quit⟩
      · simp only []
        have h1 : (s.running.erase i ++ (s.invoked ++ [i])).Perm
            (i :: s.running.erase i ++ s.invoked) := by
          rw [← List.append_assoc]
          exact List.perm_append_comm.trans (by simp)
        exact h1.trans ((List.Perm.append_right _ hp.symm).trans h.dispatched)
      · simp only []
        have hr := h.results
        rw [List.perm_iff_count] at hr ⊢
        intro a
        have := hr a
        simp only [List.count_append] at this ⊢
        omega
      · simp only [List.length_append, List.length_singleton]
        have := h.tokens_eq
        omega
    · exact absurd hs (by simp)
  | produce i =>
    simp only [step] at hs
    split at hs
    · rename_i hc
      injection hs with hs
      subst hs
      have hp : s.ready.Perm (i :: s.ready.erase i) := List.perm_cons_erase hc.1
      have hl : s.ready.length = (s.ready.erase i).length + 1 := by
        have := hp.length_eq
        simpa using this
      refine ⟨h.next_le, h.dispatched, ?_, ?_, h.done_eq, h.quit_eq, h.returned_quit⟩
      · simp only []
        refine h.results.trans ?_
        refine (List.Perm.append_right _ hp).trans ?_
        have h2 : (i :: s.ready.erase i ++ (s.processed ++ (s.inHand.toList ++ s.values))).Perm
            (s.ready.erase i ++ (s.processed ++ (s.inHand.toList ++ s.values)) ++ [i]) := by
          rw [List.cons_append]
          exact (List.perm_append_singleton i _).symm
        refine h2.trans ?_
        simp only [List.append_assoc]
        exact List.Perm.refl _
      · simp only [List.length_append, List.length_singleton]
        have := h.tokens_eq
        omega
    · exact absurd hs (by simp)
  | release i =>
    simp only [step] at hs
    split at hs
    · rename_i hc
      injection hs with hs
      subst hs
      have hp : s.holding.Perm (i :: s.holding.erase i) := List.perm_cons_erase hc
      have hl : s.holding.length = (s.holding.erase i).length + 1 := by
        have := hp.length_eq
        simpa using this
      refine ⟨h.next_le, h.dispatched, h.results, ?_, h.done_eq, h.quit_eq, h.returned_quit⟩
      simp only []
      have := h.tokens_eq
      omega
    · exact absurd hs (by simp)
  | handover =>
    simp only [step] at hs
    split at hs
    · rename_i hc
      split at hs
      · exact absurd hs (by simp)
      · rename_i v rest hv
        injection hs with hs
        subst hs
        refine ⟨h.next_le, h.dispatched, ?_, h.tokens_eq, h.done_eq, h.quit_eq, h.returned_quit⟩
        simp only []
        have := h.results
        rw [hc.2, hv] at this
        simpa using this
    · exact absurd hs (by simp)
  | process =>
    simp only [step] at hs
    split at hs
    · exact absurd hs (by simp)
    · rename_i v hv
      injection hs with hs
      subst hs
      have hres : s.invoked.Perm (s.ready ++ (s.processed ++ [v] ++ ([] ++ s.values))) := by
        have := h.results
        rw [hv] at this
        simpa using this
      have hle : s.processed.length + 1 ≤ N := by
        rw [hv] at hlen
        simp only [Option.toList_some, List.length_singleton] at hlen
        omega
      refine ⟨h.next_le, h.dispatched, hres, h.tokens_eq, ?_, ?_, ?_⟩
      · simp only [List.length_append, List.length_singleton]
        rw [h.done_eq]
      · simp only [List.length_append, List.length_singleton]
        rw [h.done_eq, h.quit_eq]
        have hne : ¬ s.processed.length = N := by omega
        by_cases hN : s.processed.length + 1 = N
        · simp [hN, hne]
        · simp [hN, hne]
      · intro hr
        have h1 := h.returned_quit hr
        have h2 := h.quit_eq
        rw [h1] at h2
        have h3 : s.processed.length = N := by
          by_contra hcon
          simp [hcon] at h2
        omega
  | quit =>
    simp only [step] at hs
    split at hs
    · rename_i hc
      injection hs with hs
      subst hs
      refine ⟨h.next_le, h.dispatched, h.results, h.tokens_eq, h.done_eq, h.quit_eq, ?_⟩
      intro _
      have h2 := h.quit_eq
      have h3 := hc.2
      simp only [] at h2 ⊢
      split at h2 <;> omega
    · exact absurd hs (by simp)

theorem inv_run (N : Nat) (acts : List Action) (s0 s : State) (h0 : Inv N s0)
    (hrun : run N acts s0 = some s) : Inv N s := by
  induction acts generalizing s0 with
  | nil =>
    simp only [run] at hrun
    injection hrun with hrun
    rw [← hrun]; exact h0
  | cons a rest ih =>
    simp only [run] at hrun
    split at hrun
    · exact absurd hrun (by simp)
    · rename_i s1 hs1
      exact ih s1 (inv_step N a s0 s1 h0 hs1) hrun


theorem progress (N : Nat) (s : State) (h : Inv N s) (hr : s.returned = false) :
    ∃ a s1, step N a s = some s1 := by
  by_cases hq : s.quitCloses > 0
  · exact ⟨.quit, _, by simp only [step, hr, hq, and_self, if_true]; rfl⟩
  · have hlen := results_length h
    have hdis := dispatched_length h
    have hne : ¬ s.processed.length = N := by
      intro hc
      have := h.quit_eq
      rw [if_pos hc] at this
      omega
    cases hin : s.inHand with
    | some v => exact ⟨.process, _, by simp only [step, hin]; rfl⟩
    | none =>
      cases hv : s.values with
      | cons v rest =>
        exact ⟨.handover, _, by simp only [step, hr, hin, hv, and_self, if_true]; rfl⟩
      | nil =>
        cases hre : s.ready with
        | cons i rest =>
          exact ⟨.produce i, _, by
            simp only [step, hre, hr, List.mem_cons, true_or, and_self, if_true]; rfl⟩
        | nil =>
          cases hru : s.running with
          | cons i rest =>
            exact ⟨.invoke i, _, by simp only [step, hru, List.mem_cons, true_or, if_true]; rfl⟩
          | nil =>
            cases hho : s.holding with
            | cons i rest =>
              exact ⟨.release i, _, by simp only [step, hho, List.mem_cons, true_or, if_true]; rfl⟩
            | nil =>
              have ht := h.tokens_eq
              have hnext := h.next_le
              rw [hin, hv, hre] at hlen
              rw [hru] at hdis
              rw [hru, hre, hho] at ht
              simp only [List.length_nil, Option.toList_none, zero_add, add_zero] at hlen hdis ht
              have hlt : s.next < N := by omega
              have htok : s.tokens < maxExtractingSize := by rw [ht]; decide
              exact ⟨.dispatch, _, by simp only [step, hlt, htok, and_self, if_true]; rfl⟩

theorem stepsLeft_decreases (N : Nat) (a : Action) (s s1 : State)
    (hs : step N a s = some s1) : stepsLeft N s1 < stepsLeft N s := by
  cases a with
  | dispatch =>
    simp only [step] at hs
    split at hs
    · rename_i hc
      injection hs with hs
      subst hs
      simp only [stepsLeft, List.length_append, List.length_singleton]
      omega
    · exact absurd hs (by simp)
  | invoke i =>
    simp only [step] at hs
    split at hs
    · rename_i hc
      injection hs with hs
      subst hs
      have hl := List.length_erase_of_mem hc
      have hpos : 0 < s.running.length := List.length_pos_of_mem hc
      simp only [stepsLeft, List.length_append, List.length_singleton, hl]
      omega
    · exact absurd hs (by simp)
  | produce i =>
    simp only [step] at hs
    split at hs
    · rename_i hc
      injection hs with hs
      subst hs
      have hl := List.length_erase_of_mem hc.1
      have hpos : 0 < s.ready.length := List.length_pos_of_mem hc.1
      simp only [stepsLeft, List.length_append, List.length_singleton, hl]
      omega
    · exact absurd hs (by simp)
  | release i =>
    simp only [step] at hs
    split at hs
    · rename_i hc
      injection hs with hs
      subst hs
      have hl := List.length_erase_of_mem hc
      have hpos : 0 < s.holding.length := List.length_pos_of_mem hc
      simp only [stepsLeft, hl]
      omega
    · exact absurd hs (by simp)
  | handover =>
    simp only [step] at hs
    split at hs
    · rename_i hc
      split at hs
      · exact absurd hs (by simp)
      · rename_i v rest hv
        injection hs with hs
        subst hs
        simp only [stepsLeft, hc.2, hv, List.length_cons, Option.toList_some,
          Option.toList_none, List.length_nil, List.length_singleton]
        omega
    · exact absurd hs (by simp)
  | process =>
    simp only [step] at hs
    split at hs
    · exact absurd hs (by simp)
    · rename_i v hv
      injection hs with hs
      subst hs
      simp only [stepsLeft, hv, Option.toList_some, Option.toList_none, List.length_nil,
        List.length_singleton]
      omega
  | quit =>
    simp only [step] at hs
    split at hs
    · rename_i hc
      injection hs with hs
      subst hs
      simp only [stepsLeft, hc.1]
      simp
    · exact absurd hs (by simp)

/-- C10: for a batch of `N ≥ 1` ids, in every state `s` that the pipeline
reaches from the start of `BatchExtractTransaction`:
`ExtractTransaction` has been called at most once per id, and only for ids of
the batch; `close(quit)` has run at most once, and it has run exactly when
`saveWork` has finished `N` results, not before; when it has run,
`ExtractTransaction` has been called exactly once for each of the `N` ids and
the results finished are those of the `N` ids; `extractRuntime` returns only
after it. The signal does fire: while `extractRuntime` has not returned some
action is enabled, and every action decreases `stepsLeft`, which is `6 * N + 1`
at the start. -/
theorem batch_completion_exact (N : Nat) (hN : 0 < N) (acts : List Action) (s : State)
    (hrun : run N acts init = some s) :
    s.invoked.Nodup ∧ (∀ i ∈ s.invoked, i < N) ∧
    s.quitCloses ≤ 1 ∧ (s.quitCloses = 1 ↔ s.processed.length = N) ∧
    (s.quitCloses = 1 →
      s.invoked.Perm (List.range N) ∧ s.processed.Perm (List.range N)) ∧
    (s.returned = true → s.quitCloses = 1) ∧
    (s.returned = false → ∃ a s1, step N a s = some s1) ∧
    (∀ a s1, step N a s = some s1 → stepsLeft N s1 < stepsLeft N s) ∧
    stepsLeft N init = 6 * N + 1 := by
  have h := inv_run N acts init s (inv_init N hN) hrun
  have hlen := results_length h
  have hdis := dispatched_length h
  have hnext := h.next_le
  have hnd : (s.running ++ s.invoked).Nodup := h.dispatched.nodup_iff.mpr (List.nodup_range _)
  have hquit : s.quitCloses = 1 ↔ s.processed.length = N := by
    rw [h.quit_eq]
    constructor
    · intro hc
      by_contra hcon
      rw [if_neg hcon] at hc
      omega
    · intro hc
      rw [if_pos hc]
  refine ⟨(List.nodup_append.mp hnd).2.1, ?_, ?_, hquit, ?_, h.returned_quit,
    progress N s h, fun a s1 => stepsLeft_decreases N a s s1, ?_⟩
  · intro i hi
    have hmem : i ∈ List.range s.next :=
      h.dispatched.subset (List.mem_append_right _ hi)
    have := List.mem_range.mp hmem
    omega
  · rw [h.quit_eq]
    split <;> omega
  · intro hc
    have hp := hquit.mp hc
    have hrun0 : s.running = [] := List.length_eq_zero.mp (by omega)
    have hnextN : s.next = N := by omega
    have hready : s.ready = [] := List.length_eq_zero.mp (by omega)
    have hhand : s.inHand.toList = [] := List.length_eq_zero.mp (by omega)
    have hvals : s.values = [] := List.length_eq_zero.mp (by omega)
    have h1 : s.invoked.Perm (List.range N) := by
      have := h.dispatched
      rw [hrun0, hnextN] at this
      simpa using this
    have h2 : s.invoked.Perm s.processed := by
      have := h.results
      rw [hready, hhand, hvals] at this
      simpa using this
    exact ⟨h1, h2.symm.trans h1⟩
  · simp [stepsLeft, init]

/-- Witness of C10: a batch of two ids whose second result arrives first. -/
theorem batch_completion_exact_witness :
    run 2 courseOfTwo init = some finalOfTwo ∧
    (finalOfTwo.invoked.Nodup ∧ (∀ i ∈ finalOfTwo.invoked, i < 2) ∧
    finalOfTwo.quitCloses ≤ 1 ∧ (finalOfTwo.quitCloses = 1 ↔ finalOfTwo.processed.length = 2) ∧
    (finalOfTwo.quitCloses = 1 →
      finalOfTwo.invoked.Perm (List.range 2) ∧ finalOfTwo.processed.Perm (List.range 2)) ∧
    (finalOfTwo.returned = true → finalOfTwo.quitCloses = 1) ∧
    (finalOfTwo.returned = false → ∃ a s1, step 2 a finalOfTwo = some s1) ∧
    (∀ a s1, step 2 a finalOfTwo = some s1 → stepsLeft 2 s1 < stepsLeft 2 finalOfTwo) ∧
    stepsLeft 2 init = 6 * 2 + 1) :=
  ⟨by decide, batch_completion_exact 2 (by decide) courseOfTwo finalOfTwo (by decide)⟩

end Pipeline

/-! ## Further claims on the transaction extractor -/

/-- C19: when the node cannot return the transaction `txid`,
`ExtractTransaction` returns the result with `Success = false`, an empty record
map, `TxID = txid` and `BlockHeight` the given height; the result is the same
for every oracle and for every node that fails on `txid`, whatever it answers
for other transactions: neither the oracle nor a previous transaction is
consulted. -/
theorem extract_fetch_failure (wm wm' : WalletManager) (blockHeight : Nat)
    (blockHash txid : String) (scan scan' : BlockScanAddressFunc)
    (h : wm.GetTransaction txid = none) (h' : wm'.GetTransaction txid = none) :
    ExtractTransaction wm blockHeight blockHash txid scan =
        some { extractData := [], TxID := txid, BlockHash := "", BlockHeight := blockHeight,
               BlockTime := 0, Success := false } ∧
      ExtractTransaction wm' blockHeight blockHash txid scan' =
        ExtractTransaction wm blockHeight blockHash txid scan := by
  simp only [ExtractTransaction, h, h', and_self]

/-- Witness of C19: `T9` is returned neither by `nodeOneMissing` nor by
`nodeNoBlocks`. -/
theorem extract_fetch_failure_witness :
    ExtractTransaction nodeOneMissing 100 "H100" "T9" ownsA =
        some { extractData := [], TxID := "T9", BlockHash := "", BlockHeight := 100,
               BlockTime := 0, Success := false } ∧
      ExtractTransaction nodeNoBlocks 100 "H100" "T9" (fun _ => ("", false)) =
        ExtractTransaction nodeOneMissing 100 "H100" "T9" ownsA :=
  extract_fetch_failure nodeOneMissing nodeNoBlocks 100 "H100" "T9" ownsA
    (fun _ => ("", false)) (by decide) (by decide)

/-- C15: the `ID` of `NewUnscanRecord(height, txID, reason)` does not depend on
the reason; saving the records built with two reasons into a store keyed by
`ID` leaves exactly one record with that `ID`, whatever the store held, and
exactly one task for `(height, txID)` when the store was empty. -/
theorem unscan_record_identity (sha256Hex : String → String) (height : Nat)
    (txID r1 r2 : String) (store : List Models.UnscanRecord) :
    (Models.NewUnscanRecord sha256Hex height txID r1).ID =
        (Models.NewUnscanRecord sha256Hex height txID r2).ID ∧
      ((Models.save (Models.save store (Models.NewUnscanRecord sha256Hex height txID r1))
          (Models.NewUnscanRecord sha256Hex height txID r2)).filter
        fun q => q.ID = (Models.NewUnscanRecord sha256Hex height txID r1).ID).length = 1 ∧
      Models.save (Models.save [] (Models.NewUnscanRecord sha256Hex height txID r1))
          (Models.NewUnscanRecord sha256Hex height txID r2) =
        [Models.NewUnscanRecord sha256Hex height txID r2] ∧
      ((Models.save (Models.save [] (Models.NewUnscanRecord sha256Hex height txID r1))
          (Models.NewUnscanRecord sha256Hex height txID r2)).filter
        fun q => q.BlockHeight = height ∧ q.TxID = txID).length = 1 := by
  refine ⟨rfl, ?_, ?_, ?_⟩
  · simp [Models.save, Models.NewUnscanRecord, List.filter_append, List.filter_filter]
  · simp [Models.save, Models.NewUnscanRecord]
  · simp [Models.save, Models.NewUnscanRecord]

/-! ## Claims on the start of `ScanBlockTask` -/

/-- C17, refuted as stated: the cursor is empty and `getblockcount` answers
50; the loop is entered with the height 48, not with 50 - 1. -/
theorem bootstrap_not_count_minus_one :
    (GetLocalBlockHead (storeOf 0 "" [])).1 = 0 ∧ nodeTip.GetBlockHeight = some 50 ∧
      bootstrap nodeTip (storeOf 0 "" []) = some (48, "G48") ∧ (48 : Nat) ≠ 50 - 1 := by
  decide

/-- C17, amended: when the local cursor is empty (stored height 0),
`getblockcount` answers `count` with `2 ≤ count < 2 ^ 32`, and the node returns
for the height `count - 1` a block of that height, `ScanBlockTask` enters its
loop with the cursor `(count - 2, headBlock.Previousblockhash)`: one below the
head block, which is the block at `count - 1`. -/
theorem bootstrap_below_head_block (wm : WalletManager) (st : ScannerState) (count : Nat)
    (headBlock : Block)
    (hempty : (GetLocalBlockHead st).1 = 0) (hcount : wm.GetBlockHeight = some count)
    (h1 : 2 ≤ count) (h2 : count < 2 ^ 32)
    (hblk : wm.GetBlockByHeight (count - 1) = some headBlock)
    (hh : headBlock.Height = count - 1) :
    bootstrap wm st = some (count - 2, headBlock.Previousblockhash) := by
  have e1 : (count % 2 ^ 32 + 2 ^ 32 - 1) % 2 ^ 32 = count - 1 := by omega
  have e2 : ((count - 1 + 2 ^ 64 - 1) % 2 ^ 64) % 2 ^ 32 = count - 2 := by omega
  unfold bootstrap
  simp only [hempty, if_true, GetGlobalHeadBlock, GetGlobalMaxBlockHeight, hcount, e1, hblk, hh,
    e2]

/-- Witness of the amended C17: `getblockcount` answers 50 and block 49
follows `"G48"`. -/
theorem bootstrap_below_head_block_witness :
    bootstrap nodeTip (storeOf 0 "" []) =
      some (50 - 2, (mkBlock 49 "G49" "G48" []).Previousblockhash) :=
  bootstrap_below_head_block nodeTip (storeOf 0 "" []) 50 (mkBlock 49 "G49" "G48" [])
    (by decide) (by decide) (by decide) (by decide) (by decide) (by decide)

/-- C18, code at the failing inputs: with an empty cursor and a node that
returns no block for the head height, `ScanBlockTask` panics before its loop,
whatever the number of passes allowed; and with the cursor `(99, "P")`, one
transaction of block 100 whose input refers to the output index `2 ^ 63`
makes the first pass panic. -/
theorem scanBlockTask_panics :
    (∀ fuel, ScanBlockTask nodeNoBlocks plainScanner fuel (storeOf 0 "" []) = .panic) ∧
      GetGlobalHeadBlock nodeNoBlocks = none ∧
      (∀ fuel, ScanBlockTask nodeBadIndex scannerA (fuel + 1) (storeOf 99 "P" []) = .panic) := by
  refine ⟨fun fuel => rfl, by decide, fun fuel => ?_⟩
  have h : scanIteration nodeBadIndex scannerA 99 "P" (storeOf 99 "P" []) = none := by decide
  have hb : bootstrap nodeBadIndex (storeOf 99 "P" []) = some (99, "P") := by decide
  simp only [ScanBlockTask, hb, scanLoop, h]

/-! ## The aggregator and the unscanned records -/

theorem SaveUnscanRecord_mem (st : ScannerState) (r q : UnscanRecord)
    (h : q ∈ st.unscanRecords) : q ∈ (SaveUnscanRecord st r).unscanRecords := by
  unfold SaveUnscanRecord
  split
  · exact h
  · exact List.mem_append_left _ h

theorem SaveUnscanRecord_has (st : ScannerState) (r : UnscanRecord) :
    ∃ q ∈ (SaveUnscanRecord st r).unscanRecords,
      q.BlockHeight = r.BlockHeight ∧ q.TxID = r.TxID := by
  unfold SaveUnscanRecord
  split
  · rename_i hany
    obtain ⟨q, hq, hp⟩ := List.any_eq_true.mp hany
    exact ⟨q, hq, by simpa using hp⟩
  · exact ⟨r, List.mem_append_right _ (List.mem_singleton_self _), rfl, rfl⟩

theorem notifyOne_mem (wm : WalletManager) (height oi : Nat) (o : Observer)
    (st : ScannerState) (e : String × TxExtractData) (q : UnscanRecord)
    (h : q ∈ st.unscanRecords) : q ∈ (notifyOne wm height oi o st e).unscanRecords := by
  unfold notifyOne
  simp only []
  split
  · exact SaveUnscanRecord_mem _ _ q h
  · exact h

theorem notifyFold_mem (wm : WalletManager) (height oi : Nat) (o : Observer)
    (data : List (String × TxExtractData)) (st : ScannerState) (q : UnscanRecord)
    (h : q ∈ st.unscanRecords) :
    q ∈ (data.foldl (notifyOne wm height oi o) st).unscanRecords := by
  induction data generalizing st with
  | nil => exact h
  | cons e rest ih =>
    simp only [List.foldl_cons]
    exact ih _ (notifyOne_mem wm height oi o st e q h)

theorem notifyObservers_mem (wm : WalletManager) (height : Nat)
    (data : List (String × TxExtractData)) (os : List Observer) (oi : Nat)
    (st : ScannerState) (q : UnscanRecord) (h : q ∈ st.unscanRecords) :
    q ∈ (notifyObservers wm height data oi os st).unscanRecords := by
  induction os generalizing oi st with
  | nil => exact h
  | cons o rest ih =>
    unfold notifyObservers
    exact ih _ _ (notifyFold_mem wm height oi o data st q h)

theorem notifyOne_fails (wm : WalletManager) (height oi : Nat) (o : Observer)
    (st : ScannerState) (e : String × TxExtractData)
    (hfail : o.BlockExtractDataNotify e.1 e.2 = true) :
    HasBlockTask (notifyOne wm height oi o st e) height := by
  unfold notifyOne
  simp only [hfail, if_true]
  exact SaveUnscanRecord_has _ _

theorem notifyFold_fails (wm : WalletManager) (height oi : Nat) (o : Observer)
    (data : List (String × TxExtractData)) (st : ScannerState) (e : String × TxExtractData)
    (he : e ∈ data) (hfail : o.BlockExtractDataNotify e.1 e.2 = true) :
    HasBlockTask (data.foldl (notifyOne wm height oi o) st) height := by
  induction data generalizing st with
  | nil => exact absurd he (by simp)
  | cons d rest ih =>
    simp only [List.foldl_cons]
    rcases List.mem_cons.mp he with h | h
    · subst h
      obtain ⟨q, hq, hp⟩ := notifyOne_fails wm height oi o st e hfail
      exact ⟨q, notifyFold_mem wm height oi o rest _ q hq, hp⟩
    · exact ih _ h

theorem notifyObservers_fails (wm : WalletManager) (height : Nat)
    (data : List (String × TxExtractData)) (os : List Observer) (oi : Nat)
    (st : ScannerState) (o : Observer) (e : String × TxExtractData) (ho : o ∈ os)
    (he : e ∈ data) (hfail : o.BlockExtractDataNotify e.1 e.2 = true) :
    HasBlockTask (notifyObservers wm height data oi os st) height := by
  induction os generalizing oi st with
  | nil => exact absurd ho (by simp)
  | cons o1 rest ih =>
    unfold notifyObservers
    rcases List.mem_cons.mp ho with h | h
    · subst h
      obtain ⟨q, hq, hp⟩ := notifyFold_fails wm height oi o data st e he hfail
      exact ⟨q, notifyObservers_mem wm height data rest _ _ q hq, hp⟩
    · exact ih _ _ h

theorem notifyFold_log (wm : WalletManager) (height oi : Nat) (o : Observer)
    (data : List (String × TxExtractData)) (st : ScannerState) :
    (data.foldl (notifyOne wm height oi o) st).extractNotified =
      st.extractNotified ++ data.map fun e => (oi, e.1, e.2) := by
  induction data generalizing st with
  | nil => simp
  | cons e rest ih =>
    simp only [List.foldl_cons, List.map_cons]
    rw [ih, notifyOne_log, List.append_assoc, List.singleton_append]

theorem notifyObservers_log (wm : WalletManager) (height : Nat)
    (data : List (String × TxExtractData)) (os : List Observer) (oi : Nat)
    (st : ScannerState) :
    (notifyObservers wm height data oi os st).extractNotified =
      st.extractNotified ++ deliveries data oi os.length := by
  induction os generalizing oi st with
  | nil => simp [notifyObservers, deliveries]
  | cons o rest ih =>
    unfold notifyObservers
    rw [ih, notifyFold_log]
    simp only [deliveries, List.length_cons, List.range'_succ, List.flatMap_cons,
      List.append_assoc]

theorem saveWork_mem (wm : WalletManager) (bs : VASBlockScanner) (height : Nat)
    (acc : ScannerState × Nat) (gets : ExtractResult) (q : UnscanRecord)
    (h : q ∈ acc.1.unscanRecords) :
    q ∈ (saveWork wm bs height acc gets).1.unscanRecords := by
  unfold saveWork
  split
  · exact notifyObservers_mem wm height gets.extractData bs.Observers 0 acc.1 q h
  · exact SaveUnscanRecord_mem _ _ q h

theorem saveWorkFold_mem (wm : WalletManager) (bs : VASBlockScanner) (height : Nat)
    (results : List ExtractResult) (acc : ScannerState × Nat) (q : UnscanRecord)
    (h : q ∈ acc.1.unscanRecords) :
    q ∈ (results.foldl (saveWork wm bs height) acc).1.unscanRecords := by
  induction results generalizing acc with
  | nil => exact h
  | cons r rest ih =>
    simp only [List.foldl_cons]
    exact ih _ (saveWork_mem wm bs height acc r q h)

theorem saveWorkFold_has (wm : WalletManager) (bs : VASBlockScanner) (height : Nat)
    (results : List ExtractResult) (acc : ScannerState × Nat) (gets : ExtractResult)
    (hmem : gets ∈ results) (hfail : gets.Success = false) :
    HasBlockTask (results.foldl (saveWork wm bs height) acc).1 height := by
  induction results generalizing acc with
  | nil => exact absurd hmem (by simp)
  | cons r rest ih =>
    simp only [List.foldl_cons]
    rcases List.mem_cons.mp hmem with h | h
    · subst h
      have h1 : HasBlockTask (saveWork wm bs height acc gets).1 height := by
        unfold saveWork
        rw [if_neg (by simp [hfail])]
        exact SaveUnscanRecord_has _ _
      obtain ⟨q, hq, hp⟩ := h1
      exact ⟨q, saveWorkFold_mem wm bs height rest _ q hq, hp⟩
    · exact ih _ h

theorem saveWorkFold_failed (wm : WalletManager) (bs : VASBlockScanner) (height : Nat)
    (results : List ExtractResult) (acc : ScannerState × Nat) :
    (results.foldl (saveWork wm bs height) acc).2 =
      acc.2 + results.countP (fun r => !r.Success) := by
  induction results generalizing acc with
  | nil => simp
  | cons r rest ih =>
    simp only [List.foldl_cons, List.countP_cons]
    rw [ih]
    cases hs : r.Success
    · simp only [saveWork, hs, Bool.false_eq_true, if_false, Bool.not_false, if_true]
      omega
    · simp [saveWork, newExtractDataNotifyE, hs]

theorem saveWorkFold_log (wm : WalletManager) (bs : VASBlockScanner) (height : Nat)
    (results : List ExtractResult) (acc : ScannerState × Nat) :
    (results.foldl (saveWork wm bs height) acc).1.extractNotified =
      acc.1.extractNotified ++ batchDeliveries bs results := by
  induction results generalizing acc with
  | nil => simp [batchDeliveries]
  | cons r rest ih =>
    simp only [List.foldl_cons]
    rw [ih]
    cases hs : r.Success
    · simp [saveWork, hs, batchDeliveries, SaveUnscanRecord_extractNotified]
    · simp [saveWork, newExtractDataNotifyE, newExtractDataNotify, hs, batchDeliveries,
        notifyObservers_log]

theorem fixedNode_indices (head : Nat) (blocks : List Block) (txs : List Transaction)
    (h : ∀ t ∈ txs, ∀ v ∈ t.Vins, v.Vout < 2 ^ 63) :
    IndicesInRange (fixedNode head blocks txs) := by
  intro txid trx hg v hv
  exact h trx (List.mem_of_find?_eq_some hg) v hv

/-- C11, refuted as stated: in the batch `["T9", "T1"]` at height 100 the
extraction of `T9` fails; the aggregator saves one task, whose height is 100
and whose transaction id is empty, not `"T9"`. -/
theorem failed_extraction_task_without_txid :
    (ExtractTransaction nodeOneMissing 100 "H100" "T9" ownsA).map
        (fun r => (r.TxID, r.Success)) = some ("T9", false) ∧
      (BatchExtractTransaction nodeOneMissing scannerA 100 "H100" ["T9", "T1"]
          (storeOf 99 "P" [])).map (fun r => (r.1.unscanRecords, r.2)) =
        some ([⟨100, "", "", "VAS"⟩], true) := by
  decide

/-- C11, amended: for every batch whose extractions return the results
`results`, and for every order `arrived` in which these results reach the
aggregator, a result with `Success = false` leaves stored, when the
aggregator has handled the results, a task whose height is the batch height
and whose transaction id is empty; the counter of failures is then positive,
with which `BatchExtractTransaction` returns an error; and the other results
are still processed: the calls made to the observers are, up to their order,
one call for every observer and every record of every result with
`Success = true`. When the results arrive in the order of the ids, the state
reached is the one in which `BatchExtractTransaction` returns its error. -/
theorem failed_extraction_saves_block_task (wm : WalletManager) (bs : VASBlockScanner)
    (blockHeight : Nat) (blockHash : String) (txs : List String) (st : ScannerState)
    (results arrived : List ExtractResult) (gets : ExtractResult)
    (hall : extractAll wm bs blockHeight blockHash txs = some results)
    (harr : arrived.Perm results)
    (hmem : gets ∈ results) (hfail : gets.Success = false) :
    (∃ q ∈ (saveWorkLoop wm bs blockHeight arrived st).1.unscanRecords,
        q.BlockHeight = blockHeight ∧ q.TxID = "") ∧
      0 < (saveWorkLoop wm bs blockHeight arrived st).2 ∧
      ((saveWorkLoop wm bs blockHeight arrived st).1.extractNotified).Perm
        (st.extractNotified ++ batchDeliveries bs results) ∧
      (arrived = results →
        BatchExtractTransaction wm bs blockHeight blockHash txs st =
          some ((saveWorkLoop wm bs blockHeight arrived st).1, true)) := by
  have hmem' : gets ∈ arrived := harr.mem_iff.mpr hmem
  have hcount : 0 < arrived.countP (fun r => !r.Success) :=
    List.countP_pos_iff.mpr ⟨gets, hmem', by simp [hfail]⟩
  have hfailed : (saveWorkLoop wm bs blockHeight arrived st).2 =
      0 + arrived.countP (fun r => !r.Success) :=
    saveWorkFold_failed wm bs blockHeight arrived (st, 0)
  have hlog : (saveWorkLoop wm bs blockHeight arrived st).1.extractNotified =
      st.extractNotified ++ batchDeliveries bs arrived :=
    saveWorkFold_log wm bs blockHeight arrived (st, 0)
  refine ⟨saveWorkFold_has wm bs blockHeight arrived (st, 0) gets hmem' hfail, by omega,
    ?_, ?_⟩
  · rw [hlog]
    exact List.Perm.append_left _ (List.Perm.flatMap_right _ harr)
  intro he
  subst he
  have hlen : ¬ txs.length = 0 := by
    intro h
    rw [List.length_eq_zero.mp h] at hall
    have := Option.some.inj hall
    subst this
    exact absurd hmem (by simp)
  unfold BatchExtractTransaction
  rw [if_neg hlen]
  simp only [hall]
  have : decide ((saveWorkLoop wm bs blockHeight arrived st).2 > 0) = true := by
    simp only [decide_eq_true_eq]; omega
  unfold saveWorkLoop at this ⊢
  rw [this]

/-- Witness of the amended C11: the batch `["T9", "T1"]`, in which `T9` fails,
with the result of `T1` reaching the aggregator before the result of `T9`;
the record of `T1` is delivered. -/
theorem failed_extraction_saves_block_task_witness :
    ∃ results gets, extractAll nodeOneMissing scannerA 100 "H100" ["T9", "T1"] = some results ∧
      results.map (fun r => (r.TxID, r.Success)) = [("T9", false), ("T1", true)] ∧
      gets ∈ results ∧ gets.TxID = "T9" ∧
      ((∃ q ∈ (saveWorkLoop nodeOneMissing scannerA 100 results.reverse
            (storeOf 99 "P" [])).1.unscanRecords, q.BlockHeight = 100 ∧ q.TxID = "") ∧
        0 < (saveWorkLoop nodeOneMissing scannerA 100 results.reverse (storeOf 99 "P" [])).2 ∧
        ((saveWorkLoop nodeOneMissing scannerA 100 results.reverse
            (storeOf 99 "P" [])).1.extractNotified).Perm
          ((storeOf 99 "P" []).extractNotified ++ batchDeliveries scannerA results) ∧
        (results.reverse = results →
          BatchExtractTransaction nodeOneMissing scannerA 100 "H100" ["T9", "T1"]
              (storeOf 99 "P" []) =
            some ((saveWorkLoop nodeOneMissing scannerA 100 results.reverse
              (storeOf 99 "P" [])).1, true))) := by
  obtain ⟨results, hall⟩ := extractAll_isSome nodeOneMissing
    (fixedNode_indices 200 _ _ (by decide))
    scannerA 100 "H100" ["T9", "T1"]
  have hfirst : (extractAll nodeOneMissing scannerA 100 "H100" ["T9", "T1"]).map
      (fun rs => rs.map fun r => (r.TxID, r.Success)) = some [("T9", false), ("T1", true)] := by
    decide
  rw [hall, Option.map_some'] at hfirst
  have hmap := Option.some.inj hfirst
  match results, hmap, hall with
  | [], hmap, _ => exact absurd hmap (by simp)
  | gets :: rest, hmap, hall =>
    have hm := hmap
    simp only [List.map_cons, List.cons.injEq, Prod.mk.injEq] at hm
    exact ⟨gets :: rest, gets, hall, hmap, List.mem_cons_self _ _, hm.1.1,
      failed_extraction_saves_block_task nodeOneMissing scannerA 100 "H100" ["T9", "T1"]
        (storeOf 99 "P" []) (gets :: rest) (gets :: rest).reverse gets hall
        (List.reverse_perm _) (List.mem_cons_self _ _) hm.1.2⟩

/-- C12, refuted as stated: the only observer returns an error for the record
of `T1`; `BatchExtractTransaction` returns no error, and the task saved has the
height 100 and an empty transaction id, not `"T1"`. -/
theorem notify_failure_task_without_txid :
    (BatchExtractTransaction nodeScenario scannerFailing 100 "H100" ["T1"]
        (storeOf 99 "P" [])).map
      (fun r => (r.1.unscanRecords, r.2, r.1.extractNotified.map fun n => n.2.1)) =
      some ([⟨100, "", "ExtractData Notify failed.", "VAS"⟩], false, ["ownerA"]) := by
  decide

/-- C12, amended: whenever a call `BlockExtractDataNotify` of an observer
returns an error, `newExtractDataNotify` returns nil and a task with the batch
height and an empty transaction id is stored when it returns. -/
theorem notify_failure_saves_block_task (wm : WalletManager) (bs : VASBlockScanner)
    (height : Nat) (data : List (String × TxExtractData)) (st : ScannerState) (o : Observer)
    (e : String × TxExtractData) (ho : o ∈ bs.Observers) (he : e ∈ data)
    (hfail : o.BlockExtractDataNotify e.1 e.2 = true) :
    (newExtractDataNotifyE wm bs height data st).2 = false ∧
      ∃ q ∈ (newExtractDataNotifyE wm bs height data st).1.unscanRecords,
        q.BlockHeight = height ∧ q.TxID = "" :=
  ⟨rfl, notifyObservers_fails wm height data bs.Observers 0 st o e ho he hfail⟩

/-- Witness of the amended C12: the observer of `scannerFailing` on a record
keyed by `"ownerA"`. -/
theorem notify_failure_saves_block_task_witness :
    (newExtractDataNotifyE nodeScenario scannerFailing 100 [("ownerA", NewBlockExtractData)]
        (storeOf 99 "P" [])).2 = false ∧
      ∃ q ∈ (newExtractDataNotifyE nodeScenario scannerFailing 100
          [("ownerA", NewBlockExtractData)] (storeOf 99 "P" [])).1.unscanRecords,
        q.BlockHeight = 100 ∧ q.TxID = "" :=
  notify_failure_saves_block_task nodeScenario scannerFailing 100
    [("ownerA", NewBlockExtractData)] (storeOf 99 "P" []) ⟨fun _ _ => true⟩
    ("ownerA", NewBlockExtractData) (List.mem_singleton_self _) (List.mem_singleton_self _) rfl

/-! ## Claims on the retry of failed records -/

/-- The pass of `RescanFailedRecord` for a height that is not 0 and for which
the node returns a block: the pipeline is run on all the transaction ids of the
block, with an empty block hash, and the tasks of the height are deleted when
it returns no error. -/
theorem rescanHeight_whole_block (wm : WalletManager) (bs : VASBlockScanner)
    (st : ScannerState) (height : Nat) (block : Block) (h0 : height ≠ 0)
    (hblk : wm.GetBlockByHeight (height % 2 ^ 32) = some block) :
    rescanHeight wm bs st height =
      (BatchExtractTransaction wm bs height "" block.tx st).map fun r =>
        if r.2 then r.1 else DeleteUnscanRecord r.1 (height % 2 ^ 32) := by
  unfold rescanHeight
  rw [if_neg h0]
  simp only [hblk]
  cases BatchExtractTransaction wm bs height "" block.tx st with
  | none => rfl
  | some r => cases hr : r.2 <;> simp [hr]

/-- C13, code at the failing input: a task is pending for height 100; in the
retry the extraction of `T1` succeeds and the only observer returns an error
for its record. `RescanFailedRecord` returns with no task left for height
100. -/
theorem rescan_drops_task_after_notify_failure :
    scannerFailing.Observers.map (fun o => o.BlockExtractDataNotify "ownerA" NewBlockExtractData) =
        [true] ∧
      (BatchExtractTransaction nodeScenario scannerFailing 100 "" ["T1"]
          (storeWithTasks [⟨100, "", "", "VAS"⟩])).map
        (fun r => (r.1.unscanRecords, r.2)) = some ([⟨100, "", "", "VAS"⟩], false) ∧
      (RescanFailedRecord nodeScenario scannerFailing (storeWithTasks [⟨100, "", "", "VAS"⟩])).map
        (fun st => (st.unscanRecords, st.extractNotified.map fun n => n.2.1)) =
        some ([], ["ownerA"]) := by
  decide

theorem resolveInputs_atTime (wm : WalletManager) (t : Int) (vins : List Vin) (s : Bool) :
    resolveInputs (wm.atTime t) vins s = resolveInputs wm vins s := by
  induction vins generalizing s with
  | nil => rfl
  | cons input rest ih =>
    unfold resolveInputs
    simp only [ih]
    rfl

theorem clearData_upsert (f g : TxExtractData → TxExtractData)
    (hfg : ∀ ed, (f ed).clearCreateAt = g ed.clearCreateAt) (key : String)
    (m : List (String × TxExtractData)) :
    clearData (upsert f key m) = upsert g key (clearData m) := by
  induction m with
  | nil =>
    simp only [upsert, clearData, List.map_cons, List.map_nil, hfg]
    rfl
  | cons e rest ih =>
    obtain ⟨k, ed⟩ := e
    by_cases hk : k = key
    · simp only [upsert, clearData, List.map_cons, if_pos hk, hfg]
    · simp only [upsert, clearData, List.map_cons, if_neg hk]
      congr 1

theorem clearAcc_inputStep (wm : WalletManager) (trx : Transaction) (txid : String)
    (scan : BlockScanAddressFunc) (i : Nat) (v : Vin) (acc : ExtractAcc) :
    clearAcc (extractTxInputStep wm trx txid scan i v acc) =
      extractTxInputStep (wm.atTime 0) trx txid scan i v (clearAcc acc) := by
  unfold extractTxInputStep clearAcc
  simp only []
  by_cases hown : (scan v.Addr).2 = true
  · simp only [hown, if_true]
    congr 1
    apply clearData_upsert
    intro ed
    simp [TxExtractData.clearCreateAt, TxInput.clearCreateAt, WalletManager.atTime]
  · simp only [hown, if_false]
    rfl

theorem clearAcc_inputLoop (wm : WalletManager) (trx : Transaction) (txid : String)
    (scan : BlockScanAddressFunc) (vins : List Vin) (i : Nat) (acc : ExtractAcc) :
    clearAcc (extractTxInputLoop wm trx txid scan i vins acc) =
      extractTxInputLoop (wm.atTime 0) trx txid scan i vins (clearAcc acc) := by
  induction vins generalizing i acc with
  | nil => rfl
  | cons v rest ih =>
    unfold extractTxInputLoop
    rw [ih, clearAcc_inputStep]

theorem clearAcc_outputStep (wm : WalletManager) (trx : Transaction)
    (scan : BlockScanAddressFunc) (o : Vout) (acc : ExtractAcc) :
    clearAcc (extractTxOutputStep wm trx scan o acc) =
      extractTxOutputStep (wm.atTime 0) trx scan o (clearAcc acc) := by
  unfold extractTxOutputStep
  by_cases ht : o.ScriptType = "OP_RETURN"
  · simp only [ht, if_true]
  · simp only [ht, if_false]
    unfold clearAcc
    simp only []
    by_cases hown : (scan o.Addr).2 = true
    · simp only [hown, if_true]
      congr 1
      apply clearData_upsert
      intro ed
      simp [TxExtractData.clearCreateAt, TxOutPut.clearCreateAt, WalletManager.atTime]
    · simp only [hown, if_false]
      rfl

theorem clearAcc_outputFold (wm : WalletManager) (trx : Transaction)
    (scan : BlockScanAddressFunc) (vouts : List Vout) (acc : ExtractAcc) :
    clearAcc (vouts.foldl (fun acc output => extractTxOutputStep wm trx scan output acc) acc) =
      vouts.foldl (fun acc output => extractTxOutputStep (wm.atTime 0) trx scan output acc)
        (clearAcc acc) := by
  induction vouts generalizing acc with
  | nil => rfl
  | cons o rest ih =>
    simp only [List.foldl_cons]
    rw [ih, clearAcc_outputStep]

theorem clearData_setTransaction (tx : OWTransaction) (data : List (String × TxExtractData)) :
    clearData (data.map fun e => (e.1, { e.2 with Transaction := some tx })) =
      (clearData data).map fun e => (e.1, { e.2 with Transaction := some tx }) := by
  simp only [clearData, List.map_map]
  rfl

theorem extractTransaction_atTime (wm : WalletManager) (trx : Transaction)
    (result : ExtractResult) (scan : BlockScanAddressFunc) :
    (extractTransaction wm (some trx) result scan).map ExtractResult.clearCreateAt =
      extractTransaction (wm.atTime 0) (some trx) result.clearCreateAt scan := by
  cases hres : resolveInputs wm trx.Vins true with
  | none =>
    simp only [extractTransaction, resolveInputs_atTime, hres]
    rfl
  | some p =>
    obtain ⟨vins, success⟩ := p
    cases success with
    | false =>
      simp only [extractTransaction, resolveInputs_atTime, hres]
      rfl
    | true =>
      have hres0 : resolveInputs (wm.atTime 0) trx.Vins true = some (vins, true) := by
        rw [resolveInputs_atTime]; exact hres
      have hIn : extractTxInput (wm.atTime 0) { trx with Vins := vins } result.clearCreateAt
          scan = clearAcc (extractTxInput wm { trx with Vins := vins } result scan) :=
        (clearAcc_inputLoop wm { trx with Vins := vins } result.TxID scan vins 0
          ⟨result.extractData, [], Decimal.Zero⟩).symm
      have hOut : extractTxOutput (wm.atTime 0) { trx with Vins := vins }
          (clearAcc (extractTxInput wm { trx with Vins := vins } result scan)).extractData scan =
          clearAcc (extractTxOutput wm { trx with Vins := vins }
            (extractTxInput wm { trx with Vins := vins } result scan).extractData scan) :=
        (clearAcc_outputFold wm { trx with Vins := vins } scan trx.Vouts
          ⟨(extractTxInput wm { trx with Vins := vins } result scan).extractData, [],
            Decimal.Zero⟩).symm
      rw [extractTransaction_eq wm trx result scan vins hres,
        extractTransaction_eq (wm.atTime 0) trx result.clearCreateAt scan vins hres0, hIn, hOut]
      simp only [Option.map_some', ExtractResult.clearCreateAt, clearData_setTransaction]
      rfl

theorem ExtractTransaction_atTime (wm : WalletManager) (blockHeight : Nat)
    (blockHash txid : String) (scan : BlockScanAddressFunc) :
    (ExtractTransaction wm blockHeight blockHash txid scan).map ExtractResult.clearCreateAt =
      ExtractTransaction (wm.atTime 0) blockHeight blockHash txid scan := by
  unfold ExtractTransaction
  have hg : (wm.atTime 0).GetTransaction txid = wm.GetTransaction txid := rfl
  rw [hg]
  cases wm.GetTransaction txid with
  | none => rfl
  | some trx =>
    simp only []
    rw [extractTransaction_atTime]
    rfl

theorem keys_clearCreateAt (r : ExtractResult) : r.clearCreateAt.keys = r.keys := by
  simp only [ExtractResult.keys, ExtractResult.clearCreateAt, clearData, List.map_map]
  rfl

theorem summaries_clearCreateAt (r : ExtractResult) :
    r.clearCreateAt.summaries = r.summaries := by
  simp only [ExtractResult.summaries, ExtractResult.clearCreateAt, clearData, List.map_map]
  rfl

/-- C16, refuted as stated: the same node, oracle, height, hash and
transaction id, at the clock values 1 and 2, give results that differ (in the
creation time of the input record). -/
theorem extract_differs_with_clock :
    (∀ txid, (nodeScenario.atTime 1).GetTransaction txid =
        (nodeScenario.atTime 2).GetTransaction txid) ∧
      ExtractTransaction (nodeScenario.atTime 1) 100 "H100" "T1" ownsA ≠
        ExtractTransaction (nodeScenario.atTime 2) 100 "H100" "T1" ownsA ∧
      (ExtractTransaction (nodeScenario.atTime 1) 100 "H100" "T1" ownsA).map
          (fun r => r.extractData.map fun e => e.2.TxInputs.map fun i => i.CreateAt) =
        some [[1]] ∧
      (ExtractTransaction (nodeScenario.atTime 2) 100 "H100" "T1" ownsA).map
          (fun r => r.extractData.map fun e => e.2.TxInputs.map fun i => i.CreateAt) =
        some [[2]] :=
  ⟨fun _ => rfl, by decide, by decide, by decide⟩

/-- C16, amended: for a fixed node and a fixed oracle, two invocations of
`ExtractTransaction` with the same height, hash and transaction id, at the
clock values `t1` and `t2`, both panic or return results that are identical
once the creation times `CreateAt` of the input and output records are
cleared; in particular they have the same owner keys and the same transaction
summaries, with the same fee. -/
theorem extract_same_up_to_clock (wm : WalletManager) (t1 t2 : Int) (blockHeight : Nat)
    (blockHash txid : String) (scan : BlockScanAddressFunc) :
    (ExtractTransaction (wm.atTime t1) blockHeight blockHash txid scan).map
        ExtractResult.clearCreateAt =
      (ExtractTransaction (wm.atTime t2) blockHeight blockHash txid scan).map
        ExtractResult.clearCreateAt ∧
    (ExtractTransaction (wm.atTime t1) blockHeight blockHash txid scan).map
        ExtractResult.keys =
      (ExtractTransaction (wm.atTime t2) blockHeight blockHash txid scan).map
        ExtractResult.keys ∧
    (ExtractTransaction (wm.atTime t1) blockHeight blockHash txid scan).map
        ExtractResult.summaries =
      (ExtractTransaction (wm.atTime t2) blockHeight blockHash txid scan).map
        ExtractResult.summaries := by
  have h : (ExtractTransaction (wm.atTime t1) blockHeight blockHash txid scan).map
        ExtractResult.clearCreateAt =
      (ExtractTransaction (wm.atTime t2) blockHeight blockHash txid scan).map
        ExtractResult.clearCreateAt := by
    rw [ExtractTransaction_atTime, ExtractTransaction_atTime]
    rfl
  refine ⟨h, ?_, ?_⟩
  · have := congrArg (Option.map ExtractResult.keys) h
    simpa only [Option.map_map, Function.comp_def, keys_clearCreateAt] using this
  · have := congrArg (Option.map ExtractResult.summaries) h
    simpa only [Option.map_map, Function.comp_def, summaries_clearCreateAt] using this

/-! ## Supplements on the start and on the retry -/

/-- With an empty cursor and a head block that the node does not return,
`ScanBlockTask` panics before its loop. -/
theorem ScanBlockTask_panics_without_head (wm : WalletManager) (bs : VASBlockScanner)
    (st : ScannerState) (fuel : Nat) (hempty : (GetLocalBlockHead st).1 = 0)
    (hhead : GetGlobalHeadBlock wm = none) : ScanBlockTask wm bs fuel st = .panic := by
  simp only [ScanBlockTask, bootstrap, hempty, if_true, hhead]

theorem BatchExtractTransaction_mem (wm : WalletManager) (bs : VASBlockScanner)
    (blockHeight : Nat) (blockHash : String) (txs : List String) (st : ScannerState)
    (r : ScannerState × Bool) (q : UnscanRecord)
    (hr : BatchExtractTransaction wm bs blockHeight blockHash txs st = some r)
    (hq : q ∈ st.unscanRecords) : q ∈ r.1.unscanRecords := by
  unfold BatchExtractTransaction at hr
  split at hr
  · injection hr with hr
    rw [← hr]; exact hq
  · split at hr
    · exact absurd hr (by simp)
    · injection hr with hr
      rw [← hr]
      exact saveWorkFold_mem wm bs blockHeight _ (st, 0) q hq

/-- In the retry of a height whose batch returns an error, no pending task is
deleted. -/
theorem rescanHeight_keeps_on_error (wm : WalletManager) (bs : VASBlockScanner)
    (st st1 : ScannerState) (height : Nat) (block : Block) (q : UnscanRecord)
    (h0 : height ≠ 0) (hblk : wm.GetBlockByHeight (height % 2 ^ 32) = some block)
    (hbatch : BatchExtractTransaction wm bs height "" block.tx st = some (st1, true))
    (hq : q ∈ st.unscanRecords) :
    rescanHeight wm bs st height = some st1 ∧ q ∈ st1.unscanRecords := by
  rw [rescanHeight_whole_block wm bs st height block h0 hblk, hbatch]
  exact ⟨rfl, BatchExtractTransaction_mem wm bs height "" block.tx st (st1, true) q hbatch hq⟩

/-! ## Claims on the notifications and on the result of a batch -/

theorem count_of_nodup {α : Type} [BEq α] [LawfulBEq α] {l : List α} (hnd : l.Nodup) {a : α}
    (h : a ∈ l) : l.count a = 1 := by
  induction l with
  | nil => simp at h
  | cons b rest ih =>
    rw [List.nodup_cons] at hnd
    rw [List.count_cons]
    by_cases hb : b = a
    · subst hb
      simp [List.count_eq_zero_of_not_mem hnd.1]
    · have hr : a ∈ rest := by
        rcases List.mem_cons.mp h with h1 | h1
        · exact absurd h1.symm hb
        · exact h1
      simp [ih hnd.2 hr, hb]

theorem count_tagged (data : List (String × TxExtractData)) (i oi : Nat) (key : String)
    (ed : TxExtractData) :
    (data.map fun e => (i, e.1, e.2)).count (oi, key, ed) =
      if oi = i then data.count (key, ed) else 0 := by
  induction data with
  | nil => simp
  | cons e rest ih =>
    obtain ⟨k, d⟩ := e
    simp only [List.map_cons, List.count_cons, ih]
    by_cases h : oi = i
    · subst h
      simp [Prod.ext_iff]
    · have h' : ¬ i = oi := fun e => h e.symm
      simp [h, h', Prod.ext_iff]

theorem count_deliveries (data : List (String × TxExtractData)) (s n oi : Nat) (key : String)
    (ed : TxExtractData) :
    (deliveries data s n).count (oi, key, ed) =
      if s ≤ oi ∧ oi < s + n then data.count (key, ed) else 0 := by
  induction n generalizing s with
  | zero =>
    have : ¬ (s ≤ oi ∧ oi < s) := by omega
    simp [deliveries, this]
  | succ n ih =>
    have e : deliveries data s (n + 1) =
        (data.map fun e => (s, e.1, e.2)) ++ deliveries data (s + 1) n := by
      simp [deliveries, List.range'_succ]
    rw [e, List.count_append, count_tagged, ih]
    by_cases h1 : oi = s
    · subst h1
      have h2 : ¬ (oi + 1 ≤ oi ∧ oi < oi + 1 + n) := by omega
      have h3 : oi ≤ oi ∧ oi < oi + (n + 1) := by omega
      simp [h2, h3]
    · by_cases h2 : s + 1 ≤ oi ∧ oi < s + 1 + n
      · have h3 : s ≤ oi ∧ oi < s + (n + 1) := by omega
        simp [h1, h2, h3]
      · have h3 : ¬ (s ≤ oi ∧ oi < s + (n + 1)) := by omega
        simp [h1, h2, h3]

/-- C25: for every list of registered observers (whatever each of them
returns) and every record map (its owner keys being pairwise distinct, as the
keys of a Go map are), the calls of `BlockExtractDataNotify` that
`newExtractDataNotify` makes are, counted with multiplicity, exactly one call
for each combination of an observer position `oi`, an owner key and the record
stored under that key; no call is left out after a call that returned an
error, and no other call is made. -/
theorem notify_each_combination_once (wm : WalletManager) (bs : VASBlockScanner)
    (height : Nat) (data : List (String × TxExtractData)) (st : ScannerState)
    (hkeys : (data.map fun e => e.1).Nodup) :
    ∃ calls,
      (newExtractDataNotify wm bs height data st).extractNotified =
        st.extractNotified ++ calls ∧
      ∀ oi key ed, calls.count (oi, key, ed) =
        if oi < bs.Observers.length ∧ (key, ed) ∈ data then 1 else 0 := by
  refine ⟨deliveries data 0 bs.Observers.length, ?_, ?_⟩
  · exact notifyObservers_log wm height data bs.Observers 0 st
  · intro oi key ed
    have hnd : data.Nodup := List.Nodup.of_map _ hkeys
    rw [count_deliveries]
    by_cases hmem : (key, ed) ∈ data
    · rw [count_of_nodup hnd hmem]
      simp [hmem]
    · rw [List.count_eq_zero_of_not_mem hmem]
      simp [hmem]

/-- Witness of C25: two observers, the first of which returns an error for
every record, and a map of two records: four calls are made, one for each
combination. -/
theorem notify_each_combination_once_witness :
    (twoRecords.map fun e => e.1).Nodup ∧
    (newExtractDataNotify nodeScenario scannerTwoObservers 100 twoRecords
        (storeOf 99 "P" [])).extractNotified =
      [(0, "k1", NewBlockExtractData), (0, "k2", NewBlockExtractData),
       (1, "k1", NewBlockExtractData), (1, "k2", NewBlockExtractData)] ∧
    ∃ calls,
      (newExtractDataNotify nodeScenario scannerTwoObservers 100 twoRecords
          (storeOf 99 "P" [])).extractNotified = (storeOf 99 "P" []).extractNotified ++ calls ∧
      ∀ oi key ed, calls.count (oi, key, ed) =
        if oi < scannerTwoObservers.Observers.length ∧ (key, ed) ∈ twoRecords then 1 else 0 :=
  ⟨by decide, by decide,
    notify_each_combination_once nodeScenario scannerTwoObservers 100 twoRecords
      (storeOf 99 "P" []) (by decide)⟩

/-- C26, at a failing input: block 100 of the node has the hash `"H100"` and
holds `T1`, whose input spends an output of the owned address `"A"`; the node
returns `T1` with the block hash `"H100"` and without a height. When
`ScanBlockTask` scans the block on the no-fork path from the cursor
`(99, "P")`, the input record and the summary it delivers carry the height 100
and the hash `"H100"`; when `RescanFailedRecord` retries the pending task of
height 100, the records it delivers for the same transaction carry the height
100 and the empty hash, the variable `hash` passed to
`BatchExtractTransaction` never being assigned. -/
theorem rescan_records_without_block_hash :
    ((ScanBlockTask nodeConfirmed scannerA 2 (storeOf 99 "P" [])).retriedState.map
        deliveredBlocks = some [(100, "H100"), (100, "H100")]) ∧
    ((RescanFailedRecord nodeConfirmed scannerA
        (storeWithTasks [NewUnscanRecord 100 "T1" "" "VAS"])).map deliveredBlocks =
      some [(100, ""), (100, "")]) := by
  constructor <;> decide

/-! ## One record for each owned input and output -/

theorem recordOf_upsert (f : TxExtractData → TxExtractData) (key k : String)
    (data : List (String × TxExtractData)) :
    recordOf (upsert f key data) k =
      if k = key then f (recordOf data key) else recordOf data k := by
  induction data with
  | nil =>
    by_cases h : k = key
    · subst h; simp [upsert, recordOf]
    · have h' : ¬ key = k := fun e => h e.symm
      simp [upsert, recordOf, h, h']
  | cons e rest ih =>
    obtain ⟨k0, ed⟩ := e
    unfold upsert
    by_cases h0 : k0 = key
    · subst h0
      by_cases h : k = k0
      · subst h; simp [recordOf]
      · have h' : ¬ k0 = k := fun e => h e.symm
        simp [recordOf, h, h']
    · rw [if_neg h0]
      by_cases h : k = key
      · subst h
        have e1 : recordOf ((k0, ed) :: upsert f k rest) k = recordOf (upsert f k rest) k := by
          simp [recordOf, h0]
        have e2 : recordOf ((k0, ed) :: rest) k = recordOf rest k := by
          simp [recordOf, h0]
        rw [e1, ih, if_pos rfl, if_pos rfl, e2]
      · rw [if_neg h]
        by_cases hk : k0 = k
        · subst hk; simp [recordOf]
        · have e1 : recordOf ((k0, ed) :: upsert f key rest) k =
              recordOf (upsert f key rest) k := by
            simp [recordOf, hk]
          have e2 : recordOf ((k0, ed) :: rest) k = recordOf rest k := by
            simp [recordOf, hk]
          rw [e1, ih, if_neg h, e2]

theorem scan_eq_iff (scan : BlockScanAddressFunc) (addr key : String) :
    scan addr = (key, true) ↔ (scan addr).2 = true ∧ key = (scan addr).1 := by
  constructor
  · intro h; rw [h]; exact ⟨rfl, rfl⟩
  · rintro ⟨h1, h2⟩
    exact Prod.ext h2.symm h1

theorem extractTxInputStep_record (wm : WalletManager) (trx : Transaction) (txid : String)
    (scan : BlockScanAddressFunc) (i : Nat) (output : Vin) (acc : ExtractAcc) (key : String) :
    recordOf (extractTxInputStep wm trx txid scan i output acc).extractData key =
      if scan output.Addr = (key, true) then
        { recordOf acc.extractData key with
          TxInputs := (recordOf acc.extractData key).TxInputs ++
            [newTxInput wm trx txid i output] }
      else recordOf acc.extractData key := by
  unfold extractTxInputStep
  by_cases h2 : (scan output.Addr).2 = true
  · simp only [h2, if_true, recordOf_upsert]
    by_cases h1 : key = (scan output.Addr).1
    · rw [if_pos h1, if_pos ((scan_eq_iff scan _ key).mpr ⟨h2, h1⟩)]
      subst h1
      rfl
    · rw [if_neg h1, if_neg (fun h => h1 ((scan_eq_iff scan _ key).mp h).2)]
  · have h3 : ¬ scan output.Addr = (key, true) := fun h => h2 ((scan_eq_iff scan _ key).mp h).1
    simp only [h2, if_false, if_neg h3]
    simp

theorem extractTxInputLoop_record (wm : WalletManager) (trx : Transaction) (txid : String)
    (scan : BlockScanAddressFunc) (key : String) (vins : List Vin) (i : Nat)
    (acc : ExtractAcc) :
    (recordOf (extractTxInputLoop wm trx txid scan i vins acc).extractData key).TxInputs =
        (recordOf acc.extractData key).TxInputs ++
          (ownedInputs scan key i vins).map (fun p => newTxInput wm trx txid p.1 p.2) ∧
      (recordOf (extractTxInputLoop wm trx txid scan i vins acc).extractData key).TxOutputs =
        (recordOf acc.extractData key).TxOutputs := by
  induction vins generalizing i acc with
  | nil => simp [extractTxInputLoop, ownedInputs]
  | cons v rest ih =>
    unfold extractTxInputLoop
    obtain ⟨h1, h2⟩ := ih (i + 1) (extractTxInputStep wm trx txid scan i v acc)
    rw [h1, h2, extractTxInputStep_record]
    by_cases h : scan v.Addr = (key, true)
    · simp [ownedInputs, List.enumFrom_cons, List.filter_cons, h]
    · simp [ownedInputs, List.enumFrom_cons, List.filter_cons, h]

theorem extractTxOutputStep_record (wm : WalletManager) (trx : Transaction)
    (scan : BlockScanAddressFunc) (output : Vout) (acc : ExtractAcc) (key : String) :
    recordOf (extractTxOutputStep wm trx scan output acc).extractData key =
      if output.ScriptType ≠ "OP_RETURN" ∧ scan output.Addr = (key, true) then
        { recordOf acc.extractData key with
          TxOutputs := (recordOf acc.extractData key).TxOutputs ++
            [newTxOutPut wm trx output] }
      else recordOf acc.extractData key := by
  unfold extractTxOutputStep
  by_cases h0 : output.ScriptType = "OP_RETURN"
  · simp [h0]
  · rw [if_neg h0]
    by_cases h2 : (scan output.Addr).2 = true
    · simp only [h2, if_true, recordOf_upsert]
      by_cases h1 : key = (scan output.Addr).1
      · rw [if_pos h1, if_pos ⟨h0, (scan_eq_iff scan _ key).mpr ⟨h2, h1⟩⟩]
        subst h1
        rfl
      · rw [if_neg h1, if_neg (fun h => h1 ((scan_eq_iff scan _ key).mp h.2).2)]
    · have h3 : ¬ (output.ScriptType ≠ "OP_RETURN" ∧ scan output.Addr = (key, true)) :=
        fun h => h2 ((scan_eq_iff scan _ key).mp h.2).1
      simp only [h2, if_false, if_neg h3]
      simp

theorem extractTxOutput_fold_record (wm : WalletManager) (trx : Transaction)
    (scan : BlockScanAddressFunc) (key : String) (vouts : List Vout) (acc : ExtractAcc) :
    (recordOf (vouts.foldl (fun acc output => extractTxOutputStep wm trx scan output acc)
        acc).extractData key).TxOutputs =
        (recordOf acc.extractData key).TxOutputs ++
          (ownedOutputs scan key vouts).map (newTxOutPut wm trx) ∧
      (recordOf (vouts.foldl (fun acc output => extractTxOutputStep wm trx scan output acc)
        acc).extractData key).TxInputs =
        (recordOf acc.extractData key).TxInputs := by
  induction vouts generalizing acc with
  | nil => simp [ownedOutputs]
  | cons v rest ih =>
    simp only [List.foldl_cons]
    obtain ⟨h1, h2⟩ := ih (extractTxOutputStep wm trx scan v acc)
    rw [h1, h2, extractTxOutputStep_record]
    by_cases h : v.ScriptType ≠ "OP_RETURN" ∧ scan v.Addr = (key, true)
    · rw [if_pos h]
      simp [ownedOutputs, List.filter_cons, h]
    · rw [if_neg h]
      simp [ownedOutputs, List.filter_cons, h]

theorem recordOf_setTransaction (tx : OWTransaction) (data : List (String × TxExtractData))
    (key : String) :
    (recordOf (data.map fun e => (e.1, { e.2 with Transaction := some tx })) key).TxInputs =
        (recordOf data key).TxInputs ∧
      (recordOf (data.map fun e => (e.1, { e.2 with Transaction := some tx })) key).TxOutputs =
        (recordOf data key).TxOutputs := by
  induction data with
  | nil => simp [recordOf, NewBlockExtractData]
  | cons e rest ih =>
    obtain ⟨k0, ed⟩ := e
    by_cases hk : k0 = key
    · simp [recordOf, hk]
    · have e1 : ∀ (l : List (String × TxExtractData)) (d : TxExtractData),
          recordOf ((k0, d) :: l) key = recordOf l key := by
        intro l d; simp [recordOf, hk]
      rw [List.map_cons, e1, e1]
      exact ih

/-- C22: for every transaction that reaches classification (the completion of
its inputs ends with `success` set, `vins` being the completed inputs) and is
extracted into a result that holds no record yet, the extraction returns a
result in which, for every owner key `key`, the input records stored under
`key` are exactly one record for each input whose address the oracle owns
under `key`, in the order of the inputs, and the output records stored under
`key` are exactly one record for each output whose script type is not
`OP_RETURN` and whose address the oracle owns under `key`, in the order of the
outputs; an output of type `OP_RETURN` is not among them, whoever owns its
address. -/
theorem one_record_per_owned (wm : WalletManager) (trx : Transaction) (result : ExtractResult)
    (scan : BlockScanAddressFunc) (vins : List Vin)
    (hres : resolveInputs wm trx.Vins true = some (vins, true))
    (hempty : result.extractData = []) :
    ∃ r, extractTransaction wm (some trx) result scan = some r ∧
      ∀ key,
        (recordOf r.extractData key).TxInputs =
          (ownedInputs scan key 0 vins).map
            (fun p => newTxInput wm { trx with Vins := vins } result.TxID p.1 p.2) ∧
        (recordOf r.extractData key).TxOutputs =
          (ownedOutputs scan key trx.Vouts).map (newTxOutPut wm { trx with Vins := vins }) ∧
        ∀ o ∈ trx.Vouts, o.ScriptType = "OP_RETURN" → o ∉ ownedOutputs scan key trx.Vouts := by
  refine ⟨_, extractTransaction_eq wm trx result scan vins hres, ?_⟩
  intro key
  have hin : extractTxInput wm { trx with Vins := vins } result scan =
      extractTxInputLoop wm { trx with Vins := vins } result.TxID scan 0 vins
        ⟨[], [], Decimal.Zero⟩ := by
    unfold extractTxInput
    rw [hempty]
  obtain ⟨s1, s2⟩ := recordOf_setTransaction
    (finalTx wm
      (summaryTx wm { trx with Vins := vins }
        (extractTxInput wm { trx with Vins := vins } result scan).descr
        (extractTxOutput wm { trx with Vins := vins }
          (extractTxInput wm { trx with Vins := vins } result scan).extractData
          scan).descr
        (extractTxInput wm { trx with Vins := vins } result scan).totalAmount
        (extractTxOutput wm { trx with Vins := vins }
          (extractTxInput wm { trx with Vins := vins } result scan).extractData
          scan).totalAmount))
    (extractTxOutput wm { trx with Vins := vins }
      (extractTxInput wm { trx with Vins := vins } result scan).extractData scan).extractData
    key
  obtain ⟨o1, o2⟩ := extractTxOutput_fold_record wm { trx with Vins := vins } scan key
    trx.Vouts ⟨(extractTxInput wm { trx with Vins := vins } result scan).extractData, [],
      Decimal.Zero⟩
  obtain ⟨i1, i2⟩ := extractTxInputLoop_record wm { trx with Vins := vins } result.TxID scan key
    vins 0 ⟨[], [], Decimal.Zero⟩
  have hnil : recordOf [] key = NewBlockExtractData := rfl
  rw [hnil] at i1 i2
  refine ⟨?_, ?_, ?_⟩
  · refine s1.trans (o2.trans ?_)
    rw [hin]
    simpa [NewBlockExtractData] using i1
  · refine s2.trans (o1.trans ?_)
    rw [hin]
    have i2' : (recordOf (extractTxInputLoop wm { trx with Vins := vins } result.TxID scan 0 vins
        ⟨[], [], Decimal.Zero⟩).extractData key).TxOutputs = [] := by
      simpa [NewBlockExtractData] using i2
    show (recordOf (extractTxInputLoop wm { trx with Vins := vins } result.TxID scan 0 vins
        ⟨[], [], Decimal.Zero⟩).extractData key).TxOutputs ++ _ = _
    rw [i2', List.nil_append]
  · intro o _ hop hmem
    have := (List.mem_filter.mp hmem).2
    simp [hop] at this

/-- Witness of C22: `T5` has two inputs that resolve to the owned address
`"A"`, an output to `"B"`, an `OP_RETURN` output with the address `"A"` and an
output to `"A"`. Under `"ownerA"` there are the two input records, in order,
and one output record (of index 2); under `"ownerB"` one output record. -/
theorem one_record_per_owned_witness :
    ((extractTransaction nodeT5 (some txT5) (freshResult 100 "T5") ownsAB).map fun r =>
        (((recordOf r.extractData "ownerA").TxInputs.map fun i => i.Index),
         ((recordOf r.extractData "ownerA").TxOutputs.map fun o => o.Index),
         ((recordOf r.extractData "ownerB").TxOutputs.map fun o => o.Index))) =
      some ([0, 1], [2], [0]) ∧
    ∃ r, extractTransaction nodeT5 (some txT5) (freshResult 100 "T5") ownsAB = some r ∧
      ∀ key,
        (recordOf r.extractData key).TxInputs =
          (ownedInputs ownsAB key 0 [fillInput nodeT5 (mkVin "T0" 0 0),
              fillInput nodeT5 (mkVin "T0" 0 1)]).map
            (fun p => newTxInput nodeT5
              { txT5 with Vins := [fillInput nodeT5 (mkVin "T0" 0 0),
                  fillInput nodeT5 (mkVin "T0" 0 1)] } (freshResult 100 "T5").TxID p.1 p.2) ∧
        (recordOf r.extractData key).TxOutputs =
          (ownedOutputs ownsAB key txT5.Vouts).map
            (newTxOutPut nodeT5 { txT5 with Vins := [fillInput nodeT5 (mkVin "T0" 0 0),
                fillInput nodeT5 (mkVin "T0" 0 1)] }) ∧
        ∀ o ∈ txT5.Vouts, o.ScriptType = "OP_RETURN" → o ∉ ownedOutputs ownsAB key txT5.Vouts :=
  ⟨by decide, one_record_per_owned nodeT5 txT5 (freshResult 100 "T5") ownsAB _ (by decide) rfl⟩

/-! ## Identity text of the unscanned records -/

theorem digitChar_toNat (k : Nat) (hk : k < 10) : (Char.ofNat (48 + k)).toNat - 48 = k := by
  interval_cases k <;> rfl

theorem digitChar_ne_underscore (k : Nat) (hk : k < 10) : Char.ofNat (48 + k) ≠ '_' := by
  interval_cases k <;> decide

theorem digitsValue_foldl (cs : List Char) (a : Nat) :
    cs.foldl (fun a c => a * 10 + (c.toNat - 48)) a = a * 10 ^ cs.length + digitsValue cs := by
  induction cs generalizing a with
  | nil => simp [digitsValue]
  | cons c rest ih =>
    unfold digitsValue
    simp only [List.foldl_cons, List.length_cons]
    rw [ih, ih (0 * 10 + (c.toNat - 48))]
    ring

theorem digitsValue_cons (c : Char) (cs : List Char) :
    digitsValue (c :: cs) = (c.toNat - 48) * 10 ^ cs.length + digitsValue cs := by
  have h := digitsValue_foldl cs (0 * 10 + (c.toNat - 48))
  unfold digitsValue at h ⊢
  simp only [List.foldl_cons]
  rw [h]
  simp

theorem digitsValue_digitsAux (fuel n : Nat) (acc : List Char) (h : n < 10 ^ fuel) :
    digitsValue (Decimal.digitsAux fuel n acc) = n * 10 ^ acc.length + digitsValue acc := by
  induction fuel generalizing n acc with
  | zero =>
    have h0 : n = 0 := by simpa using h
    subst h0
    simp [Decimal.digitsAux]
  | succ fuel ih =>
    unfold Decimal.digitsAux
    by_cases hz : n / 10 = 0
    · simp only [hz, if_true]
      rw [digitsValue_cons, digitChar_toNat _ (Nat.mod_lt _ (by decide))]
      have : n % 10 = n := Nat.mod_eq_of_lt (by omega)
      rw [this]
    · simp only [hz, if_false]
      have hlt : n / 10 < 10 ^ fuel := by
        rw [Nat.div_lt_iff_lt_mul (by decide)]
        rw [Nat.pow_succ] at h
        exact h
      rw [ih _ _ hlt, digitsValue_cons, digitChar_toNat _ (Nat.mod_lt _ (by decide))]
      simp only [List.length_cons, Nat.pow_succ]
      have hn := Nat.div_add_mod n 10
      calc n / 10 * (10 ^ acc.length * 10) + (n % 10 * 10 ^ acc.length + digitsValue acc)
          = (10 * (n / 10) + n % 10) * 10 ^ acc.length + digitsValue acc := by ring
        _ = n * 10 ^ acc.length + digitsValue acc := by rw [hn]

theorem digitsValue_natString (n : Nat) : digitsValue (Decimal.natString n) = n := by
  unfold Decimal.natString
  rw [digitsValue_digitsAux _ _ _ (lt_of_lt_of_le (Nat.lt_pow_self (by decide) n)
    (Nat.pow_le_pow_right (by decide) (Nat.le_succ n)))]
  simp [digitsValue]

theorem natString_injective (a b : Nat) (h : Decimal.natString a = Decimal.natString b) :
    a = b := by
  rw [← digitsValue_natString a, ← digitsValue_natString b, h]

theorem digitsAux_no_underscore (fuel n : Nat) (acc : List Char) (h : '_' ∉ acc) :
    '_' ∉ Decimal.digitsAux fuel n acc := by
  induction fuel generalizing n acc with
  | zero => simpa [Decimal.digitsAux] using h
  | succ fuel ih =>
    unfold Decimal.digitsAux
    have h1 : '_' ∉ Char.ofNat (48 + n % 10) :: acc := by
      intro hm
      rcases List.mem_cons.mp hm with e | e
      · exact digitChar_ne_underscore _ (Nat.mod_lt _ (by decide)) e.symm
      · exact h e
    by_cases hz : n / 10 = 0
    · simpa only [hz, if_true] using h1
    · simp only [hz, if_false]
      exact ih _ _ h1

theorem natString_no_underscore (n : Nat) : '_' ∉ Decimal.natString n :=
  digitsAux_no_underscore _ _ _ (by simp)

theorem split_at_underscore (d1 d2 t1 t2 : List Char) (h1 : '_' ∉ d1) (h2 : '_' ∉ d2)
    (h : d1 ++ '_' :: t1 = d2 ++ '_' :: t2) : d1 = d2 ∧ t1 = t2 := by
  induction d1 generalizing d2 with
  | nil =>
    cases d2 with
    | nil => simpa using h
    | cons c cs =>
      simp only [List.nil_append, List.cons_append, List.cons.injEq] at h
      exact absurd (List.mem_cons.mpr (Or.inl h.1)) h2
  | cons c cs ih =>
    cases d2 with
    | nil =>
      simp only [List.nil_append, List.cons_append, List.cons.injEq] at h
      exact absurd (List.mem_cons.mpr (Or.inl h.1.symm)) h1
    | cons c' cs' =>
      simp only [List.cons_append, List.cons.injEq] at h
      have := ih cs' (fun hm => h1 (List.mem_cons_of_mem _ hm))
        (fun hm => h2 (List.mem_cons_of_mem _ hm)) h.2
      exact ⟨by rw [h.1, this.1], this.2⟩

theorem idText_data (height : Nat) (txID : String) :
    (Models.idText height txID).data = Decimal.natString height ++ '_' :: txID.data := by
  simp [Models.idText, String.data_append]

theorem idText_injective (h1 h2 : Nat) (t1 t2 : String)
    (h : Models.idText h1 t1 = Models.idText h2 t2) : h1 = h2 ∧ t1 = t2 := by
  have hd := congrArg String.data h
  rw [idText_data, idText_data] at hd
  obtain ⟨e1, e2⟩ := split_at_underscore _ _ _ _ (natString_no_underscore h1)
    (natString_no_underscore h2) hd
  exact ⟨natString_injective _ _ e1, String.ext e2⟩

/-- C27: for two different pairs of a height and a transaction id, the texts
that `NewUnscanRecord` hashes (the height in base 10, an underscore, the
transaction id) are different; so when the `ID`s of the two records coincide,
the hash function has given the same value for two different texts. -/
theorem unscan_id_texts_differ (sha256Hex : String → String) (h1 h2 : Nat)
    (t1 t2 reason1 reason2 : String) (hne : (h1, t1) ≠ (h2, t2)) :
    Models.idText h1 t1 ≠ Models.idText h2 t2 ∧
      ((Models.NewUnscanRecord sha256Hex h1 t1 reason1).ID =
          (Models.NewUnscanRecord sha256Hex h2 t2 reason2).ID →
        ∃ x y, x ≠ y ∧ sha256Hex x = sha256Hex y) := by
  have hdiff : Models.idText h1 t1 ≠ Models.idText h2 t2 := by
    intro h
    obtain ⟨e1, e2⟩ := idText_injective h1 h2 t1 t2 h
    exact hne (by rw [e1, e2])
  exact ⟨hdiff, fun hid => ⟨_, _, hdiff, hid⟩⟩

/-- Witness of C27: the pairs `(1, "2_3")` and `(12, "3")`, whose texts are
`"1_2_3"` and `"12_3"`. -/
theorem unscan_id_texts_differ_witness :
    Models.idText 1 "2_3" = "1_2_3" ∧ Models.idText 12 "3" = "12_3" ∧
    (Models.idText 1 "2_3" ≠ Models.idText 12 "3" ∧
      ((Models.NewUnscanRecord (fun s => s) 1 "2_3" "").ID =
          (Models.NewUnscanRecord (fun s => s) 12 "3" "").ID →
        ∃ x y, x ≠ y ∧ (fun s : String => s) x = (fun s : String => s) y)) :=
  ⟨by decide, by decide, unscan_id_texts_differ (fun s => s) 1 12 "2_3" "3" "" "" (by decide)⟩

/-! ## The buffer of `extractRuntime` -/

theorem Runtime.step_inv (e : Runtime.Event) (s s1 : Runtime.State)
    (h : s.handed ++ s.values = s.received) (hs : Runtime.step e s = some s1) :
    s1.handed ++ s1.values = s1.received := by
  by_cases hr : s.returned = true
  · cases e <;> simp [Runtime.step, hr] at hs
  · cases e with
    | produce pa =>
      simp only [Runtime.step, hr, Bool.false_eq_true, if_false, Option.some.injEq] at hs
      subst hs
      simp only
      rw [← List.append_assoc, h]
    | quit =>
      simp only [Runtime.step, hr, Bool.false_eq_true, if_false, Option.some.injEq] at hs
      subst hs
      exact h
    | send =>
      cases hv : s.values with
      | nil => simp [Runtime.step, hr, hv] at hs
      | cons v rest =>
        simp only [Runtime.step, hr, Bool.false_eq_true, if_false, hv, Option.some.injEq] at hs
        subst hs
        simp only
        rw [hv] at h
        rw [List.append_assoc, List.singleton_append]
        exact h

theorem Runtime.run_inv (es : List Runtime.Event) (s s1 : Runtime.State)
    (h : s.handed ++ s.values = s.received) (hs : Runtime.run es s = some s1) :
    s1.handed ++ s1.values = s1.received := by
  induction es generalizing s with
  | nil =>
    have e1 := Option.some.inj hs
    subst e1
    exact h
  | cons e rest ih =>
    unfold Runtime.run at hs
    cases he : Runtime.step e s with
    | none => rw [he] at hs; exact absurd hs (by simp)
    | some s2 =>
      rw [he] at hs
      exact ih s2 (Runtime.step_inv e s s2 h he) hs

/-- C24: in every state that the loop of `extractRuntime` reaches from its
entry, whatever the order in which the cases of the `select` are taken, the
results sent on `worker` followed by the buffer `values` are the results
received from `producer`, in the order of their arrival. Hence the results
sent are the first results received, each sent once and in arrival order, and
every result received and not yet sent is in the buffer: none is dropped while
the loop runs. -/
theorem runtime_buffer_invariant (es : List Runtime.Event) (s : Runtime.State)
    (h : Runtime.run es Runtime.init = some s) :
    s.handed ++ s.values = s.received ∧
      s.handed = s.received.take s.handed.length ∧
      s.values = s.received.drop s.handed.length ∧
      s.handed.length ≤ s.received.length := by
  have hinv := Runtime.run_inv es Runtime.init s rfl h
  rw [← hinv]
  simp

/-- Witness of C24: two results are received, the first is sent, a third
arrives, the second is sent, and `quit` is observed with the third still in
the buffer. -/
theorem runtime_buffer_invariant_witness :
    Runtime.run [.produce (freshResult 1 "a"), .produce (freshResult 1 "b"), .send,
        .produce (freshResult 1 "c"), .send, .quit] Runtime.init =
      some { received := [freshResult 1 "a", freshResult 1 "b", freshResult 1 "c"],
             values := [freshResult 1 "c"],
             handed := [freshResult 1 "a", freshResult 1 "b"],
             returned := true } ∧
    ([freshResult 1 "a", freshResult 1 "b"] ++ [freshResult 1 "c"] =
        [freshResult 1 "a", freshResult 1 "b", freshResult 1 "c"] ∧
      [freshResult 1 "a", freshResult 1 "b"] =
        [freshResult 1 "a", freshResult 1 "b", freshResult 1 "c"].take 2 ∧
      [freshResult 1 "c"] =
        [freshResult 1 "a", freshResult 1 "b", freshResult 1 "c"].drop 2 ∧
      2 ≤ 3) :=
  ⟨by decide,
    runtime_buffer_invariant
      [.produce (freshResult 1 "a"), .produce (freshResult 1 "b"), .send,
        .produce (freshResult 1 "c"), .send, .quit]
      { received := [freshResult 1 "a", freshResult 1 "b", freshResult 1 "c"],
        values := [freshResult 1 "c"],
        handed := [freshResult 1 "a", freshResult 1 "b"],
        returned := true } (by decide)⟩

/-! ## Catching up with the head of the chain -/

theorem SameScan.refl (st : ScannerState) : SameScan st st := ⟨rfl, rfl⟩

theorem SameScan.trans {a b c : ScannerState} (h1 : SameScan a b) (h2 : SameScan b c) :
    SameScan a c :=
  ⟨h2.1.trans h1.1, h2.2.trans h1.2⟩

/-- C30, at failing inputs: no hash of `origins` has the address `"C"`. With
`start = 1` the slice expression `origins[start:end]` is `origins[1:0]` and the
function panics; with `start = 0` it returns `origins[1:]`, so the first hash
is lost and the result is not a permutation of `origins`; on the empty list it
panics at `origins[end+1:]`. -/
theorem resetTransHashFunc_without_match :
    resetTransHashFunc [⟨"h0", "A"⟩, ⟨"h1", "B"⟩] "C" 1 = none ∧
    resetTransHashFunc [⟨"h0", "A"⟩, ⟨"h1", "B"⟩] "C" 0 = some [⟨"h1", "B"⟩] ∧
    resetTransHashFunc [] "C" 0 = none := by
  decide

theorem resetSearch_found (addr : String) (l : List TxHash) (i : Nat)
    (h : ∃ x ∈ l, x.Address = addr) :
    ∃ pre x post, l = pre ++ x :: post ∧ resetSearch addr i l = ([x], i + pre.length) := by
  induction l generalizing i with
  | nil => obtain ⟨x, hx, _⟩ := h; exact absurd hx (by simp)
  | cons y rest ih =>
    by_cases hy : y.Address = addr
    · exact ⟨[], y, rest, rfl, by simp [resetSearch, hy]⟩
    · have h' : ∃ x ∈ rest, x.Address = addr := by
        obtain ⟨x, hx, hxa⟩ := h
        rcases List.mem_cons.mp hx with e | e
        · subst e; exact absurd hxa hy
        · exact ⟨x, e, hxa⟩
      obtain ⟨pre, x, post, e1, e2⟩ := ih (i + 1) h'
      refine ⟨y :: pre, x, post, by rw [e1]; rfl, ?_⟩
      simp only [resetSearch, hy, if_false, e2, List.length_cons]
      congr 1
      omega

theorem sliceOf_middle {α : Type} (a b c : List α) :
    sliceOf (a ++ b ++ c) a.length (a.length + b.length) = some b := by
  unfold sliceOf
  rw [if_pos (by simp)]
  simp [List.take_append_eq_append_take, List.take_of_length_le]

/-- When a hash at an index from `start` on has the address `addr`,
`resetTransHashFunc` returns a permutation of `origins` that agrees with
`origins` below `start`. -/
theorem resetTransHashFunc_found (origins : List TxHash) (addr : String) (start : Nat)
    (hs : start ≤ origins.length) (hfound : ∃ x ∈ origins.drop start, x.Address = addr) :
    ∃ res, resetTransHashFunc origins addr start = some res ∧ res.Perm origins ∧
      res.take start = origins.take start := by
  obtain ⟨pre, x, post, e1, e2⟩ := resetSearch_found addr (origins.drop start) start hfound
  have ho : origins = origins.take start ++ (pre ++ x :: post) := by
    rw [← e1, List.take_append_drop]
  have hl : (origins.take start).length = start := List.length_take_of_le hs
  generalize origins.take start = A at ho hl
  subst hl
  have s1 : sliceOf origins 0 A.length = some A := by
    have := sliceOf_middle ([] : List TxHash) A (pre ++ x :: post)
    simpa [ho] using this
  have s2 : sliceOf origins A.length (A.length + pre.length) = some pre := by
    have := sliceOf_middle A pre (x :: post)
    simpa [ho] using this
  have s3 : sliceOf origins (A.length + pre.length + 1) origins.length = some post := by
    have e : origins = A ++ pre ++ [x] ++ post ++ [] := by rw [ho]; simp
    have h3 := sliceOf_middle (A ++ pre ++ [x]) post []
    rw [← e] at h3
    have l1 : (A ++ pre ++ [x]).length = A.length + pre.length + 1 := by simp; omega
    have l2 : (A ++ pre ++ [x]).length + post.length = origins.length := by
      rw [ho]; simp; omega
    rw [l2, l1] at h3
    exact h3
  refine ⟨A ++ [x] ++ pre ++ post, ?_, ?_, ?_⟩
  · unfold resetTransHashFunc
    simp only [s1, e2, s2, s3]
  · rw [ho]
    simp only [List.append_assoc, List.singleton_append]
    exact List.Perm.append_left A (List.perm_middle.symm)
  · simp

/-! ## Fee estimation -/

/-! ### The `float64` quotient of two integers below `2 ^ 53` -/

theorem bitLength_spec (fuel n : Nat) (hn : 0 < n) (hf : n ≤ fuel) :
    ∃ b, bitLength fuel n = b + 1 ∧ 2 ^ b ≤ n ∧ n < 2 ^ (b + 1) := by
  induction fuel generalizing n with
  | zero => omega
  | succ fuel ih =>
    unfold bitLength
    rw [if_neg (by omega)]
    by_cases h2 : n / 2 = 0
    · have h1 : n = 1 := by omega
      subst h1
      refine ⟨0, ?_, by simp, by simp⟩
      cases fuel <;> simp [bitLength]
    · obtain ⟨b, e1, e2, e3⟩ := ih (n / 2) (by omega) (by omega)
      refine ⟨b + 1, by rw [e1], ?_, ?_⟩
      · rw [Nat.pow_succ]; omega
      · rw [Nat.pow_succ]; omega

theorem roundHalfEven_le (a d y : Nat) (hd : 0 < d) (h : a ≤ y * d) : roundHalfEven a d ≤ y := by
  have hq : a / d ≤ y := Nat.div_le_of_le_mul (by rw [Nat.mul_comm]; exact h)
  have hdm := Nat.div_add_mod a d
  unfold roundHalfEven
  simp only
  by_cases hlt : a / d < y
  · split
    · omega
    · split <;> [omega; (split <;> omega)]
  · have he : a / d = y := by omega
    have hr : a % d = 0 := by
      rw [he] at hdm
      have : d * y = y * d := Nat.mul_comm d y
      omega
    rw [if_pos (by omega)]
    omega

theorem roundHalfEven_ge (a d y c : Nat) (hd : 0 < d) (h : y * d + c ≤ a) (hc : d < 2 * c) :
    y + 1 ≤ roundHalfEven a d := by
  have hq : y ≤ a / d := (Nat.le_div_iff_mul_le hd).mpr (by omega)
  have hdm := Nat.div_add_mod a d
  unfold roundHalfEven
  simp only
  by_cases hlt : y < a / d
  · split
    · omega
    · split <;> [omega; (split <;> omega)]
  · have he : a / d = y := by omega
    have hr : c ≤ a % d := by
      rw [he] at hdm
      have : d * y = y * d := Nat.mul_comm d y
      omega
    rw [if_neg (by omega), if_pos (by omega)]
    omega

theorem roundHalfEven_scale (a d c : Nat) (hc : 0 < c) :
    roundHalfEven (a * c) (d * c) = roundHalfEven a d := by
  unfold roundHalfEven
  simp only
  rw [Nat.mul_div_mul_right _ _ hc, Nat.mul_mod_mul_right]
  have e1 : 2 * (a % d * c) < d * c ↔ 2 * (a % d) < d := by
    rw [← Nat.mul_assoc]
    exact Nat.mul_lt_mul_right hc
  have e2 : d * c < 2 * (a % d * c) ↔ d < 2 * (a % d) := by
    rw [← Nat.mul_assoc]
    exact Nat.mul_lt_mul_right hc
  simp only [e1, e2]

theorem pow_two_pos (t : Nat) : 0 < 2 ^ t := Nat.two_pow_pos t

theorem nearest_spec (a b : Nat) (hb : 0 < b) (hab : b ≤ a) (ha : a < 2 ^ 53) :
    ∃ t : Nat, (Float64.nearest a b).2 = -(t : Int) ∧
      (Float64.nearest a b).1 = roundHalfEven (a * 2 ^ t) b ∧ b < 2 * 2 ^ t := by
  obtain ⟨lb, _, _, _⟩ := bitLength_spec b b hb (le_refl b)
  obtain ⟨k, hkdef⟩ : ∃ k, 53 + bitLength b b = k := ⟨_, rfl⟩
  have hk : 53 ≤ k := by omega
  have hq0 : 2 ^ k ≤ a * 2 ^ k / b := by
    rw [Nat.le_div_iff_mul_le hb]
    calc 2 ^ k * b = b * 2 ^ k := Nat.mul_comm _ _
      _ ≤ a * 2 ^ k := Nat.mul_le_mul_right _ hab
  have hq0pos : 0 < a * 2 ^ k / b := lt_of_lt_of_le (pow_two_pos k) hq0
  obtain ⟨c, e1, e2, e3⟩ := bitLength_spec (a * 2 ^ k / b) (a * 2 ^ k / b) hq0pos (le_refl _)
  have hck : k ≤ c := by
    by_contra hlt
    have : 2 ^ (c + 1) ≤ 2 ^ k := Nat.pow_le_pow_right (by decide) (by omega)
    omega
  have hupper : a * 2 ^ k / b < 2 ^ (53 + k) := by
    calc a * 2 ^ k / b ≤ a * 2 ^ k := Nat.div_le_self _ _
      _ < 2 ^ 53 * 2 ^ k := Nat.mul_lt_mul_of_pos_right ha (pow_two_pos k)
      _ = 2 ^ (53 + k) := (Nat.pow_add 2 53 k).symm
  have hc53 : c < 53 + k := by
    by_contra hge
    have : 2 ^ (53 + k) ≤ 2 ^ c := Nat.pow_le_pow_right (by decide) (by omega)
    omega
  have hs : bitLength (a * 2 ^ k / b) (a * 2 ^ k / b) - 53 = c - 52 := by omega
  have hsk : c - 52 ≤ k := by omega
  have hsplit : (2 : Nat) ^ k = 2 ^ (k - (c - 52)) * 2 ^ (c - 52) := by
    rw [← Nat.pow_add]
    congr 1
    omega
  refine ⟨k - (c - 52), ?_, ?_, ?_⟩
  · simp only [Float64.nearest]
    rw [hkdef, hs]
    omega
  · simp only [Float64.nearest]
    rw [hkdef, hs]
    rw [hsplit, ← Nat.mul_assoc, roundHalfEven_scale _ _ _ (pow_two_pos _)]
  · have h1 : 2 ^ c * b ≤ a * 2 ^ k := (Nat.le_div_iff_mul_le hb).mp e2
    have hc2 : (2 : Nat) ^ c = 2 ^ 52 * 2 ^ (c - 52) := by
      rw [← Nat.pow_add]
      congr 1
      omega
    rw [hsplit, hc2] at h1
    have h2 : 2 ^ 52 * b * 2 ^ (c - 52) ≤ a * 2 ^ (k - (c - 52)) * 2 ^ (c - 52) := by
      calc 2 ^ 52 * b * 2 ^ (c - 52) = 2 ^ 52 * 2 ^ (c - 52) * b := by ring
        _ ≤ a * (2 ^ (k - (c - 52)) * 2 ^ (c - 52)) := h1
        _ = a * 2 ^ (k - (c - 52)) * 2 ^ (c - 52) := by ring
    have h3 : 2 ^ 52 * b ≤ a * 2 ^ (k - (c - 52)) := Nat.le_of_mul_le_mul_right h2 (pow_two_pos _)
    have h4 : a * 2 ^ (k - (c - 52)) < 2 ^ 53 * 2 ^ (k - (c - 52)) :=
      Nat.mul_lt_mul_of_pos_right ha (pow_two_pos _)
    have h5 : 2 ^ 52 * b < 2 ^ 52 * (2 * 2 ^ (k - (c - 52))) := by
      calc 2 ^ 52 * b ≤ a * 2 ^ (k - (c - 52)) := h3
        _ < 2 ^ 53 * 2 ^ (k - (c - 52)) := h4
        _ = 2 ^ 52 * (2 * 2 ^ (k - (c - 52))) := by ring
    exact Nat.lt_of_mul_lt_mul_left h5

theorem ceil_div_bounds (a b : Nat) (hb : 0 < b) (ha : 0 < a) :
    ((a + b - 1) / b - 1) * b + 1 ≤ a ∧ a ≤ (a + b - 1) / b * b ∧ 1 ≤ (a + b - 1) / b := by
  have h1 : (a + b - 1) / b * b ≤ a + b - 1 := Nat.div_mul_le_self _ _
  have h2 : a + b - 1 < ((a + b - 1) / b + 1) * b := by
    rw [Nat.mul_comm]
    exact Nat.lt_mul_div_succ _ hb
  have h3 : 1 ≤ (a + b - 1) / b := (Nat.le_div_iff_mul_le hb).mpr (by omega)
  have h4 : ((a + b - 1) / b + 1) * b = (a + b - 1) / b * b + b := by ring
  have h5 : (a + b - 1) / b * b = ((a + b - 1) / b - 1) * b + b := by
    obtain ⟨c, hc⟩ : ∃ c, (a + b - 1) / b = c + 1 := ⟨(a + b - 1) / b - 1, by omega⟩
    rw [hc]
    simp only [Nat.add_sub_cancel]
    ring
  refine ⟨by omega, by omega, h3⟩

theorem float_ceil_div (a b : Nat) (hb : 0 < b) (hab : b < a) (ha : a < 2 ^ 53) :
    ((Float64.ofInt (a : Int)).div (Float64.ofInt (b : Int))).Ceil.toInt64 =
      (((a + b - 1) / b : Nat) : Int) := by
  obtain ⟨t, ht1, ht2, ht3⟩ := nearest_spec a b hb (le_of_lt hab) ha
  obtain ⟨hk1, hk2, hk3⟩ := ceil_div_bounds a b hb (by omega)
  generalize (a + b - 1) / b = k0 at hk1 hk2 hk3
  have hN := pow_two_pos t
  generalize hm : (Float64.nearest a b).1 = m at ht2
  -- the significand lies between the two multiples
  have hle : m ≤ k0 * 2 ^ t := by
    rw [ht2]
    apply roundHalfEven_le _ _ _ hb
    calc a * 2 ^ t ≤ k0 * b * 2 ^ t := Nat.mul_le_mul_right _ hk2
      _ = k0 * 2 ^ t * b := by ring
  have hge : (k0 - 1) * 2 ^ t + 1 ≤ m := by
    rw [ht2]
    apply roundHalfEven_ge _ _ _ (2 ^ t) hb
    · calc (k0 - 1) * 2 ^ t * b + 2 ^ t = ((k0 - 1) * b + 1) * 2 ^ t := by ring
        _ ≤ a * 2 ^ t := Nat.mul_le_mul_right _ hk1
    · exact ht3
  have hk0a : k0 ≤ a := by
    obtain ⟨c, hc⟩ : ∃ c, k0 = c + 1 := ⟨k0 - 1, by omega⟩
    subst hc
    simp only [Nat.add_sub_cancel] at hk1
    have : c ≤ c * b := Nat.le_mul_of_pos_right c hb
    omega
  have hdiv : (m + 2 ^ t - 1) / 2 ^ t = k0 := by
    have e0 : k0 * 2 ^ t = (k0 - 1) * 2 ^ t + 2 ^ t := by
      obtain ⟨c, hc⟩ : ∃ c, k0 = c + 1 := ⟨k0 - 1, by omega⟩
      subst hc
      simp only [Nat.add_sub_cancel]
      ring
    apply Nat.div_eq_of_lt_le
    · omega
    · have e : (k0 + 1) * 2 ^ t = k0 * 2 ^ t + 2 ^ t := by ring
      omega
  have hb53 : b < 2 ^ 53 := by omega
  have e1 : Float64.ofInt (a : Int) = .fin false a 0 := by
    unfold Float64.ofInt
    rw [if_pos (by rw [Int.natAbs_ofNat]; exact ha)]
    simp
  have e2 : Float64.ofInt (b : Int) = .fin false b 0 := by
    unfold Float64.ofInt
    rw [if_pos (by rw [Int.natAbs_ofNat]; exact hb53)]
    simp
  have e3 : (Float64.fin false a 0).div (.fin false b 0) = .fin false m (-(t : Int)) := by
    simp only [Float64.div]
    rw [if_neg (by omega), if_neg (by omega), hm, ht1]
    simp
  rw [e1, e2, e3]
  have hk63 : (k0 : Int) < 2 ^ 63 := by
    have : (a : Int) < 2 ^ 53 := by exact_mod_cast ha
    have : (k0 : Int) ≤ a := by exact_mod_cast hk0a
    omega
  by_cases h0 : t = 0
  · subst h0
    simp only [pow_zero, Nat.add_sub_cancel, Nat.div_one] at hdiv
    subst hdiv
    simp only [Float64.Ceil, Float64.toInt64]
    simp
    omega
  · have hneg : ¬ (-(t : Int) ≥ 0) := by omega
    simp only [Float64.Ceil, hneg, if_false]
    have ht : (- -(t : Int)).toNat = t := by simp
    simp only [ht, hdiv, Float64.toInt64]
    simp
    omega

theorem ceil_div_cast (a b : Nat) (hb : 0 < b) (ha : 0 < a) :
    ⌈((a : Int) : ℚ) / ((b : Int) : ℚ)⌉ = (((a + b - 1) / b : Nat) : Int) := by
  obtain ⟨hk1, hk2, hk3⟩ := ceil_div_bounds a b hb ha
  generalize (a + b - 1) / b = k0 at hk1 hk2 hk3
  have hbq : (0 : ℚ) < (b : ℚ) := by exact_mod_cast hb
  rw [Int.ceil_eq_iff]
  simp only [Int.cast_natCast]
  constructor
  · rw [lt_div_iff₀ hbq]
    have h : ((k0 - 1 : Nat) : ℚ) * b + 1 ≤ a := by exact_mod_cast hk1
    have e : ((k0 - 1 : Nat) : ℚ) = (k0 : ℚ) - 1 := by
      rw [Nat.cast_sub hk3]; simp
    rw [e] at h
    linarith
  · rw [div_le_iff₀ hbq]
    exact_mod_cast hk2

/-! ### Comparison, division and rounding of decimals -/

theorem bigCmp_lt (a b : Int) : bigCmp a b = -1 ↔ a < b := by
  unfold bigCmp
  by_cases h : a < b
  · simp [h]
  · by_cases h2 : a = b
    · simp [h, h2]
    · simp [h, h2]

theorem bigCmp_gt (a b : Int) : bigCmp a b = 1 ↔ b < a := by
  unfold bigCmp
  by_cases h : a < b
  · simp [h]; omega
  · by_cases h2 : a = b
    · simp [h, h2]
    · simp [h, h2]; omega

theorem bigCmp_eq (a b : Int) : bigCmp a b = 0 ↔ a = b := by
  unfold bigCmp
  by_cases h : a < b
  · simp [h]; omega
  · by_cases h2 : a = b
    · simp [h, h2]
    · simp [h, h2]

theorem Decimal.Cmp_rescaled (d d2 : Decimal) :
    d.Cmp d2 = bigCmp (d.rescale (min d.exp d2.exp)).value
      (d2.rescale (min d.exp d2.exp)).value := by
  unfold Decimal.Cmp
  by_cases h : d.exp = d2.exp
  · rw [if_pos h, h, min_self]
    have e1 : d.rescale d2.exp = d := by unfold Decimal.rescale; rw [if_pos h]
    have e2 : d2.rescale d2.exp = d2 := by unfold Decimal.rescale; rw [if_pos rfl]
    rw [e1, e2]
  · rw [if_neg h]

theorem Decimal.toRat_lt_iff (d d2 : Decimal) :
    d.toRat < d2.toRat ↔
      (d.rescale (min d.exp d2.exp)).value < (d2.rescale (min d.exp d2.exp)).value := by
  rw [← Decimal.toRat_eq_rescaled d (min d.exp d2.exp) (min_le_left _ _),
    ← Decimal.toRat_eq_rescaled d2 (min d.exp d2.exp) (min_le_right _ _)]
  have hp : (0 : ℚ) < (10 : ℚ) ^ (min d.exp d2.exp) := zpow_pos (by norm_num) _
  rw [mul_lt_mul_right hp]
  exact Int.cast_lt

theorem Decimal.LessThan_iff (d d2 : Decimal) : d.LessThan d2 = true ↔ d.toRat < d2.toRat := by
  unfold Decimal.LessThan
  rw [decide_eq_true_iff, Decimal.Cmp_rescaled, bigCmp_lt, Decimal.toRat_lt_iff]

theorem Decimal.GreaterThan_iff (d d2 : Decimal) :
    d.GreaterThan d2 = true ↔ d2.toRat < d.toRat := by
  unfold Decimal.GreaterThan
  rw [decide_eq_true_iff, Decimal.Cmp_rescaled, bigCmp_gt, Decimal.toRat_lt_iff, min_comm]

theorem Decimal.GreaterThanOrEqual_iff (d d2 : Decimal) :
    d.GreaterThanOrEqual d2 = true ↔ d2.toRat ≤ d.toRat := by
  unfold Decimal.GreaterThanOrEqual
  rw [decide_eq_true_iff, Decimal.Cmp_rescaled, bigCmp_gt, bigCmp_eq, ← not_lt,
    Decimal.toRat_lt_iff]
  omega

theorem Decimal.Div_thousand (n : Int) :
    (Decimal.New n 0).Div (Decimal.New 1000 0) = some ⟨n * 10 ^ 13, -16⟩ := by
  have e1 : Int.tdiv (n * 10 ^ 16) 1000 = n * 10 ^ 13 := by
    have : n * 10 ^ 16 = n * 10 ^ 13 * 1000 := by ring
    rw [this]
    exact Int.mul_tdiv_cancel _ (by decide)
  have e2 : Int.tmod (n * 10 ^ 16) 1000 = 0 := by
    have : n * 10 ^ 16 = n * 10 ^ 13 * 1000 := by ring
    rw [this]
    exact Int.mul_tmod_left _ _
  have hq : (Decimal.New n 0).QuoRem (Decimal.New 1000 0) 16 =
      some (⟨n * 10 ^ 13, -16⟩, ⟨0, -16⟩) := by
    simp only [Decimal.QuoRem, Decimal.New]
    rw [if_neg (by decide), if_neg (by decide), if_neg (by decide), if_neg (by decide),
      if_neg (by decide)]
    have : ((0 : Int) - 0 - -16).toNat = 16 := by decide
    rw [this, e1, e2]
    rfl
  unfold Decimal.Div Decimal.DivRound DivisionPrecision
  rw [hq]
  simp only
  rw [if_pos (by decide)]

theorem Decimal.toRat_Mul (d d2 p : Decimal) (h : d.Mul d2 = some p) :
    p.toRat = d.toRat * d2.toRat := by
  unfold Decimal.Mul at h
  simp only at h
  split at h
  · exact absurd h (by simp)
  · have := Option.some.inj h
    subst this
    simp only [Decimal.toRat]
    push_cast
    rw [zpow_add₀ (by norm_num : (10 : ℚ) ≠ 0)]
    ring

theorem Decimal.Round_exp (d : Decimal) (places : Int) : (d.Round places).exp = -places := by
  unfold Decimal.Round
  split
  · assumption
  · simp only [Decimal.rescale_exp]
    omega

theorem roundHalfAway_bounds (t : Int) :
    (0 ≤ t →
      10 * (if Int.ediv (if t < 0 then t - 5 else t + 5) 10 < 0 ∧
            Int.emod (if t < 0 then t - 5 else t + 5) 10 ≠ 0
          then Int.ediv (if t < 0 then t - 5 else t + 5) 10 + 1
          else Int.ediv (if t < 0 then t - 5 else t + 5) 10) - 5 ≤ t ∧
      t ≤ 10 * (if Int.ediv (if t < 0 then t - 5 else t + 5) 10 < 0 ∧
            Int.emod (if t < 0 then t - 5 else t + 5) 10 ≠ 0
          then Int.ediv (if t < 0 then t - 5 else t + 5) 10 + 1
          else Int.ediv (if t < 0 then t - 5 else t + 5) 10) + 4) ∧
    (t ≤ 0 →
      10 * (if Int.ediv (if t < 0 then t - 5 else t + 5) 10 < 0 ∧
            Int.emod (if t < 0 then t - 5 else t + 5) 10 ≠ 0
          then Int.ediv (if t < 0 then t - 5 else t + 5) 10 + 1
          else Int.ediv (if t < 0 then t - 5 else t + 5) 10) - 4 ≤ t ∧
      t ≤ 10 * (if Int.ediv (if t < 0 then t - 5 else t + 5) 10 < 0 ∧
            Int.emod (if t < 0 then t - 5 else t + 5) 10 ≠ 0
          then Int.ediv (if t < 0 then t - 5 else t + 5) 10 + 1
          else Int.ediv (if t < 0 then t - 5 else t + 5) 10) + 5) := by
  have e1 : ∀ v : Int, Int.ediv v 10 = v / 10 := fun _ => rfl
  have e2 : ∀ v : Int, Int.emod v 10 = v % 10 := fun _ => rfl
  simp only [e1, e2]
  by_cases h0 : t < 0
  · simp only [h0, if_true]
    constructor
    · intro h; omega
    · intro _
      split <;> omega
  · simp only [h0, if_false]
    constructor
    · intro _
      split <;> omega
    · intro _
      split <;> omega

theorem trunc_round_bounds (V P t R : Int) (hP : 0 < P) (ht : t = Int.tdiv V P)
    (h1 : 0 ≤ t → 10 * R - 5 ≤ t ∧ t ≤ 10 * R + 4)
    (h2 : t ≤ 0 → 10 * R - 4 ≤ t ∧ t ≤ 10 * R + 5) :
    -(5 * P) ≤ 10 * R * P - V ∧ 10 * R * P - V ≤ 5 * P := by
  by_cases hV : 0 ≤ V
  · rw [Int.tdiv_eq_ediv hV (le_of_lt hP)] at ht
    have ht0 : 0 ≤ t := by rw [ht]; exact Int.ediv_nonneg hV (le_of_lt hP)
    have a1 : t * P ≤ V := by rw [ht]; exact Int.ediv_mul_le V (ne_of_gt hP)
    have a2 : V < (t + 1) * P := by rw [ht]; exact Int.lt_ediv_add_one_mul_self V hP
    obtain ⟨b1, b2⟩ := h1 ht0
    have c1 : (10 * R - 5) * P ≤ t * P := mul_le_mul_of_nonneg_right b1 (le_of_lt hP)
    have c2 : (t + 1) * P ≤ (10 * R + 5) * P :=
      mul_le_mul_of_nonneg_right (by omega) (le_of_lt hP)
    constructor <;> nlinarith
  · have hV' : 0 ≤ -V := by omega
    have e : Int.tdiv V P = -((-V) / P) := by
      have h := Int.neg_tdiv (-V) P
      rw [neg_neg] at h
      rw [h, Int.tdiv_eq_ediv hV' (le_of_lt hP)]
    rw [e] at ht
    have hu0 : 0 ≤ (-V) / P := Int.ediv_nonneg hV' (le_of_lt hP)
    have a1 : (-V) / P * P ≤ -V := Int.ediv_mul_le (-V) (ne_of_gt hP)
    have a2 : -V < ((-V) / P + 1) * P := Int.lt_ediv_add_one_mul_self (-V) hP
    generalize (-V) / P = u at ht hu0 a1 a2
    obtain ⟨b1, b2⟩ := h2 (by omega)
    have c1 : (10 * R - 4) * P ≤ t * P := mul_le_mul_of_nonneg_right b1 (le_of_lt hP)
    have c2 : t * P ≤ (10 * R + 5) * P := mul_le_mul_of_nonneg_right b2 (le_of_lt hP)
    subst ht
    constructor <;> nlinarith

theorem Decimal.Round_near (d : Decimal) (places : Int) :
    |(d.Round places).toRat - d.toRat| ≤ 1 / 2 * (10 : ℚ) ^ (-places) := by
  have h10 : (10 : ℚ) ≠ 0 := by norm_num
  unfold Decimal.Round
  by_cases h : d.exp = -places
  · rw [if_pos h]
    simp only [sub_self, abs_zero]
    positivity
  · rw [if_neg h]
    simp only [Decimal.rescale_exp]
    obtain ⟨hb1, hb2⟩ := roundHalfAway_bounds (d.rescale (-places - 1)).value
    generalize (if Int.ediv (if (d.rescale (-places - 1)).value < 0
          then (d.rescale (-places - 1)).value - 5
          else (d.rescale (-places - 1)).value + 5) 10 < 0 ∧
        Int.emod (if (d.rescale (-places - 1)).value < 0
          then (d.rescale (-places - 1)).value - 5
          else (d.rescale (-places - 1)).value + 5) 10 ≠ 0
      then Int.ediv (if (d.rescale (-places - 1)).value < 0
          then (d.rescale (-places - 1)).value - 5
          else (d.rescale (-places - 1)).value + 5) 10 + 1
      else Int.ediv (if (d.rescale (-places - 1)).value < 0
          then (d.rescale (-places - 1)).value - 5
          else (d.rescale (-places - 1)).value + 5) 10) = R at hb1 hb2 ⊢
    have hE : (10 : ℚ) ^ (-places) = 10 * (10 : ℚ) ^ (-places - 1) := by
      have : -places = 1 + (-places - 1) := by ring
      rw [this, zpow_add₀ h10, zpow_one]
      congr 2
      ring
    have hE1 : (10 : ℚ) ^ (-places - 1 + 1) = 10 * (10 : ℚ) ^ (-places - 1) := by
      rw [zpow_add₀ h10, zpow_one, mul_comm]
    have hEpos : (0 : ℚ) < (10 : ℚ) ^ (-places - 1) := zpow_pos (by norm_num) _
    simp only [Decimal.toRat]
    rw [hE, hE1]
    by_cases hle : -places - 1 ≤ d.exp
    · have ht := Decimal.toRat_eq_rescaled d (-places - 1) hle
      simp only [Decimal.toRat] at ht
      rw [← ht]
      generalize (d.rescale (-places - 1)).value = t at hb1 hb2
      have hbound : -5 ≤ 10 * R - t ∧ 10 * R - t ≤ 5 := by
        by_cases h0 : 0 ≤ t
        · have := hb1 h0; omega
        · have := hb2 (by omega); omega
      have q1 : (-5 : ℚ) ≤ 10 * (R : ℚ) - t := by exact_mod_cast hbound.1
      have q2 : 10 * (R : ℚ) - (t : ℚ) ≤ 5 := by exact_mod_cast hbound.2
      rw [abs_le]
      constructor <;> nlinarith
    · have hlt : d.exp < -places - 1 := by omega
      have hres : (d.rescale (-places - 1)).value =
          Int.tdiv d.value (10 ^ (-places - 1 - d.exp).toNat) := by
        unfold Decimal.rescale
        rw [if_neg (by omega), if_pos (by omega)]
      have hk : (((-places - 1 - d.exp).toNat : Nat) : Int) = -places - 1 - d.exp :=
        Int.toNat_of_nonneg (by omega)
      have hP : (0 : Int) < 10 ^ (-places - 1 - d.exp).toNat := by positivity
      have hsplit : (10 : ℚ) ^ (-places - 1) =
          ((10 ^ (-places - 1 - d.exp).toNat : Int) : ℚ) * (10 : ℚ) ^ d.exp := by
        push_cast
        rw [← zpow_natCast, hk, ← zpow_add₀ h10]
        congr 1
        ring
      generalize (d.rescale (-places - 1)).value = t at hb1 hb2 hres
      obtain ⟨c1, c2⟩ := trunc_round_bounds d.value _ t R hP hres hb1 hb2
      generalize (10 : Int) ^ (-places - 1 - d.exp).toNat = P at hP hsplit c1 c2
      have hX : (0 : ℚ) < (10 : ℚ) ^ d.exp := zpow_pos (by norm_num) _
      rw [hsplit]
      generalize (10 : ℚ) ^ d.exp = X at hX
      have q1 : -(5 * (P : ℚ)) ≤ 10 * (R : ℚ) * P - d.value := by exact_mod_cast c1
      have q2 : 10 * (R : ℚ) * P - (d.value : ℚ) ≤ 5 * P := by exact_mod_cast c2
      rw [abs_le]
      constructor <;> nlinarith

/-! ### The fee formula -/

theorem wrapInt64_of_range (x : Int) (h1 : -(2 ^ 63) ≤ x) (h2 : x < 2 ^ 63) : wrapInt64 x = x := by
  unfold wrapInt64
  omega

theorem piece_eq_ceil (inputs maxTxInputs : Int) (hmax : 1 ≤ maxTxInputs)
    (hgt : inputs > maxTxInputs) (hin : inputs < 2 ^ 53) :
    ((Float64.ofInt inputs).div (Float64.ofInt maxTxInputs)).Ceil.toInt64 =
        ⌈(inputs : ℚ) / (maxTxInputs : ℚ)⌉ ∧
      1 ≤ ⌈(inputs : ℚ) / (maxTxInputs : ℚ)⌉ ∧ ⌈(inputs : ℚ) / (maxTxInputs : ℚ)⌉ ≤ inputs := by
  obtain ⟨a, rfl⟩ : ∃ a : Nat, inputs = (a : Int) := ⟨inputs.toNat, by omega⟩
  obtain ⟨b, rfl⟩ : ∃ b : Nat, maxTxInputs = (b : Int) := ⟨maxTxInputs.toNat, by omega⟩
  have hb : 0 < b := by omega
  have hab : b < a := by omega
  have ha : a < 2 ^ 53 := by omega
  obtain ⟨hk1, hk2, hk3⟩ := ceil_div_bounds a b hb (by omega)
  rw [float_ceil_div a b hb hab ha, ceil_div_cast a b hb (by omega)]
  refine ⟨rfl, by exact_mod_cast hk3, ?_⟩
  generalize (a + b - 1) / b = k0 at hk1 hk2 hk3
  obtain ⟨c, hc⟩ : ∃ c, k0 = c + 1 := ⟨k0 - 1, by omega⟩
  subst hc
  simp only [Nat.add_sub_cancel] at hk1
  have : c ≤ c * b := Nat.le_mul_of_pos_right c hb
  exact_mod_cast (by omega : c + 1 ≤ a)

/-- C29, amended: for `0 ≤ inputs < 2 ^ 53`, `0 ≤ outputs < 2 ^ 57`,
`MaxTxInputs ≥ 1` and a fee rate whose exponent leaves room for the 16 digits
of the division, `EstimateFee` returns a fee `fee` such that, with
`piece = 1` when `inputs ≤ MaxTxInputs` and `ceil(inputs / MaxTxInputs)`
otherwise: `fee` is the larger of `MinFees` and a decimal `rounded` that has
the configured number of decimal places and is within half a unit of the last
place of `(180*inputs + 34*outputs + 10*piece) / 1000 * feeRate`; in
particular the fee is not below `MinFees`. -/
theorem estimateFee_formula (cfg : WalletConfig) (inputs outputs : Int) (feeRate : Decimal)
    (hmax : 1 ≤ cfg.MaxTxInputs) (hin0 : 0 ≤ inputs) (hin : inputs < 2 ^ 53)
    (hout0 : 0 ≤ outputs) (hout : outputs < 2 ^ 57)
    (hexp1 : -(2 ^ 31) + 16 ≤ feeRate.exp) (hexp2 : feeRate.exp ≤ 2 ^ 31 - 1) :
    ∃ fee rounded : Decimal,
      EstimateFee cfg inputs outputs feeRate = some fee ∧
      rounded.exp = -cfg.Decimals ∧
      |rounded.toRat -
          (((180 * inputs + 34 * outputs +
              10 * (if inputs ≤ cfg.MaxTxInputs then 1
                    else ⌈(inputs : ℚ) / (cfg.MaxTxInputs : ℚ)⌉) : Int) : ℚ) / 1000 *
            feeRate.toRat)| ≤ 1 / 2 * (10 : ℚ) ^ (-cfg.Decimals) ∧
      fee.toRat = max cfg.MinFees.toRat rounded.toRat ∧
      (fee = cfg.MinFees ∨ fee = rounded) ∧
      cfg.MinFees.toRat ≤ fee.toRat := by
  -- the number of pieces
  obtain ⟨p, hp, hp1, hp2⟩ : ∃ p : Int,
      (if inputs > cfg.MaxTxInputs then
        ((Float64.ofInt inputs).div (Float64.ofInt cfg.MaxTxInputs)).Ceil.toInt64
       else 1) = p ∧
      (if inputs ≤ cfg.MaxTxInputs then 1 else ⌈(inputs : ℚ) / (cfg.MaxTxInputs : ℚ)⌉) = p ∧
      1 ≤ p ∧ p < 2 ^ 53 := by
    by_cases hgt : inputs > cfg.MaxTxInputs
    · obtain ⟨e1, e2, e3⟩ := piece_eq_ceil inputs cfg.MaxTxInputs hmax hgt hin
      refine ⟨_, by rw [if_pos hgt], by rw [if_neg (by omega)]; exact e1.symm, ?_, ?_⟩
      · rw [e1]; exact e2
      · rw [e1]; omega
    · exact ⟨1, by rw [if_neg hgt], by rw [if_pos (by omega)], by decide, by decide⟩
  rw [hp1]
  -- the size in bytes does not wrap
  have hbytes : wrapInt64 (inputs * 180 + outputs * 34 + p * 10) =
      180 * inputs + 34 * outputs + 10 * p := by
    rw [wrapInt64_of_range _ (by omega) (by omega)]
    ring
  -- the exact product
  have hmul : (⟨(180 * inputs + 34 * outputs + 10 * p) * 10 ^ 13, -16⟩ : Decimal).Mul feeRate =
      some ⟨(180 * inputs + 34 * outputs + 10 * p) * 10 ^ 13 * feeRate.value,
        -16 + feeRate.exp⟩ := by
    unfold Decimal.Mul
    simp only
    rw [if_neg (by omega)]
  have hprod := Decimal.toRat_Mul _ _ _ hmul
  have hq : (⟨(180 * inputs + 34 * outputs + 10 * p) * 10 ^ 13, -16⟩ : Decimal).toRat =
      ((180 * inputs + 34 * outputs + 10 * p : Int) : ℚ) / 1000 := by
    simp only [Decimal.toRat]
    push_cast
    rw [zpow_neg]
    norm_num
    ring
  rw [hq] at hprod
  generalize hprodDef : (⟨(180 * inputs + 34 * outputs + 10 * p) * 10 ^ 13 * feeRate.value,
    -16 + feeRate.exp⟩ : Decimal) = product at hmul hprod
  have hcode : EstimateFee cfg inputs outputs feeRate =
      if (product.Round cfg.Decimals).LessThan cfg.MinFees then some cfg.MinFees
      else some (product.Round cfg.Decimals) := by
    unfold EstimateFee
    simp only [hp, hbytes, Decimal.Div_thousand, hmul]
  have hnear := Decimal.Round_near product cfg.Decimals
  rw [hprod] at hnear
  by_cases hless : (product.Round cfg.Decimals).LessThan cfg.MinFees = true
  · have hlt := (Decimal.LessThan_iff _ _).mp hless
    refine ⟨cfg.MinFees, product.Round cfg.Decimals, by rw [hcode, if_pos hless],
      Decimal.Round_exp _ _, hnear, ?_, Or.inl rfl, le_refl _⟩
    rw [max_eq_left (le_of_lt hlt)]
  · have hge : ¬ (product.Round cfg.Decimals).toRat < cfg.MinFees.toRat :=
      fun h => hless ((Decimal.LessThan_iff _ _).mpr h)
    refine ⟨product.Round cfg.Decimals, product.Round cfg.Decimals, by rw [hcode, if_neg hless],
      Decimal.Round_exp _ _, hnear, ?_, Or.inr rfl, not_lt.mp hge⟩
    rw [max_eq_right (not_lt.mp hge)]

/-- Witness of C29: 120 inputs (three pieces of at most 50), 2 outputs and the
fee rate 0.0001 give 21698 bytes and the fee 0.0021698, which is above the
minimum fee 0.00001. -/
theorem estimateFee_formula_witness :
    EstimateFee ⟨50, ⟨1, -5⟩, 8⟩ 120 2 ⟨1, -4⟩ = some ⟨216980, -8⟩ ∧
    ∃ fee rounded : Decimal,
      EstimateFee ⟨50, ⟨1, -5⟩, 8⟩ 120 2 ⟨1, -4⟩ = some fee ∧
      rounded.exp = -(⟨50, ⟨1, -5⟩, 8⟩ : WalletConfig).Decimals ∧
      |rounded.toRat -
          (((180 * 120 + 34 * 2 +
              10 * (if (120 : Int) ≤ (⟨50, ⟨1, -5⟩, 8⟩ : WalletConfig).MaxTxInputs then 1
                    else ⌈((120 : Int) : ℚ) /
                      ((⟨50, ⟨1, -5⟩, 8⟩ : WalletConfig).MaxTxInputs : ℚ)⌉) : Int) : ℚ) / 1000 *
            (⟨1, -4⟩ : Decimal).toRat)| ≤
        1 / 2 * (10 : ℚ) ^ (-(⟨50, ⟨1, -5⟩, 8⟩ : WalletConfig).Decimals) ∧
      fee.toRat = max (⟨50, ⟨1, -5⟩, 8⟩ : WalletConfig).MinFees.toRat rounded.toRat ∧
      (fee = (⟨50, ⟨1, -5⟩, 8⟩ : WalletConfig).MinFees ∨ fee = rounded) ∧
      (⟨50, ⟨1, -5⟩, 8⟩ : WalletConfig).MinFees.toRat ≤ fee.toRat :=
  ⟨by decide,
    estimateFee_formula ⟨50, ⟨1, -5⟩, 8⟩ 120 2 ⟨1, -4⟩ (by decide) (by decide) (by decide)
      (by decide) (by decide) (by decide) (by decide)⟩

set_option maxRecDepth 8192 in
/-- C29, refuted as stated: with at most 50 inputs per transaction,
`50 * 2 ^ 48 + 1` inputs, no output, the fee rate 1 and no minimum fee, the
conversion `float64(inputs)` rounds the number of inputs to `50 * 2 ^ 48`, so
`piece` is `2 ^ 48` and not `ceil(inputs / 50) = 2 ^ 48 + 1`, and the fee
returned is 0.01 below the value of the formula, which needs no rounding. -/
theorem estimateFee_piece_not_ceil :
    ((Float64.ofInt (50 * 2 ^ 48 + 1)).div (Float64.ofInt 50)).Ceil.toInt64 = 2 ^ 48 ∧
    EstimateFee defaultConfig (50 * 2 ^ 48 + 1) 0 (Decimal.New 1 0) =
      some ⟨(180 * (50 * 2 ^ 48 + 1) + 34 * 0 + 10 * 2 ^ 48) * 10 ^ 5, -8⟩ ∧
    ⌈((50 * 2 ^ 48 + 1 : Int) : ℚ) / ((50 : Int) : ℚ)⌉ = 2 ^ 48 + 1 ∧
    (⟨(180 * (50 * 2 ^ 48 + 1) + 34 * 0 + 10 * 2 ^ 48) * 10 ^ 5, -8⟩ : Decimal).toRat =
      ((180 * (50 * 2 ^ 48 + 1) + 34 * 0 + 10 * (2 ^ 48 + 1) : Int) : ℚ) / 1000 *
        (Decimal.New 1 0).toRat - 1 / 100 := by
  refine ⟨by decide, by decide, ?_, ?_⟩
  · rw [Int.ceil_eq_iff]
    norm_num
  · simp only [Decimal.toRat, Decimal.New]
    norm_num

/-! ## Selection of the unspent outputs (`CreateBTCRawTransaction`) -/

theorem outputTotal_appendOutput (output : List (String × Decimal)) (address : String)
    (amount : Decimal) :
    outputTotal (appendOutput output address amount) = outputTotal output + amount.toRat := by
  induction output with
  | nil => simp [appendOutput, outputTotal]
  | cons e rest ih =>
    obtain ⟨a, origin⟩ := e
    unfold appendOutput
    by_cases h : a = address
    · rw [if_pos h]
      simp only [outputTotal, List.map_cons, List.sum_cons, Decimal.toRat_Add]
      ring
    · rw [if_neg h]
      simp only [outputTotal, List.map_cons, List.sum_cons] at ih ⊢
      rw [ih]
      ring

theorem outputTotal_fold (toMap : List (String × String)) (m : List (String × Decimal))
    (t : Decimal) :
    outputTotal (toMap.foldl
        (fun outputAddrs e => appendOutput outputAddrs e.1 (Decimal.parseOrZero e.2)) m) -
      outputTotal m =
    (toMap.foldl (fun totalSend e => totalSend.Add (Decimal.parseOrZero e.2)) t).toRat -
      t.toRat := by
  induction toMap generalizing m t with
  | nil => simp
  | cons e rest ih =>
    simp only [List.foldl_cons]
    have h := ih (appendOutput m e.1 (Decimal.parseOrZero e.2)) (t.Add (Decimal.parseOrZero e.2))
    rw [outputTotal_appendOutput, Decimal.toRat_Add] at h
    linarith

theorem outputTotal_outputsOfTo (toMap : List (String × String)) :
    outputTotal (outputsOfTo toMap) = (totalOfTo toMap).toRat := by
  have h := outputTotal_fold toMap [] (Decimal.New 0 0)
  have h0 : (Decimal.New 0 0).toRat = 0 := by simp [Decimal.toRat, Decimal.New]
  have h1 : outputTotal [] = 0 := by simp [outputTotal]
  rw [h0, h1] at h
  unfold outputsOfTo totalOfTo
  linarith

theorem pickUnspents_total (c : Decimal) (l : List Unspent) (balance : Decimal)
    (usedUTXO : List Unspent) (h : balance.toRat = unspentTotal usedUTXO) :
    (pickUnspents c l balance usedUTXO).2.toRat =
      unspentTotal (pickUnspents c l balance usedUTXO).1 := by
  induction l generalizing balance usedUTXO with
  | nil => exact h
  | cons u rest ih =>
    have h1 : (balance.Add (Decimal.parseOrZero u.Amount)).toRat =
        unspentTotal (usedUTXO ++ [u]) := by
      rw [Decimal.toRat_Add, h]
      simp [unspentTotal]
    unfold pickUnspents
    by_cases hs : u.Spendable = true
    · rw [if_pos hs]
      split
      · exact h1
      · exact ih _ _ h1
    · rw [if_neg hs]
      exact ih _ _ h

theorem selectLoop_zero (cfg : WalletConfig) (unspents : List Unspent)
    (totalSend feesRate : Decimal) (destinations : Nat) (c : Decimal) :
    selectLoop cfg unspents totalSend feesRate destinations 0 c = .outOfFuel := rfl

set_option maxRecDepth 8192 in
theorem selectLoop_succ (cfg : WalletConfig) (unspents : List Unspent)
    (totalSend feesRate : Decimal) (destinations fuel : Nat) (c : Decimal) :
    selectLoop cfg unspents totalSend feesRate destinations (fuel + 1) c =
      if (pickUnspents c unspents (Decimal.New 0 0) []).2.LessThan c then .notEnough
      else
        match EstimateFee cfg ((pickUnspents c unspents (Decimal.New 0 0) []).1.length : Int)
            ((destinations : Int) + 1) feesRate with
        | none => .panic
        | some fees =>
          if (totalSend.Add fees).GreaterThan (pickUnspents c unspents (Decimal.New 0 0) []).2
          then selectLoop cfg unspents totalSend feesRate destinations fuel (totalSend.Add fees)
          else .selected (pickUnspents c unspents (Decimal.New 0 0) []).1
            (pickUnspents c unspents (Decimal.New 0 0) []).2 fees := rfl

theorem selectLoop_selected (cfg : WalletConfig) (unspents : List Unspent)
    (totalSend feesRate : Decimal) (destinations fuel : Nat) (c : Decimal)
    (usedUTXO : List Unspent) (balance fees : Decimal)
    (h : selectLoop cfg unspents totalSend feesRate destinations fuel c =
      .selected usedUTXO balance fees) :
    balance.toRat = unspentTotal usedUTXO ∧ totalSend.toRat + fees.toRat ≤ balance.toRat ∧
      EstimateFee cfg (usedUTXO.length : Int) ((destinations : Int) + 1) feesRate = some fees := by
  induction fuel generalizing c with
  | zero => rw [selectLoop_zero] at h; exact absurd h (by simp)
  | succ fuel ih =>
    rw [selectLoop_succ] at h
    split at h
    · exact absurd h (by simp)
    · split at h
      · exact absurd h (by simp)
      · rename_i fees0 hfee
        split at h
        · exact ih _ h
        · rename_i hgt
          injection h with e1 e2 e3
          subst e1 e2 e3
          refine ⟨?_, ?_, hfee⟩
          · exact pickUnspents_total c unspents _ [] (by simp [Decimal.toRat, Decimal.New, unspentTotal])
          · have := (Decimal.GreaterThan_iff (totalSend.Add fees0) _).not.mp hgt
            rw [Decimal.toRat_Add] at this
            exact not_lt.mp this

theorem selectLoop_selected_form (cfg : WalletConfig) (unspents : List Unspent)
    (totalSend feesRate : Decimal) (destinations fuel : Nat) (c : Decimal)
    (usedUTXO : List Unspent) (balance fees : Decimal)
    (h : selectLoop cfg unspents totalSend feesRate destinations fuel c =
      .selected usedUTXO balance fees) :
    ∃ c1, usedUTXO = (pickUnspents c1 unspents (Decimal.New 0 0) []).1 := by
  induction fuel generalizing c with
  | zero => rw [selectLoop_zero] at h; exact absurd h (by simp)
  | succ fuel ih =>
    rw [selectLoop_succ] at h
    split at h
    · exact absurd h (by simp)
    · split at h
      · exact absurd h (by simp)
      · split at h
        · exact ih _ h
        · injection h with e1 e2 e3
          exact ⟨c, e1.symm⟩

theorem selectLoop_more (cfg : WalletConfig) (unspents : List Unspent)
    (totalSend feesRate : Decimal) (destinations fuel k : Nat) (c : Decimal)
    (h : selectLoop cfg unspents totalSend feesRate destinations fuel c ≠ .outOfFuel) :
    selectLoop cfg unspents totalSend feesRate destinations (fuel + k) c =
      selectLoop cfg unspents totalSend feesRate destinations fuel c := by
  induction fuel generalizing c with
  | zero => exact absurd (selectLoop_zero _ _ _ _ _ _) h
  | succ fuel ih =>
    rw [show fuel + 1 + k = (fuel + k) + 1 by omega, selectLoop_succ, selectLoop_succ]
    rw [selectLoop_succ] at h
    by_cases h1 : (pickUnspents c unspents (Decimal.New 0 0) []).2.LessThan c = true
    · simp only [h1, ↓reduceIte]
    · simp only [h1, Bool.false_eq_true, ↓reduceIte] at h ⊢
      generalize EstimateFee cfg ((pickUnspents c unspents (Decimal.New 0 0) []).1.length : Int)
          ((destinations : Int) + 1) feesRate = x at h ⊢
      cases x with
      | none => rfl
      | some fees =>
        simp only at h ⊢
        by_cases h2 : (totalSend.Add fees).GreaterThan
            (pickUnspents c unspents (Decimal.New 0 0) []).2 = true
        · simp only [h2, ↓reduceIte] at h ⊢
          exact ih _ h
        · simp only [h2, Bool.false_eq_true, ↓reduceIte]

theorem listUnspentPages_succ (listunspent : Nat → List String → Option (List UnspentJSON))
    (min : Nat) (addresses : List String) (n i : Nat) (utxo : List Unspent) :
    listUnspentPages listunspent min addresses (n + 1) i utxo =
      if ((addresses.drop (i * 100)).take
          ((if (i + 1) * 100 > addresses.length then addresses.length else (i + 1) * 100) -
            i * 100)).length = 0 then
        listUnspentPages listunspent min addresses n (i + 1) utxo
      else
        match getListUnspentByCore listunspent min ((addresses.drop (i * 100)).take
          ((if (i + 1) * 100 > addresses.length then addresses.length else (i + 1) * 100) -
            i * 100)) with
        | none => none
        | some pice => listUnspentPages listunspent min addresses n (i + 1) (utxo ++ pice) :=
  rfl

theorem listUnspentPages_spendable
    (listunspent : Nat → List String → Option (List UnspentJSON)) (min : Nat)
    (addresses : List String) (n i : Nat) (utxo us : List Unspent)
    (hutxo : ∀ u ∈ utxo, u.Spendable = true)
    (h : listUnspentPages listunspent min addresses n i utxo = some us) :
    ∀ u ∈ us, u.Spendable = true := by
  induction n generalizing i utxo with
  | zero =>
    simp only [listUnspentPages, Option.some.injEq] at h
    subst h
    exact hutxo
  | succ n ih =>
    rw [listUnspentPages_succ] at h
    generalize (addresses.drop (i * 100)).take
      ((if (i + 1) * 100 > addresses.length then addresses.length else (i + 1) * 100) -
        i * 100) = searchAddrs at h
    by_cases hs : searchAddrs.length = 0
    · rw [if_pos hs] at h
      exact ih _ _ hutxo h
    · rw [if_neg hs] at h
      cases hp : getListUnspentByCore listunspent min searchAddrs with
      | none =>
        rw [hp] at h
        exact absurd h (by simp)
      | some pice =>
        rw [hp] at h
        refine ih _ _ ?_ h
        intro u hu
        rcases List.mem_append.mp hu with h1 | h1
        · exact hutxo u h1
        · unfold getListUnspentByCore at hp
          split at hp
          · exact absurd hp (by simp)
          · have := Option.some.inj hp
            subst this
            obtain ⟨j, _, rfl⟩ := List.mem_map.mp h1
            rfl

/-- Every output that `ListUnspent` returns has `Spendable = true`, whatever
the node reports. -/
theorem ListUnspent_spendable (listunspent : Nat → List String → Option (List UnspentJSON))
    (min : Nat) (addresses : List String) (us : List Unspent)
    (h : ListUnspent listunspent min addresses = some us) :
    ∀ u ∈ us, u.Spendable = true :=
  listUnspentPages_spendable listunspent min addresses _ 0 [] us (by simp) h

theorem Decimal.Round_self (d : Decimal) (places : Int) (h : d.exp = -places) :
    d.Round places = d := by
  unfold Decimal.Round
  rw [if_pos h]

theorem configOf_fields (minFees : Option String) :
    (configOf minFees).MaxTxInputs = 50 ∧ (configOf minFees).Decimals = 8 ∧
      ((configOf minFees).MinFees.Round (configOf minFees).Decimals).toRat =
        (configOf minFees).MinFees.toRat := by
  cases minFees with
  | none =>
    refine ⟨rfl, rfl, ?_⟩
    have h : Decimal.Zero.Round 8 = ⟨0, -8⟩ := by decide
    show (Decimal.Zero.Round 8).toRat = Decimal.Zero.toRat
    rw [h]
    simp [Decimal.toRat, Decimal.Zero]
  | some s =>
    refine ⟨rfl, rfl, ?_⟩
    show (((Decimal.parseOrZero s).Round 8).Round 8).toRat = ((Decimal.parseOrZero s).Round 8).toRat
    rw [Decimal.Round_self _ _ (Decimal.Round_exp _ _)]

/-- The fee that `EstimateFee` returns is printed by `StringFixed` without
loss, when this holds of the configured minimum fee: rounding it to the
configured number of places does not change its value. -/
theorem EstimateFee_rounded (cfg : WalletConfig)
    (hmin : (cfg.MinFees.Round cfg.Decimals).toRat = cfg.MinFees.toRat)
    (inputs outputs : Int) (feeRate fees : Decimal)
    (h : EstimateFee cfg inputs outputs feeRate = some fees) :
    (fees.Round cfg.Decimals).toRat = fees.toRat := by
  unfold EstimateFee at h
  simp only at h
  split at h
  · exact absurd h (by simp)
  · split at h
    · exact absurd h (by simp)
    · split at h
      · have := Option.some.inj h
        subst this
        exact hmin
      · have := Option.some.inj h
        subst this
        rw [Decimal.Round_self _ _ (Decimal.Round_exp _ _)]

/-! ### The selection loop ends -/

theorem pickUnspents_length_le (c : Decimal) (l : List Unspent) (balance : Decimal)
    (usedUTXO : List Unspent) :
    (pickUnspents c l balance usedUTXO).1.length ≤ usedUTXO.length + l.length := by
  induction l generalizing balance usedUTXO with
  | nil => simp [pickUnspents]
  | cons u rest ih =>
    unfold pickUnspents
    split
    · split
      · simp
      · have := ih (balance.Add (Decimal.parseOrZero u.Amount)) (usedUTXO ++ [u])
        simp only [List.length_append, List.length_singleton, List.length_cons, List.length_nil] at this ⊢
        omega
    · have := ih balance usedUTXO
      simp only [List.length_cons]
      omega

theorem pickUnspents_grows (c : Decimal) (l : List Unspent) (balance : Decimal)
    (usedUTXO : List Unspent) :
    usedUTXO.length < (pickUnspents c l balance usedUTXO).1.length ∨
      pickUnspents c l balance usedUTXO = (usedUTXO, balance) := by
  induction l generalizing balance usedUTXO with
  | nil => exact Or.inr rfl
  | cons u rest ih =>
    unfold pickUnspents
    split
    · split
      · left; simp
      · rcases ih (balance.Add (Decimal.parseOrZero u.Amount)) (usedUTXO ++ [u]) with h | h
        · left
          simp only [List.length_append, List.length_singleton] at h
          omega
        · left
          rw [h]
          simp
    · exact ih balance usedUTXO

theorem pickUnspents_next (c c' : Decimal) (l : List Unspent) (balance : Decimal)
    (usedUTXO : List Unspent) (hcc : c.toRat < c'.toRat)
    (hlt : (pickUnspents c l balance usedUTXO).2.toRat < c'.toRat) :
    (pickUnspents c' l balance usedUTXO).2.toRat < c'.toRat ∨
      (pickUnspents c l balance usedUTXO).1.length <
        (pickUnspents c' l balance usedUTXO).1.length := by
  induction l generalizing balance usedUTXO with
  | nil => exact Or.inl hlt
  | cons u rest ih =>
    by_cases hs : u.Spendable = true
    · by_cases h1 : (balance.Add (Decimal.parseOrZero u.Amount)).GreaterThanOrEqual c = true
      · have e1 : pickUnspents c (u :: rest) balance usedUTXO =
            (usedUTXO ++ [u], balance.Add (Decimal.parseOrZero u.Amount)) := by
          simp only [pickUnspents, hs, h1, if_true]
        rw [e1] at hlt ⊢
        have h2 : ¬ (balance.Add (Decimal.parseOrZero u.Amount)).GreaterThanOrEqual c' = true := by
          rw [Decimal.GreaterThanOrEqual_iff]
          exact not_le.mpr hlt
        have e2 : pickUnspents c' (u :: rest) balance usedUTXO =
            pickUnspents c' rest (balance.Add (Decimal.parseOrZero u.Amount))
              (usedUTXO ++ [u]) := by
          simp only [pickUnspents, hs, h2, if_true, if_false]
          simp
        rw [e2]
        rcases pickUnspents_grows c' rest (balance.Add (Decimal.parseOrZero u.Amount))
          (usedUTXO ++ [u]) with h | h
        · exact Or.inr h
        · rw [h]
          exact Or.inl hlt
      · have h2 : ¬ (balance.Add (Decimal.parseOrZero u.Amount)).GreaterThanOrEqual c' = true := by
          rw [Decimal.GreaterThanOrEqual_iff] at h1 ⊢
          intro hle
          exact h1 (le_trans (le_of_lt hcc) hle)
        have e1 : pickUnspents c (u :: rest) balance usedUTXO =
            pickUnspents c rest (balance.Add (Decimal.parseOrZero u.Amount))
              (usedUTXO ++ [u]) := by
          simp only [pickUnspents, hs, h1, if_true, if_false]
          simp
        have e2 : pickUnspents c' (u :: rest) balance usedUTXO =
            pickUnspents c' rest (balance.Add (Decimal.parseOrZero u.Amount))
              (usedUTXO ++ [u]) := by
          simp only [pickUnspents, hs, h2, if_true, if_false]
          simp
        rw [e1] at hlt
        rw [e1, e2]
        exact ih _ _ hlt
    · have e1 : pickUnspents c (u :: rest) balance usedUTXO =
          pickUnspents c rest balance usedUTXO := by
        simp only [pickUnspents, hs, if_false]
        simp
      have e2 : pickUnspents c' (u :: rest) balance usedUTXO =
          pickUnspents c' rest balance usedUTXO := by
        simp only [pickUnspents, hs, if_false]
        simp
      rw [e1] at hlt
      rw [e1, e2]
      exact ih _ _ hlt

theorem selectLoop_ends (cfg : WalletConfig) (unspents : List Unspent)
    (totalSend feesRate : Decimal) (destinations fuel : Nat) (c : Decimal)
    (h : unspents.length + 2 ≤
      fuel + (pickUnspents c unspents (Decimal.New 0 0) []).1.length) :
    selectLoop cfg unspents totalSend feesRate destinations fuel c ≠ .outOfFuel := by
  induction fuel generalizing c with
  | zero =>
    have := pickUnspents_length_le c unspents (Decimal.New 0 0) []
    simp only [List.length_nil] at this
    omega
  | succ fuel ih =>
    rw [selectLoop_succ]
    split
    · simp
    · rename_i hnl
      split
      · simp
      · rename_i fees hfee
        split
        · rename_i hgt
          have hbal : c.toRat ≤ (pickUnspents c unspents (Decimal.New 0 0) []).2.toRat := by
            have := (Decimal.LessThan_iff _ c).not.mp hnl
            exact not_lt.mp this
          have hnew := (Decimal.GreaterThan_iff (totalSend.Add fees) _).mp hgt
          rcases pickUnspents_next c (totalSend.Add fees) unspents (Decimal.New 0 0) []
            (lt_of_le_of_lt hbal hnew) hnew with hne | hmore
          · obtain ⟨f, rfl⟩ : ∃ f, fuel = f + 1 := ⟨fuel - 1, by
              have := pickUnspents_length_le c unspents (Decimal.New 0 0) []
              simp only [List.length_nil] at this
              omega⟩
            rw [selectLoop_succ, if_pos ((Decimal.LessThan_iff _ _).mpr hne)]
            simp
          · exact ih _ (by omega)
        · simp

theorem pickUnspents_ne_nil (c : Decimal) (l : List Unspent) (balance : Decimal)
    (hne : l ≠ []) (hall : ∀ u ∈ l, u.Spendable = true) :
    (pickUnspents c l balance []).1 ≠ [] := by
  cases l with
  | nil => exact absurd rfl hne
  | cons u rest =>
    unfold pickUnspents
    rw [if_pos (hall u (List.mem_cons_self _ _))]
    split
    · simp
    · rcases pickUnspents_grows c rest (balance.Add (Decimal.parseOrZero u.Amount)) ([] ++ [u])
        with h | h
      · intro hnil
        rw [hnil] at h
        simp at h
      · rw [h]
        simp

/-! ### The text of a decimal is read back as the same number -/

theorem digitChar_plain (k : Nat) (hk : k < 10) :
    Char.ofNat (48 + k) ≠ 'e' ∧ Char.ofNat (48 + k) ≠ 'E' ∧ Char.ofNat (48 + k) ≠ '.' ∧
      Char.ofNat (48 + k) ≠ '-' ∧ Char.ofNat (48 + k) ≠ '+' ∧
      ('0' ≤ Char.ofNat (48 + k) ∧ Char.ofNat (48 + k) ≤ '9') := by
  interval_cases k <;> decide

theorem AllDigits_append (a b : List Char) (ha : AllDigits a) (hb : AllDigits b) :
    AllDigits (a ++ b) := by
  intro c hc
  rcases List.mem_append.mp hc with h | h
  · exact ha c h
  · exact hb c h

theorem AllDigits_replicate (k : Nat) : AllDigits (List.replicate k '0') := by
  intro c hc
  exact ⟨0, by decide, List.eq_of_mem_replicate hc⟩

theorem digitsAux_digits (fuel n : Nat) (acc : List Char) (h : AllDigits acc) :
    AllDigits (Decimal.digitsAux fuel n acc) := by
  induction fuel generalizing n acc with
  | zero => simpa [Decimal.digitsAux] using h
  | succ fuel ih =>
    unfold Decimal.digitsAux
    have h1 : AllDigits (Char.ofNat (48 + n % 10) :: acc) := by
      intro c hc
      rcases List.mem_cons.mp hc with e | e
      · exact ⟨n % 10, Nat.mod_lt _ (by decide), e⟩
      · exact h c e
    by_cases hz : n / 10 = 0
    · simpa only [hz, if_true] using h1
    · simp only [hz, if_false]
      exact ih _ _ h1

theorem digitsAux_ne_nil (fuel n : Nat) (acc : List Char) (h : acc ≠ []) :
    Decimal.digitsAux fuel n acc ≠ [] := by
  induction fuel generalizing n acc with
  | zero => simpa [Decimal.digitsAux] using h
  | succ fuel ih =>
    unfold Decimal.digitsAux
    by_cases hz : n / 10 = 0
    · simp only [hz, if_true]
      simp
    · simp only [hz, if_false]
      exact ih _ _ (by simp)

theorem natString_digits (n : Nat) : AllDigits (Decimal.natString n) :=
  digitsAux_digits _ _ _ (by intro c hc; simp at hc)

theorem natString_ne_nil (n : Nat) : Decimal.natString n ≠ [] := by
  unfold Decimal.natString Decimal.digitsAux
  by_cases hz : n / 10 = 0
  · simp only [hz, if_true]
    simp
  · simp only [hz, if_false]
    exact digitsAux_ne_nil _ _ _ (by simp)

theorem splitExp_plain (cs : List Char) (h : ∀ c ∈ cs, c ≠ 'e' ∧ c ≠ 'E') :
    Decimal.splitExp cs = (cs, none) := by
  induction cs with
  | nil => rfl
  | cons c cs ih =>
    have hc := h c (List.mem_cons_self _ _)
    simp only [Decimal.splitExp]
    rw [if_neg (not_or.mpr hc), ih fun x hx => h x (List.mem_cons_of_mem _ hx)]

theorem splitDot_plain (cs : List Char) (h : '.' ∉ cs) : Decimal.splitDot cs = [cs] := by
  induction cs with
  | nil => rfl
  | cons c cs ih =>
    have hc : c ≠ '.' := fun e => h (by rw [e]; exact List.mem_cons_self _ _)
    simp only [Decimal.splitDot, ih fun hx => h (List.mem_cons_of_mem _ hx)]
    rw [if_neg hc]

theorem splitDot_one (a b : List Char) (ha : '.' ∉ a) (hb : '.' ∉ b) :
    Decimal.splitDot (a ++ '.' :: b) = [a, b] := by
  induction a with
  | nil =>
    simp only [List.nil_append, Decimal.splitDot, splitDot_plain b hb]
    simp
  | cons c a ih =>
    have hc : c ≠ '.' := fun e => ha (by rw [e]; exact List.mem_cons_self _ _)
    rw [List.cons_append, Decimal.splitDot, ih fun hx => ha (List.mem_cons_of_mem _ hx)]
    exact if_neg hc

theorem trimRightZeros_spec (cs : List Char) :
    ∃ k, cs = Decimal.trimRightZeros cs ++ List.replicate k '0' := by
  have h := List.takeWhile_append_dropWhile (fun c => decide (c = '0')) cs.reverse
  refine ⟨(cs.reverse.takeWhile fun c => decide (c = '0')).length, ?_⟩
  have h1 : (cs.reverse.takeWhile fun c => decide (c = '0')) =
      List.replicate (cs.reverse.takeWhile fun c => decide (c = '0')).length '0' := by
    apply List.eq_replicate_iff.mpr
    refine ⟨rfl, ?_⟩
    intro c hc
    simpa using List.mem_takeWhile_imp hc
  have h2 : cs = (cs.reverse.dropWhile fun c => decide (c = '0')).reverse ++
      (cs.reverse.takeWhile fun c => decide (c = '0')).reverse := by
    rw [← List.reverse_append, h, List.reverse_reverse]
  unfold Decimal.trimRightZeros
  rw [h1, List.reverse_replicate] at h2
  exact h2

theorem parseDigits_fold (cs : List Char) (h : AllDigits cs) (a : Nat) :
    cs.foldl (fun acc c =>
      match acc with
      | none => none
      | some n => if '0' ≤ c ∧ c ≤ '9' then some (n * 10 + (c.toNat - 48)) else none)
      (some a) = some (cs.foldl (fun a c => a * 10 + (c.toNat - 48)) a) := by
  induction cs generalizing a with
  | nil => rfl
  | cons c cs ih =>
    obtain ⟨k, hk, rfl⟩ := h c (List.mem_cons_self _ _)
    simp only [List.foldl_cons]
    rw [if_pos (digitChar_plain k hk).2.2.2.2.2]
    exact ih (fun x hx => h x (List.mem_cons_of_mem _ hx)) _

theorem parseDigits_digits (cs : List Char) (hne : cs ≠ []) (h : AllDigits cs) :
    Decimal.parseDigits cs = some (digitsValue cs) := by
  cases cs with
  | nil => exact absurd rfl hne
  | cons c cs =>
    unfold Decimal.parseDigits
    exact parseDigits_fold _ h 0

theorem parseInt_digits (cs : List Char) (hne : cs ≠ []) (h : AllDigits cs) :
    Decimal.parseInt cs = some (digitsValue cs : Int) := by
  cases cs with
  | nil => exact absurd rfl hne
  | cons c cs =>
    obtain ⟨k, hk, hc⟩ := h c (List.mem_cons_self _ _)
    have hp := digitChar_plain k hk
    rw [← hc] at hp
    unfold Decimal.parseInt
    split
    · rename_i e
      exact absurd (List.cons.inj e).1 hp.2.2.2.1
    · rename_i e
      exact absurd (List.cons.inj e).1 hp.2.2.2.2.1
    · rw [parseDigits_digits _ hne h]
      rfl

theorem parseInt_minus (cs : List Char) (hne : cs ≠ []) (h : AllDigits cs) :
    Decimal.parseInt ('-' :: cs) = some (-(digitsValue cs : Int)) := by
  simp only [Decimal.parseInt, parseDigits_digits cs hne h, Option.map_some']
  rfl

theorem digitsValue_append (a b : List Char) :
    digitsValue (a ++ b) = digitsValue a * 10 ^ b.length + digitsValue b := by
  unfold digitsValue
  rw [List.foldl_append, digitsValue_foldl b]
  rfl

theorem digitsValue_zeros (k : Nat) : digitsValue (List.replicate k '0') = 0 := by
  induction k with
  | zero => rfl
  | succ k ih =>
    have h0 : '0'.toNat - 48 = 0 := by decide
    rw [List.replicate_succ, digitsValue_cons, ih, h0]
    simp

theorem zpow_shift (v : ℚ) (t k : Nat) :
    v * (10 : ℚ) ^ k * (10 : ℚ) ^ (-((t + k : Nat) : Int)) = v * (10 : ℚ) ^ (-(t : Int)) := by
  have h10 : (10 : ℚ) ≠ 0 := by norm_num
  rw [Nat.cast_add, neg_add, zpow_add₀ h10, zpow_neg, zpow_neg, zpow_natCast, zpow_natCast]
  field_simp
  ring

theorem NewFromString_fixed (neg : Prop) [Decidable neg] (ip fp : List Char)
    (hi : AllDigits ip) (hine : ip ≠ []) (hf : AllDigits fp)
    (hlen : (fp.length : Int) ≤ 2 ^ 31) :
    ∃ d, Decimal.NewFromString
        (String.mk (if neg then '-' :: (ip ++ '.' :: fp) else ip ++ '.' :: fp)) = some d ∧
      d.toRat = (if neg then -1 else 1) * (digitsValue (ip ++ fp) : ℚ) *
        (10 : ℚ) ^ (-(fp.length : Int)) := by
  obtain ⟨k, hk⟩ := trimRightZeros_spec fp
  have hT : AllDigits (Decimal.trimRightZeros fp) := by
    intro c hc
    exact hf c (by rw [hk]; exact List.mem_append_left _ hc)
  have hTlen : fp.length = (Decimal.trimRightZeros fp).length + k := by
    conv_lhs => rw [hk]
    simp
  have hval : digitsValue (ip ++ fp) =
      digitsValue (ip ++ Decimal.trimRightZeros fp) * 10 ^ k := by
    conv_lhs => rw [hk]
    rw [← List.append_assoc, digitsValue_append, digitsValue_zeros, List.length_replicate]
    simp
  have hnotdot : ∀ l, AllDigits l → '.' ∉ l := by
    intro l hl hm
    obtain ⟨j, hj, e⟩ := hl _ hm
    exact (digitChar_plain j hj).2.2.1 e.symm
  have hplain : ∀ l, AllDigits l → ∀ c ∈ l, c ≠ 'e' ∧ c ≠ 'E' := by
    intro l hl c hc
    obtain ⟨j, hj, e⟩ := hl _ hc
    rw [e]
    exact ⟨(digitChar_plain j hj).1, (digitChar_plain j hj).2.1⟩
  have hne : ip ++ Decimal.trimRightZeros fp ≠ [] := by
    intro h
    exact hine (List.append_eq_nil.mp h).1
  have hrange : -(2 ^ 31 : Int) ≤ 0 - ((Decimal.trimRightZeros fp).length : Int) ∧
      0 - ((Decimal.trimRightZeros fp).length : Int) < 2 ^ 31 := by
    have : ((Decimal.trimRightZeros fp).length : Int) ≤ fp.length := by
      rw [hTlen]
      push_cast
      omega
    constructor <;> omega
  have hall := AllDigits_append _ _ hi hT
  by_cases hn : neg
  · refine ⟨⟨-(digitsValue (ip ++ Decimal.trimRightZeros fp) : Int),
      0 - ((Decimal.trimRightZeros fp).length : Int)⟩, ?_, ?_⟩
    · rw [if_pos hn]
      have hsplit : Decimal.splitExp ('-' :: (ip ++ '.' :: fp)) =
          ('-' :: (ip ++ '.' :: fp), none) := by
        apply splitExp_plain
        intro c hc
        rcases List.mem_cons.mp hc with e | e
        · rw [e]; decide
        · rcases List.mem_append.mp e with e1 | e1
          · exact hplain ip hi c e1
          · rcases List.mem_cons.mp e1 with e2 | e2
            · rw [e2]; decide
            · exact hplain fp hf c e2
      have hdot : Decimal.splitDot ('-' :: (ip ++ '.' :: fp)) = ['-' :: ip, fp] := by
        have := splitDot_one ('-' :: ip) fp (by
          intro hm
          rcases List.mem_cons.mp hm with e | e
          · exact absurd e (by decide)
          · exact hnotdot ip hi e) (hnotdot fp hf)
        simpa using this
      unfold Decimal.NewFromString
      simp only [hsplit, hdot, List.cons_append, parseInt_minus _ hne hall, Option.bind_some,
        Option.some_bind, if_pos hrange]
    · rw [if_pos hn, hval]
      simp only [Decimal.toRat, hTlen]
      push_cast
      have := zpow_shift (-(digitsValue (ip ++ Decimal.trimRightZeros fp) : ℚ))
        (Decimal.trimRightZeros fp).length k
      simp only [zero_sub] at this ⊢
      push_cast at this
      linarith
  · refine ⟨⟨(digitsValue (ip ++ Decimal.trimRightZeros fp) : Int),
      0 - ((Decimal.trimRightZeros fp).length : Int)⟩, ?_, ?_⟩
    · rw [if_neg hn]
      have hsplit : Decimal.splitExp (ip ++ '.' :: fp) = (ip ++ '.' :: fp, none) := by
        apply splitExp_plain
        intro c hc
        rcases List.mem_append.mp hc with e1 | e1
        · exact hplain ip hi c e1
        · rcases List.mem_cons.mp e1 with e2 | e2
          · rw [e2]; decide
          · exact hplain fp hf c e2
      have hdot := splitDot_one ip fp (hnotdot ip hi) (hnotdot fp hf)
      unfold Decimal.NewFromString
      simp only [hsplit, hdot, parseInt_digits _ hne hall, Option.bind_some,
        Option.some_bind, if_pos hrange]
    · rw [if_neg hn, hval]
      simp only [Decimal.toRat, hTlen]
      push_cast
      have := zpow_shift ((digitsValue (ip ++ Decimal.trimRightZeros fp) : ℚ))
        (Decimal.trimRightZeros fp).length k
      simp only [zero_sub] at this ⊢
      push_cast at this
      linarith

/-- The text that `Decimal.string` gives to a decimal with `p ≥ 1` decimal
places is read by `decimal.NewFromString` as a decimal of the same value. -/
theorem Decimal.parse_string (d : Decimal) (p : Nat) (hp : 0 < p) (hp31 : (p : Int) ≤ 2 ^ 31)
    (hexp : d.exp = -(p : Int)) :
    ∃ d1, Decimal.NewFromString d.string = some d1 ∧ d1.toRat = d.toRat := by
  have hE : (-d.exp).toNat = p := by rw [hexp]; simp
  have hsign : (if d.value < 0 then (-1 : ℚ) else 1) * (d.value.natAbs : ℚ) = (d.value : ℚ) := by
    by_cases hv : d.value < 0
    · rw [if_pos hv, ← Int.cast_natCast, show (d.value.natAbs : Int) = -d.value by omega]
      push_cast
      ring
    · rw [if_neg hv, ← Int.cast_natCast, show (d.value.natAbs : Int) = d.value by omega]
      ring
  have hdig := natString_digits d.value.natAbs
  have hnn := natString_ne_nil d.value.natAbs
  unfold Decimal.string
  rw [if_neg (by omega)]
  simp only [hE]
  by_cases hl : (Decimal.natString d.value.natAbs).length > p
  · simp only [hl, if_true]
    have hfl : ((Decimal.natString d.value.natAbs).drop
        ((Decimal.natString d.value.natAbs).length - p)).length = p := by
      rw [List.length_drop]; omega
    rw [hfl]
    simp only [hp, if_true]
    obtain ⟨d1, h1, h2⟩ := NewFromString_fixed (d.value < 0)
      ((Decimal.natString d.value.natAbs).take ((Decimal.natString d.value.natAbs).length - p))
      ((Decimal.natString d.value.natAbs).drop ((Decimal.natString d.value.natAbs).length - p))
      (fun c hc => hdig c (List.mem_of_mem_take hc))
      (by
        intro h
        have := congrArg List.length h
        rw [List.length_take] at this
        simp only [List.length_nil] at this
        omega)
      (fun c hc => hdig c (List.mem_of_mem_drop hc))
      (by rw [hfl]; exact hp31)
    refine ⟨d1, h1, ?_⟩
    rw [h2, List.take_append_drop, digitsValue_natString, hfl, hsign, Decimal.toRat, hexp]
  · simp only [hl, if_false]
    have hfl : (List.replicate (p - (Decimal.natString d.value.natAbs).length) '0' ++
        Decimal.natString d.value.natAbs).length = p := by
      rw [List.length_append, List.length_replicate]; omega
    rw [hfl]
    simp only [hp, if_true]
    obtain ⟨d1, h1, h2⟩ := NewFromString_fixed (d.value < 0) ['0']
      (List.replicate (p - (Decimal.natString d.value.natAbs).length) '0' ++
        Decimal.natString d.value.natAbs)
      (fun c hc => ⟨0, by decide, List.mem_singleton.mp hc⟩) (by simp)
      (AllDigits_append _ _ (AllDigits_replicate _) hdig)
      (by rw [hfl]; exact hp31)
    refine ⟨d1, h1, ?_⟩
    have hv : digitsValue (['0'] ++ (List.replicate
        (p - (Decimal.natString d.value.natAbs).length) '0' ++
          Decimal.natString d.value.natAbs)) = d.value.natAbs := by
      rw [digitsValue_append, digitsValue_append, digitsValue_zeros, digitsValue_natString]
      have h0 : digitsValue ['0'] = 0 := by decide
      rw [h0]
      simp
    rw [h2, hv, hfl, hsign, Decimal.toRat, hexp]

/-- The selection of `CreateBTCRawTransaction` ends: allowed two passes more
than the node has returned unspent outputs, the loop does not run out of
passes. -/
theorem selectUnspents_ends (cfg : WalletConfig) (sorter : SortRoutine)
    (address : List String) (listunspent : Nat → List String → Option (List UnspentJSON))
    (unspents0 : List Unspent) (rawTx : RawTransaction) (fuel : Nat)
    (hlist : ListUnspent listunspent 0 address = some unspents0)
    (hfuel : unspents0.length + 2 ≤ fuel) :
    selectUnspents cfg sorter (some address) listunspent rawTx fuel ≠ .outOfFuel := by
  have hlen := (sorter.perm unspentLess unspents0).length_eq
  have hsel := selectLoop_ends cfg (sorter.sort unspentLess unspents0) (totalOfTo rawTx.To)
    (feesRateOf cfg rawTx) (rawTx.To.map fun e => e.1).length fuel (totalOfTo rawTx.To)
    (by omega)
  unfold selectUnspents
  simp only [hlist]
  split
  · simp
  · split
    · simp
    · split
      · simp
      · exact hsel

/-- The bound on the passes of the selection loop plays no part in what the
selection gives: with more passes allowed the result is the same. -/
theorem selectUnspents_more (cfg : WalletConfig) (sorter : SortRoutine)
    (addressList : Option (List String))
    (listunspent : Nat → List String → Option (List UnspentJSON))
    (rawTx : RawTransaction) (fuel k : Nat)
    (h : selectUnspents cfg sorter addressList listunspent rawTx fuel ≠ .outOfFuel) :
    selectUnspents cfg sorter addressList listunspent rawTx (fuel + k) =
      selectUnspents cfg sorter addressList listunspent rawTx fuel := by
  unfold selectUnspents at h ⊢
  cases addressList with
  | none => rfl
  | some address =>
    simp only at h ⊢
    by_cases h1 : address.length = 0
    · simp only [h1, if_true]
    · simp only [h1, if_false] at h ⊢
      cases hl : ListUnspent listunspent 0 address with
      | none => rfl
      | some unspents0 =>
        simp only [hl] at h ⊢
        by_cases h2 : unspents0.length = 0
        · simp only [h2, if_true]
        · simp only [h2, if_false] at h ⊢
          by_cases h3 : rawTx.To.length = 0
          · simp only [h3, if_true]
          · simp only [h3, if_false] at h ⊢
            exact selectLoop_more _ _ _ _ _ _ _ _ h

/-- C28: for every configuration that the program builds, every answer of
the node to `listunspent`, every sorting routine and every transaction
request: whenever the selection loop of `CreateBTCRawTransaction` ends
without error, with the selected outputs `usedUTXO`, their balance and the
fee `actualFees` (and this does not depend on the bound on the passes of the
loop), at least one output is selected, so that `usedUTXO[0]` does not panic;
the change, the balance minus the total sent minus the fee, is the sum of the
amounts of the selected outputs minus the total sent minus the fee, and is not
negative; the output amounts `outputAddrs` are those of `rawTx.To`, with the
change added under the address of the first selected output exactly when the
change is positive; the sum of the amounts of the selected outputs is the sum
of `outputAddrs` plus the fee; the text stored in `rawTx.Fees` is read back
by `decimal.NewFromString` as a decimal of the value of the fee; and when the
test of the number of selected outputs against `MaxTxInputs` passes as well,
so that the selection is finished without error, the function hands `rawTx`
with this text, `usedUTXO` and `outputAddrs` to `createVASRawTransaction`.
When that test fails the function returns its error, and nothing is stored
or handed over. -/
theorem createRawTransaction_conserves_value (minFees : Option String) (sorter : SortRoutine)
    (addressList : Option (List String))
    (listunspent : Nat → List String → Option (List UnspentJSON)) (rawTx : RawTransaction)
    (fuel : Nat) (usedUTXO : List Unspent) (balance actualFees : Decimal)
    (hsel : selectUnspents (configOf minFees) sorter addressList listunspent rawTx fuel =
      .selected usedUTXO balance actualFees) :
    ∃ (first : Unspent) (rest : List Unspent) (changeAmount : Decimal)
      (outputAddrs : List (String × Decimal)),
      (∀ k, selectUnspents (configOf minFees) sorter addressList listunspent rawTx (fuel + k) =
        .selected usedUTXO balance actualFees) ∧
      usedUTXO = first :: rest ∧
      changeAmount = (balance.Sub (totalOfTo rawTx.To)).Sub actualFees ∧
      changeAmount.toRat =
        unspentTotal usedUTXO - (totalOfTo rawTx.To).toRat - actualFees.toRat ∧
      0 ≤ changeAmount.toRat ∧
      outputAddrs =
        (if 0 < changeAmount.toRat then
          appendOutput (outputsOfTo rawTx.To) first.Address changeAmount
         else outputsOfTo rawTx.To) ∧
      unspentTotal usedUTXO = outputTotal outputAddrs + actualFees.toRat ∧
      (∃ feesRead, Decimal.NewFromString
          (actualFees.StringFixed (configOf minFees).Decimals) = some feesRead ∧
        feesRead.toRat = actualFees.toRat) ∧
      CreateBTCRawTransaction (configOf minFees) sorter addressList listunspent rawTx fuel =
        (if (usedUTXO.length : Int) > (configOf minFees).MaxTxInputs then .error
         else .handed
          { rawTx with
            FeeRate := (feesRateOf (configOf minFees) rawTx).StringFixed
              (configOf minFees).Decimals
            Fees := actualFees.StringFixed (configOf minFees).Decimals }
          usedUTXO outputAddrs) := by
  have hsel0 := hsel
  unfold selectUnspents at hsel
  split at hsel
  · exact absurd hsel (by simp)
  · rename_i address
    split at hsel
    · exact absurd hsel (by simp)
    · split at hsel
      · exact absurd hsel (by simp)
      · rename_i unspents0 hlist
        split at hsel
        · exact absurd hsel (by simp)
        · rename_i hne0
          split at hsel
          · exact absurd hsel (by simp)
          · simp only at hsel
            obtain ⟨hb, hle, hfee⟩ := selectLoop_selected _ _ _ _ _ _ _ _ _ _ hsel
            obtain ⟨c1, hform⟩ := selectLoop_selected_form _ _ _ _ _ _ _ _ _ _ hsel
            have hperm := sorter.perm unspentLess unspents0
            have hsp := ListUnspent_spendable listunspent 0 address unspents0 hlist
            have hsorted : sorter.sort unspentLess unspents0 ≠ [] := by
              intro hnil
              have := hperm.length_eq
              rw [hnil] at this
              exact hne0 this.symm
            have hused : usedUTXO ≠ [] := by
              rw [hform]
              exact pickUnspents_ne_nil c1 _ _ hsorted
                fun u hu => hsp u (hperm.mem_iff.mp hu)
            cases usedUTXO with
            | nil => exact absurd rfl hused
            | cons first rest =>
              have hchange : ((balance.Sub (totalOfTo rawTx.To)).Sub actualFees).toRat =
                  unspentTotal (first :: rest) - (totalOfTo rawTx.To).toRat -
                    actualFees.toRat := by
                rw [Decimal.toRat_Sub, Decimal.toRat_Sub, hb]
              have h0 : (Decimal.New 0 0).toRat = 0 := by simp [Decimal.toRat, Decimal.New]
              have hpos : ((balance.Sub (totalOfTo rawTx.To)).Sub actualFees).GreaterThan
                  (Decimal.New 0 0) = true ↔
                  0 < ((balance.Sub (totalOfTo rawTx.To)).Sub actualFees).toRat := by
                rw [Decimal.GreaterThan_iff, h0]
              have hnn : 0 ≤ ((balance.Sub (totalOfTo rawTx.To)).Sub actualFees).toRat := by
                rw [hchange, ← hb]
                linarith
              refine ⟨first, rest, (balance.Sub (totalOfTo rawTx.To)).Sub actualFees, _,
                ?_, rfl, rfl, hchange, hnn, rfl, ?_, ?_, ?_⟩
              · intro k
                rw [selectUnspents_more _ _ _ _ _ _ _ (by rw [hsel0]; simp), hsel0]
              · by_cases hp : 0 < ((balance.Sub (totalOfTo rawTx.To)).Sub actualFees).toRat
                · rw [if_pos hp, outputTotal_appendOutput, outputTotal_outputsOfTo, hchange]
                  ring
                · rw [if_neg hp, outputTotal_outputsOfTo]
                  have : ((balance.Sub (totalOfTo rawTx.To)).Sub actualFees).toRat = 0 :=
                    le_antisymm (not_lt.mp hp) hnn
                  rw [hchange] at this
                  linarith
              · have hround := EstimateFee_rounded _ (configOf_fields minFees).2.2 _ _ _ _ hfee
                rw [(configOf_fields minFees).2.1] at hround ⊢
                obtain ⟨feesRead, h1, h2⟩ := Decimal.parse_string (actualFees.Round 8) 8
                  (by decide) (by decide) (Decimal.Round_exp _ _)
                exact ⟨feesRead, h1, h2.trans hround⟩
              · unfold CreateBTCRawTransaction
                rw [hsel0]
                simp only
                by_cases hmax : ((first :: rest).length : Int) > (configOf minFees).MaxTxInputs
                · rw [if_pos hmax, if_pos hmax]
                · rw [if_neg hmax, if_neg hmax]
                  by_cases hp : 0 < ((balance.Sub (totalOfTo rawTx.To)).Sub actualFees).toRat
                  · rw [if_pos (hpos.mpr hp), if_pos hp]
                  · rw [if_neg (fun hh => hp (hpos.mp hh)), if_neg hp]

/-- Witness of C28: the minimum fee 0.0001 is loaded from the configuration
file; the node returns an output of 0.6 and an output of 0.5 that it reports
as not spendable; the amount 1 is sent to `"D"` at the fee rate 0.001. Both
outputs are selected, the smaller first, the fee is 0.000438, and the change
0.099562 goes to the address `"A"` of the first selected output:
`1.1 = 1 + 0.099562 + 0.000438`. -/
theorem createRawTransaction_conserves_value_witness :
    CreateBTCRawTransaction (configOf (some "0.0001")) sortByInsertion (some ["A"])
        listunspentTwo ⟨[("D", "1")], "0.001", ""⟩ 3 =
      .handed ⟨[("D", "1")], "0.00100000", "0.00043800"⟩
        [⟨"U1", 1, "A", "0.5", true⟩, ⟨"U2", 0, "A", "0.6", true⟩]
        [("D", ⟨1, 0⟩), ("A", ⟨9956200, -8⟩)] ∧
    ∃ (first : Unspent) (rest : List Unspent) (changeAmount : Decimal)
      (outputAddrs : List (String × Decimal)),
      (∀ k, selectUnspents (configOf (some "0.0001")) sortByInsertion (some ["A"])
          listunspentTwo ⟨[("D", "1")], "0.001", ""⟩ (3 + k) =
        .selected [⟨"U1", 1, "A", "0.5", true⟩, ⟨"U2", 0, "A", "0.6", true⟩] ⟨11, -1⟩
          ⟨43800, -8⟩) ∧
      [(⟨"U1", 1, "A", "0.5", true⟩ : Unspent), ⟨"U2", 0, "A", "0.6", true⟩] = first :: rest ∧
      changeAmount =
        ((⟨11, -1⟩ : Decimal).Sub (totalOfTo [("D", "1")])).Sub ⟨43800, -8⟩ ∧
      changeAmount.toRat =
        unspentTotal [⟨"U1", 1, "A", "0.5", true⟩, ⟨"U2", 0, "A", "0.6", true⟩] -
          (totalOfTo [("D", "1")]).toRat - (⟨43800, -8⟩ : Decimal).toRat ∧
      0 ≤ changeAmount.toRat ∧
      outputAddrs =
        (if 0 < changeAmount.toRat then
          appendOutput (outputsOfTo [("D", "1")]) first.Address changeAmount
         else outputsOfTo [("D", "1")]) ∧
      unspentTotal [⟨"U1", 1, "A", "0.5", true⟩, ⟨"U2", 0, "A", "0.6", true⟩] =
        outputTotal outputAddrs + (⟨43800, -8⟩ : Decimal).toRat ∧
      (∃ feesRead, Decimal.NewFromString
          ((⟨43800, -8⟩ : Decimal).StringFixed (configOf (some "0.0001")).Decimals) =
            some feesRead ∧
        feesRead.toRat = (⟨43800, -8⟩ : Decimal).toRat) ∧
      CreateBTCRawTransaction (configOf (some "0.0001")) sortByInsertion (some ["A"])
          listunspentTwo ⟨[("D", "1")], "0.001", ""⟩ 3 =
        (if (([⟨"U1", 1, "A", "0.5", true⟩, ⟨"U2", 0, "A", "0.6", true⟩] :
            List Unspent).length : Int) > (configOf (some "0.0001")).MaxTxInputs then .error
         else .handed
          { (⟨[("D", "1")], "0.001", ""⟩ : RawTransaction) with
            FeeRate := (feesRateOf (configOf (some "0.0001"))
              ⟨[("D", "1")], "0.001", ""⟩).StringFixed (configOf (some "0.0001")).Decimals
            Fees := (⟨43800, -8⟩ : Decimal).StringFixed (configOf (some "0.0001")).Decimals }
          [⟨"U1", 1, "A", "0.5", true⟩, ⟨"U2", 0, "A", "0.6", true⟩] outputAddrs) :=
  ⟨by decide,
    createRawTransaction_conserves_value (some "0.0001") sortByInsertion (some ["A"])
      listunspentTwo ⟨[("D", "1")], "0.001", ""⟩ 3
      [⟨"U1", 1, "A", "0.5", true⟩, ⟨"U2", 0, "A", "0.6", true⟩] ⟨11, -1⟩ ⟨43800, -8⟩
      (by decide)⟩

end Vas
